import Mathlib

/-!
Verification development for the cbz2epub repository.

The embedding models the two core packages:
* package cbz (cbz/cbz.go): ReadFile, MergeFiles, isImageFile, getMimeType,
  together with the parts of the Go standard library they rely on
  (filepath.Base, filepath.Ext, strings.ToLower, strings.TrimSuffix,
  and sort.Slice's pdqsort);
* package epub (epub/epub.go): ConvertFromCBZ.

Go strings are modelled as lists of characters (byte-wise string comparison
on valid UTF-8 agrees with code-point lexicographic comparison, since UTF-8
is order preserving); raw entry data is modelled as lists of bytes (Nat).
-/

/-- Go strings, modelled as lists of characters. -/
abbrev Str := List Char

/-- Shorthand turning a Lean string literal into the model type. -/
def str (s : String) : Str := s.data

/-- Byte strings (entry data). -/
abbrev Bytes := List Nat

/-- Byte-wise (code-point-wise) strict comparison, Go's `s < t` on strings. -/
def strLt : Str → Str → Bool
  | [], [] => false
  | [], _ :: _ => true
  | _ :: _, [] => false
  | a :: as, b :: bs =>
    if a.toNat < b.toNat then true
    else if b.toNat < a.toNat then false
    else strLt as bs

/-- ASCII lower-casing of one character; agrees with Go's `unicode.ToLower`
on the ASCII range, which is all this code base ever compares against. -/
def toLowerChar (c : Char) : Char :=
  if 'A' ≤ c ∧ c ≤ 'Z' then Char.ofNat (c.toNat + 32) else c

/-- Go `strings.ToLower` (restricted to its ASCII behaviour). -/
def stringsToLower (s : Str) : Str := s.map toLowerChar

/-- Go `strings.TrimSuffix`: drop `suffix` from the end of `s` when present. -/
def stringsTrimSuffix (s suffix : Str) : Str :=
  if suffix.length ≤ s.length ∧ s.drop (s.length - suffix.length) = suffix then
    s.take (s.length - suffix.length)
  else s

/-- Scanner for Go `filepath.Ext`, walking the path from its end: stop at a
path separator with no extension, return from the rightmost dot otherwise.
The first argument is the reversed path, the accumulator holds the already
scanned suffix in original order. -/
def extScanRev : List Char → List Char → Str
  | [], _ => []
  | c :: rest, acc =>
    if c = '/' then []
    else if c = '.' then c :: acc
    else extScanRev rest (c :: acc)

/-- Go `filepath.Ext`: the suffix beginning at the final dot in the final
slash-separated element of the path, empty if there is no dot. -/
def filepathExt (p : Str) : Str := extScanRev p.reverse []

/-- Go `filepath.Base`, Unix rules: empty path gives ".", trailing slashes
are stripped, the last path element is returned, all-slash paths give "/". -/
def filepathBase (p : Str) : Str :=
  if p = [] then str "."
  else
    let q := (p.reverse.dropWhile (fun c => c = '/')).reverse
    let r := (q.reverse.takeWhile (fun c => c ≠ '/')).reverse
    if r = [] then str "/" else r

/-- cbz.isImageFile: recognized image extensions, case-insensitively. -/
def isImageFile (filename : Str) : Bool :=
  let ext := stringsToLower (filepathExt filename)
  ext = str ".jpg" || ext = str ".jpeg" || ext = str ".png" ||
    ext = str ".gif" || ext = str ".webp"

/-- cbz.getMimeType: the fixed extension-to-MIME mapping. -/
def getMimeType (filename : Str) : Str :=
  let ext := stringsToLower (filepathExt filename)
  if ext = str ".jpg" ∨ ext = str ".jpeg" then str "image/jpeg"
  else if ext = str ".png" then str "image/png"
  else if ext = str ".gif" then str "image/gif"
  else if ext = str ".webp" then str "image/webp"
  else str "application/octet-stream"

/-- cbz.Image: an image inside a CBZ file. -/
structure Image where
  Name : Str
  Data : Bytes
  MimeType : Str
deriving DecidableEq, Inhabited, Repr

/-- cbz.File: a CBZ file with its contents. -/
structure CbzFile where
  Name : Str
  Images : List Image
deriving DecidableEq, Inhabited, Repr

instance {ε α : Type} [DecidableEq ε] [DecidableEq α] : DecidableEq (Except ε α) :=
  fun x y =>
    match x, y with
    | .error a, .error b =>
      if h : a = b then .isTrue (by rw [h]) else .isFalse (by intro hh; cases hh; exact h rfl)
    | .error _, .ok _ => .isFalse (by intro hh; cases hh)
    | .ok _, .error _ => .isFalse (by intro hh; cases hh)
    | .ok a, .ok b =>
      if h : a = b then .isTrue (by rw [h]) else .isFalse (by intro hh; cases hh; exact h rfl)

/-- One entry of an opened zip container, as surfaced by archive/zip:
its full name inside the archive, whether FileInfo reports a directory,
and the outcome of opening and fully reading it (an entry of a corrupt
container can fail at either step). -/
structure ZipEntry where
  name : Str
  isDir : Bool
  openErr : Option Str
  content : Except Str Bytes
deriving DecidableEq, Inhabited, Repr

/-- The filesystem as the cbz package sees it: at each path either a zip
container that opens to a list of entries (in archive iteration order), or
an open failure from zip.OpenReader. -/
def FS := Str → Except Str (List ZipEntry)

/-- Structural worker for the decimal digits of a natural number. The
fuel argument only bounds the recursion depth (any fuel above the digit
count gives the same value; n + 1 always suffices), keeping the
definition kernel-reducible. -/
def natDigitsF : Nat → Nat → List Char
  | 0, _ => []
  | fuel + 1, n =>
    if n < 10 then [Char.ofNat (48 + n)]
    else natDigitsF fuel (n / 10) ++ [Char.ofNat (48 + n % 10)]

/-- Decimal digits of a natural number, Go fmt's `%d` for non-negative
values. -/
def natDigits (n : Nat) : List Char := natDigitsF (n + 1) n

/-- Go fmt's `%03d` for non-negative values: decimal digits, left-padded
with zeros to width three. -/
def pad3 (n : Nat) : Str :=
  let d := natDigits n
  List.replicate (3 - d.length) '0' ++ d

/-! ## Go sort.Slice

cbz.ReadFile sorts with `sort.Slice`, which Go implements with pdqsort
(sort.go / zsortfunc.go). The functions below are a line-by-line
translation of that implementation, over lists with explicit index
arithmetic. Index scans that Go runs on machine ints are run on `Int`
to keep the exact same arithmetic; everything else is `Nat`. Every loop
is written with structural recursion over an explicit fuel bound chosen
at the call site to dominate the loop's iteration count, so that the
whole sort reduces inside the kernel; the enclosing range never exceeds
the fuel, hence the fuel never runs out on a reachable state. -/

/-- Element of a list at an index, with a default out of range (Go panics
out of range; every access the sort performs is in range). -/
def nth {α : Type} [Inhabited α] (l : List α) (i : Nat) : α := l.getD i default

/-- Element at an `Int` index. -/
def nthI {α : Type} [Inhabited α] (l : List α) (i : Int) : α :=
  if 0 ≤ i then nth l i.toNat else default

/-- data.Swap(i, j): exchange two positions (identity out of range). -/
def lswap {α : Type} [Inhabited α] (l : List α) (i j : Nat) : List α :=
  if i < l.length ∧ j < l.length then (l.set i (nth l j)).set j (nth l i) else l

/-- data.Swap at `Int` indices. -/
def lswapI {α : Type} [Inhabited α] (l : List α) (i j : Int) : List α :=
  if 0 ≤ i ∧ 0 ≤ j then lswap l i.toNat j.toNat else l

/-- Inner loop of insertionSort: `for j := i; j > a && data.Less(j, j-1); j--`
with its swap; structural on j (at j = 0 the `j > a` guard is false). -/
def insertionSortInner {α : Type} [Inhabited α] (less : α → α → Bool) :
    List α → Nat → Nat → List α
  | l, 0, _ => l
  | l, j + 1, a =>
    if a < j + 1 ∧ less (nth l (j + 1)) (nth l j) then
      insertionSortInner less (lswap l (j + 1) j) j a
    else l

/-- Outer loop of insertionSort: `for i := a + 1; i < b; i++`; the fuel
b - i bounds the remaining iterations exactly. -/
def insertionSortLoopF {α : Type} [Inhabited α] (less : α → α → Bool) :
    Nat → List α → Nat → Nat → Nat → List α
  | 0, l, _, _, _ => l
  | fuel + 1, l, i, b, a =>
    if i < b then insertionSortLoopF less fuel (insertionSortInner less l i a) (i + 1) b a
    else l

/-- Go sort's insertionSort on the half-open range [a, b). -/
def insertionSort {α : Type} [Inhabited α] (less : α → α → Bool)
    (l : List α) (a b : Nat) : List α :=
  insertionSortLoopF less (b - (a + 1)) l (a + 1) b a

/-- Go sort's siftDown loop; `root` strictly increases below hi, so fuel
hi suffices. -/
def siftDownF {α : Type} [Inhabited α] (less : α → α → Bool) :
    Nat → List α → Nat → Nat → Nat → List α
  | 0, l, _, _, _ => l
  | fuel + 1, l, root, hi, first =>
    if hi ≤ 2 * root + 1 then l
    else
      let child :=
        if 2 * root + 1 + 1 < hi ∧
            less (nth l (first + (2 * root + 1))) (nth l (first + (2 * root + 1) + 1)) then
          2 * root + 1 + 1
        else 2 * root + 1
      if less (nth l (first + root)) (nth l (first + child)) then
        siftDownF less fuel (lswap l (first + root) (first + child)) child hi first
      else l

/-- Go sort's siftDown: restore the max-heap property rooted at `root`
inside data[first : first+hi]. -/
def siftDown {α : Type} [Inhabited α] (less : α → α → Bool)
    (l : List α) (root hi first : Nat) : List α :=
  siftDownF less hi l root hi first

/-- Heap construction: `for i := (hi-1)/2; i >= 0; i--` running siftDown at
i, i-1, ..., 0. -/
def heapSortBuild {α : Type} [Inhabited α] (less : α → α → Bool)
    (l : List α) (i hi first : Nat) : List α :=
  let l1 := siftDown less l i hi first
  match i with
  | 0 => l1
  | i' + 1 => heapSortBuild less l1 i' hi first

/-- Pop phase: `for i := hi - 1; i >= 0; i--` swapping the maximum to the
end and re-sifting, for i, i-1, ..., 0. -/
def heapSortPop {α : Type} [Inhabited α] (less : α → α → Bool)
    (l : List α) (i first : Nat) : List α :=
  let l1 := siftDown less (lswap l first (first + i)) 0 i first
  match i with
  | 0 => l1
  | i' + 1 => heapSortPop less l1 i' first

/-- Go sort's heapSort on [a, b). -/
def heapSort {α : Type} [Inhabited α] (less : α → α → Bool)
    (l : List α) (a b : Nat) : List α :=
  let hi := b - a
  let l1 := heapSortBuild less l ((hi - 1) / 2) hi a
  if hi = 0 then l1 else heapSortPop less l1 (hi - 1) a

/-- reverseRange loop: `i, j := a, b-1; for i < j { swap; i++; j-- }`. -/
def reverseRangeLoopF {α : Type} [Inhabited α] :
    Nat → List α → Nat → Nat → List α
  | 0, l, _, _ => l
  | fuel + 1, l, i, j =>
    if i < j then reverseRangeLoopF fuel (lswap l i j) (i + 1) (j - 1) else l

/-- Go sort's reverseRange on [a, b). -/
def reverseRange {α : Type} [Inhabited α] (l : List α) (a b : Nat) : List α :=
  reverseRangeLoopF (b - 1 - a) l a (b - 1)

/-- Go sort's sortedHint values. -/
inductive SortedHint where
  | increasing
  | decreasing
  | unknown
deriving DecidableEq, Repr

/-- Go sort's order2: the two indices in value order, counting a swap when
they were inverted. -/
def order2 {α : Type} [Inhabited α] (less : α → α → Bool)
    (l : List α) (a b swaps : Nat) : Nat × Nat × Nat :=
  if less (nth l b) (nth l a) then (b, a, swaps + 1) else (a, b, swaps)

/-- Go sort's median of the values at three indices. -/
def median {α : Type} [Inhabited α] (less : α → α → Bool)
    (l : List α) (a b c swaps : Nat) : Nat × Nat :=
  let (a1, b1, s1) := order2 less l a b swaps
  let (b2, _, s2) := order2 less l b1 c s1
  let (_, b3, s3) := order2 less l a1 b2 s2
  (b3, s3)

/-- Go sort's medianAdjacent: median of the values at a-1, a, a+1. -/
def medianAdjacent {α : Type} [Inhabited α] (less : α → α → Bool)
    (l : List α) (a swaps : Nat) : Nat × Nat :=
  median less l (a - 1) a (a + 1) swaps

/-- Go sort's choosePivot: a pivot index in [a, b) plus a sortedness hint
(median of three for ranges of eight or more, Tukey ninther from fifty). -/
def choosePivot {α : Type} [Inhabited α] (less : α → α → Bool)
    (l : List α) (a b : Nat) : Nat × SortedHint :=
  let lng := b - a
  let i := a + lng / 4 * 1
  let j := a + lng / 4 * 2
  let k := a + lng / 4 * 3
  if 8 ≤ lng then
    let (i1, j1, k1, s1) :=
      if 50 ≤ lng then
        let (i1, si) := medianAdjacent less l i 0
        let (j1, sj) := medianAdjacent less l j si
        let (k1, sk) := medianAdjacent less l k sj
        (i1, j1, k1, sk)
      else (i, j, k, 0)
    let (j2, s2) := median less l i1 j1 k1 s1
    if s2 = 0 then (j2, SortedHint.increasing)
    else if s2 = 12 then (j2, SortedHint.decreasing)
    else (j2, SortedHint.unknown)
  else (j, SortedHint.increasing)

/-- Go sort's xorshift step on a uint64 state; the returned value is the
new state. -/
def xorshiftNext (r : Nat) : Nat :=
  let r1 := (Nat.xor r (r <<< 13)) % 2 ^ 64
  let r2 := Nat.xor r1 (r1 >>> 7)
  (Nat.xor r2 (r2 <<< 17)) % 2 ^ 64

/-- Structural worker for math/bits.Len (fuel above the bit count; n + 1
always suffices). -/
def bitsLenF : Nat → Nat → Nat
  | 0, _ => 0
  | fuel + 1, n => if n = 0 then 0 else bitsLenF fuel (n / 2) + 1

/-- math/bits.Len: the number of bits needed to represent n. -/
def bitsLen (n : Nat) : Nat := bitsLenF (n + 1) n

/-- Go sort's nextPowerOfTwo. -/
def nextPowerOfTwo (length : Nat) : Nat := 1 <<< bitsLen length

/-- The three swaps of breakPatterns, `for i := 0; i < 3; i++`. -/
def breakPatternsLoopF {α : Type} [Inhabited α] :
    Nat → List α → Nat → Nat → Nat → Nat → Nat → Nat → List α
  | 0, l, _, _, _, _, _, _ => l
  | fuel + 1, l, idx, a, length, modulus, random, i =>
    if i < 3 then
      let r := xorshiftNext random
      let other := Nat.land r (modulus - 1)
      let other1 := if length ≤ other then other - length else other
      breakPatternsLoopF fuel (lswap l (idx - 1 + i) (a + other1)) idx a length modulus r (i + 1)
    else l

/-- Go sort's breakPatterns: scatter three elements around the middle of
[a, b) using a deterministic xorshift seeded with the range length. -/
def breakPatterns {α : Type} [Inhabited α] (l : List α) (a b : Nat) : List α :=
  let length := b - a
  if 8 ≤ length then
    let modulus := nextPowerOfTwo length
    let idx := a + length / 4 * 2 - 1
    breakPatternsLoopF 3 l idx a length modulus length 0
  else l

/-- partition's left-to-right scan: `for i <= j && data.Less(i, a) { i++ }`. -/
def scanRightF {α : Type} [Inhabited α] (less : α → α → Bool) (l : List α) :
    Nat → Int → Int → Int → Int
  | 0, i, _, _ => i
  | fuel + 1, i, j, a =>
    if i ≤ j ∧ less (nthI l i) (nthI l a) then scanRightF less l fuel (i + 1) j a else i

/-- The scan with its exact fuel: at most j + 1 - i increments happen. -/
def scanRight {α : Type} [Inhabited α] (less : α → α → Bool)
    (l : List α) (i j a : Int) : Int :=
  scanRightF less l ((j + 1 - i).toNat + 1) i j a

/-- partition's right-to-left scan: `for i <= j && !data.Less(j, a) { j-- }`. -/
def scanLeftF {α : Type} [Inhabited α] (less : α → α → Bool) (l : List α) :
    Nat → Int → Int → Int → Int
  | 0, _, j, _ => j
  | fuel + 1, i, j, a =>
    if i ≤ j ∧ ¬ less (nthI l j) (nthI l a) then scanLeftF less l fuel i (j - 1) a else j

/-- The scan with its exact fuel. -/
def scanLeft {α : Type} [Inhabited α] (less : α → α → Bool)
    (l : List α) (i j a : Int) : Int :=
  scanLeftF less l ((j + 1 - i).toNat + 1) i j a

/-- Main loop of Go sort's partition, after the unrolled first scan; each
iteration shrinks j - i by at least two, so the fuel bounds it. -/
def partitionLoopF {α : Type} [Inhabited α] (less : α → α → Bool) :
    Nat → List α → Int → Int → Int → List α × Int
  | 0, l, _, _, j => (l, j)
  | fuel + 1, l, a, i, j =>
    let i1 := scanRight less l i j a
    let j1 := scanLeft less l i1 j a
    if i1 > j1 then (lswapI l j1 a, j1)
    else partitionLoopF less fuel (lswapI l i1 j1) a (i1 + 1) (j1 - 1)

/-- Go sort's partition: move the pivot value to `a`, partition [a+1, b)
into elements less than the pivot and the rest, park the pivot between
them, and report its final index together with the already-partitioned
flag. -/
def partition {α : Type} [Inhabited α] (less : α → α → Bool)
    (l : List α) (a b pivot : Nat) : List α × Nat × Bool :=
  let l0 := lswap l a pivot
  let A : Int := a
  let i := scanRight less l0 (A + 1) ((b : Int) - 1) A
  let j := scanLeft less l0 i ((b : Int) - 1) A
  if i > j then ((lswapI l0 j A), j.toNat, true)
  else
    let p := partitionLoopF less ((j + 1 - i).toNat + 1) (lswapI l0 i j) A (i + 1) (j - 1)
    (p.1, p.2.toNat, false)

/-- partitionEqual's left-to-right scan: `for i <= j && !data.Less(a, i)`. -/
def scanEqRightF {α : Type} [Inhabited α] (less : α → α → Bool) (l : List α) :
    Nat → Int → Int → Int → Int
  | 0, i, _, _ => i
  | fuel + 1, i, j, a =>
    if i ≤ j ∧ ¬ less (nthI l a) (nthI l i) then scanEqRightF less l fuel (i + 1) j a else i

/-- The scan with its exact fuel. -/
def scanEqRight {α : Type} [Inhabited α] (less : α → α → Bool)
    (l : List α) (i j a : Int) : Int :=
  scanEqRightF less l ((j + 1 - i).toNat + 1) i j a

/-- partitionEqual's right-to-left scan: `for i <= j && data.Less(a, j)`. -/
def scanEqLeftF {α : Type} [Inhabited α] (less : α → α → Bool) (l : List α) :
    Nat → Int → Int → Int → Int
  | 0, _, j, _ => j
  | fuel + 1, i, j, a =>
    if i ≤ j ∧ less (nthI l a) (nthI l j) then scanEqLeftF less l fuel i (j - 1) a else j

/-- The scan with its exact fuel. -/
def scanEqLeft {α : Type} [Inhabited α] (less : α → α → Bool)
    (l : List α) (i j a : Int) : Int :=
  scanEqLeftF less l ((j + 1 - i).toNat + 1) i j a

/-- Loop of Go sort's partitionEqual. -/
def partitionEqualLoopF {α : Type} [Inhabited α] (less : α → α → Bool) :
    Nat → List α → Int → Int → Int → List α × Int
  | 0, l, _, i, _ => (l, i)
  | fuel + 1, l, a, i, j =>
    let i1 := scanEqRight less l i j a
    let j1 := scanEqLeft less l i1 j a
    if i1 > j1 then (l, i1)
    else partitionEqualLoopF less fuel (lswapI l i1 j1) a (i1 + 1) (j1 - 1)

/-- Go sort's partitionEqual: move elements equal to the pivot value (at
index `pivot`) to the front of [a, b), returning the first index past
them. -/
def partitionEqual {α : Type} [Inhabited α] (less : α → α → Bool)
    (l : List α) (a b pivot : Nat) : List α × Nat :=
  let l0 := lswap l a pivot
  let p := partitionEqualLoopF less (((b : Int) - 1 + 1 - ((a : Int) + 1)).toNat + 1)
    l0 a ((a : Int) + 1) ((b : Int) - 1)
  (p.1, p.2.toNat)

/-- Left shift of Go sort's partialInsertionSort:
`for j := i - 1; j >= 1; j--` with its break-on-sorted check; structural
on j. -/
def shiftLeftLoop {α : Type} [Inhabited α] (less : α → α → Bool) :
    List α → Nat → List α
  | l, 0 => l
  | l, j + 1 =>
    if ¬ less (nth l (j + 1)) (nth l j) then l
    else shiftLeftLoop less (lswap l (j + 1) j) j

/-- Right shift of Go sort's partialInsertionSort:
`for j := i + 1; j < b; j++`. -/
def shiftRightLoopF {α : Type} [Inhabited α] (less : α → α → Bool) :
    Nat → List α → Nat → Nat → List α
  | 0, l, _, _ => l
  | fuel + 1, l, j, b =>
    if j < b then
      if ¬ less (nth l j) (nth l (j - 1)) then l
      else shiftRightLoopF less fuel (lswap l j (j - 1)) (j + 1) b
    else l

/-- The right shift with its exact fuel. -/
def shiftRightLoop {α : Type} [Inhabited α] (less : α → α → Bool)
    (l : List α) (j b : Nat) : List α :=
  shiftRightLoopF less (b - j) l j b

/-- The advancing scan of Go sort's partialInsertionSort:
`for i < b && !data.Less(i, i-1) { i++ }`. -/
def advanceSortedF {α : Type} [Inhabited α] (less : α → α → Bool) (l : List α) :
    Nat → Nat → Nat → Nat
  | 0, i, _ => i
  | fuel + 1, i, b =>
    if i < b ∧ ¬ less (nth l i) (nth l (i - 1)) then advanceSortedF less l fuel (i + 1) b
    else i

/-- The advancing scan with its exact fuel. -/
def advanceSorted {α : Type} [Inhabited α] (less : α → α → Bool)
    (l : List α) (i b : Nat) : Nat :=
  advanceSortedF less l (b - i) i b

/-- Outer loop of Go sort's partialInsertionSort, `steps` counting the
remaining of the maxSteps = 5 iterations; returns the data together with
the sorted verdict. -/
def partInsertionSortLoop {α : Type} [Inhabited α] (less : α → α → Bool)
    (l : List α) (a b i steps : Nat) : List α × Bool :=
  match steps with
  | 0 => (l, false)
  | steps' + 1 =>
    let i1 := advanceSorted less l i b
    if i1 = b then (l, true)
    else if b - a < 50 then (l, false)
    else
      let l1 := lswap l i1 (i1 - 1)
      let l2 := if 2 ≤ i1 - a then shiftLeftLoop less l1 (i1 - 1) else l1
      let l3 := if 2 ≤ b - i1 then shiftRightLoop less l2 (i1 + 1) b else l2
      partInsertionSortLoop less l3 a b i1 steps'

/-- Go sort's partialInsertionSort on [a, b): partially sorts and reports
whether the range ended up sorted. -/
def partInsertionSort {α : Type} [Inhabited α] (less : α → α → Bool)
    (l : List α) (a b : Nat) : List α × Bool :=
  partInsertionSortLoop less l a b (a + 1) 5

/-- Go sort's pdqsort on [a, b). `wasBalanced`/`wasPartitioned` carry the
loop state of Go's iterative outer loop; recursive calls restart them at
true exactly as Go's fresh stack frames do. -/
def pdqsort {α : Type} [Inhabited α] (less : α → α → Bool)
    (l : List α) (a b limit : Nat) (wasBalanced wasPartitioned : Bool)
    (fuel : Nat) : List α :=
  match fuel with
  | 0 => l
  | fuel' + 1 =>
    let length := b - a
    if length ≤ 12 then insertionSort less l a b
    else if limit = 0 then heapSort less l a b
    else
      let lim1 := if wasBalanced = false then limit - 1 else limit
      let l1 := if wasBalanced = false then breakPatterns l a b else l
      let pv := choosePivot less l1 a b
      let l2 := if pv.2 = SortedHint.decreasing then reverseRange l1 a b else l1
      let pivot := if pv.2 = SortedHint.decreasing then (b - 1) - (pv.1 - a) else pv.1
      let hint := if pv.2 = SortedHint.decreasing then SortedHint.increasing else pv.2
      let pis :=
        if wasBalanced ∧ wasPartitioned ∧ hint = SortedHint.increasing then
          partInsertionSort less l2 a b
        else (l2, false)
      let l3 := pis.1
      if pis.2 then l3
      else if 0 < a ∧ ¬ less (nth l3 (a - 1)) (nth l3 pivot) then
        let pe := partitionEqual less l3 a b pivot
        pdqsort less pe.1 pe.2 b lim1 wasBalanced wasPartitioned fuel'
      else
        let pt := partition less l3 a b pivot
        let l4 := pt.1
        let mid := pt.2.1
        let wasPartitioned1 := pt.2.2
        let leftLen := mid - a
        let rightLen := b - mid
        let wasBalanced1 := decide (length / 8 ≤ min leftLen rightLen)
        if leftLen < rightLen then
          let l5 := pdqsort less l4 a mid lim1 true true fuel'
          pdqsort less l5 (mid + 1) b lim1 wasBalanced1 wasPartitioned1 fuel'
        else
          let l5 := pdqsort less l4 (mid + 1) b lim1 true true fuel'
          pdqsort less l5 a mid lim1 wasBalanced1 wasPartitioned1 fuel'

/-- Go's sort.Slice: pdqsort over the whole list with limit = bits.Len of
the length. -/
def sortSlice {α : Type} [Inhabited α] (less : α → α → Bool) (l : List α) : List α :=
  pdqsort less l 0 l.length (bitsLen l.length) true true (l.length + 1)

/-! ## Package cbz: ReadFile and MergeFiles -/

/-- The comparison closure ReadFile hands to sort.Slice:
`cbzFile.Images[i].Name < cbzFile.Images[j].Name`. -/
def lessImage (x y : Image) : Bool := strLt x.Name y.Name

/-- The entry loop of cbz.ReadFile: skip directories and non-images, fail
on an entry that cannot be opened or read, and collect the images in
iteration order. -/
def readEntries : List ZipEntry → Except Str (List Image)
  | [] => .ok []
  | file :: rest =>
    if file.isDir || !isImageFile file.name then readEntries rest
    else
      match file.openErr with
      | some e => .error (str "failed to open file in CBZ: " ++ e)
      | none =>
        match file.content with
        | .error e => .error (str "failed to read file data: " ++ e)
        | .ok data =>
          match readEntries rest with
          | .error e => .error e
          | .ok imgs =>
            .ok ({ Name := filepathBase file.name, Data := data,
                   MimeType := getMimeType file.name } :: imgs)

/-- cbz.ReadFile: open the container at `filename`, collect its image
entries, and sort them by name with sort.Slice. -/
def ReadFile (fs : FS) (filename : Str) : Except Str CbzFile :=
  match fs filename with
  | .error e => .error (str "failed to open CBZ file: " ++ e)
  | .ok entries =>
    match readEntries entries with
    | .error e => .error e
    | .ok images => .ok { Name := filename, Images := sortSlice lessImage images }

/-- The inner loop of cbz.MergeFiles over one archive's images: rename
each to chapter{c:03d}_{n:03d}{ext} and advance the global counter. -/
def writeChapterImages (chapterIndex : Nat) : List Image → Nat → List (Str × Bytes) × Nat
  | [], counter => ([], counter)
  | image :: rest, counter =>
    let ext := filepathExt image.Name
    let newName := str "chapter" ++ pad3 (chapterIndex + 1) ++ str "_" ++ pad3 counter ++ ext
    let p := writeChapterImages chapterIndex rest (counter + 1)
    ((newName, image.Data) :: p.1, p.2)

/-- The outer loop of cbz.MergeFiles: read each input in order, abort on
the first read failure with its wrapped error, otherwise write that
archive's renamed images. -/
def mergeLoop (fs : FS) : List Str → Nat → Nat → Except Str (List (Str × Bytes))
  | [], _, _ => .ok []
  | inputFile :: rest, chapterIndex, imageCounter =>
    match ReadFile fs inputFile with
    | .error err => .error (str "failed to read input file " ++ inputFile ++ str ": " ++ err)
    | .ok cbzFile =>
      let p := writeChapterImages chapterIndex cbzFile.Images imageCounter
      match mergeLoop fs rest (chapterIndex + 1) p.2 with
      | .error e => .error e
      | .ok outRest => .ok (p.1 ++ outRest)

/-- cbz.MergeFiles: merge the inputs into one container, returning the
written (name, data) entries in order. Failures of os.Create and of the
zip writer are not modelled (the output sink is in-memory here); the
partially written output file Go leaves behind on failure is likewise
outside the model, which returns only the error. -/
def MergeFiles (fs : FS) (inputFiles : List Str) (outputFile : Str) :
    Except Str (List (Str × Bytes)) :=
  mergeLoop fs inputFiles 0 1

/-! ## Package epub: ConvertFromCBZ -/

/-- UTF-8 encoding of one character (Go strings are UTF-8 bytes). -/
def charUtf8 (c : Char) : Bytes :=
  let n := c.toNat
  if n < 128 then [n]
  else if n < 2048 then [192 + n / 64, 128 + n % 64]
  else if n < 65536 then [224 + n / 4096, 128 + n / 64 % 64, 128 + n % 64]
  else [240 + n / 262144, 128 + n / 4096 % 64, 128 + n / 64 % 64, 128 + n % 64]

/-- UTF-8 bytes of a string. -/
def utf8Enc (s : Str) : Bytes := s.bind charUtf8

/-- One entry written to the output EPUB container: its path, whether it
was created with zip.Store (uncompressed), and its byte content. -/
structure EpubEntry where
  name : Str
  stored : Bool
  data : Bytes
deriving DecidableEq, Inhabited, Repr

/-- The literal content of the mimetype entry. -/
def mimetypeContent : Str := str "application/epub+zip"

/-- The literal content of META-INF/container.xml. -/
def containerXml : Str :=
  str "<?xml version=\"1.0\" encoding=\"UTF-8\"?>\n<container version=\"1.0\" xmlns=\"urn:oasis:names:tc:opendocument:xmlns:container\">\n  <rootfiles>\n    <rootfile full-path=\"OEBPS/content.opf\" media-type=\"application/oebps-package+xml\"/>\n  </rootfiles>\n</container>"

/-- The title ConvertFromCBZ derives:
`strings.TrimSuffix(filepath.Base(cbzFile.Name), ".cbz")`. -/
def goTitle (name : Str) : Str := stringsTrimSuffix (filepathBase name) (str ".cbz")

/-- The renamed image file: `fmt.Sprintf("image%03d%s", i+1, ext)` with
ext = filepath.Ext of the image's name. `seq` is the 1-based sequence
number i+1. -/
def imageNewName (seq : Nat) (image : Image) : Str :=
  str "image" ++ pad3 seq ++ filepathExt image.Name

/-- The wrapper page file name: `fmt.Sprintf("page%03d.xhtml", i+1)`. -/
def pageFileName (seq : Nat) : Str := str "page" ++ pad3 seq ++ str ".xhtml"

/-- The fixed prefix of content.opf up to the interpolated title. -/
def opfBeforeTitle : Str :=
  str "<?xml version=\"1.0\" encoding=\"UTF-8\"?>\n<package xmlns=\"http://www.idpf.org/2007/opf\" unique-identifier=\"BookID\" version=\"2.0\">\n  <metadata xmlns:dc=\"http://purl.org/dc/elements/1.1/\" xmlns:opf=\"http://www.idpf.org/2007/opf\">\n    <dc:title>"

/-- content.opf between the title and the uuid interpolations. -/
def opfTitleToUuid : Str :=
  str "</dc:title>\n    <dc:language>en</dc:language>\n    <dc:identifier id=\"BookID\">urn:uuid:"

/-- content.opf between the uuid and the date interpolations. -/
def opfUuidToDate : Str :=
  str "</dc:identifier>\n    <dc:date>"

/-- content.opf after the date: creator, end of metadata, start of the
manifest with its fixed ncx item. -/
def opfAfterDate : Str :=
  str "</dc:date>\n    <dc:creator>CBZ2EPUB Converter</dc:creator>\n  </metadata>\n  <manifest>\n    <item id=\"ncx\" href=\"toc.ncx\" media-type=\"application/x-dtbncx+xml\"/>\n"

/-- The header of content.opf: the Sprintf with title, uuid and date. -/
def opfHeader (title uuid date : Str) : Str :=
  opfBeforeTitle ++ title ++ opfTitleToUuid ++ uuid ++ opfUuidToDate ++ date ++ opfAfterDate

/-- One image manifest item:
`"    <item id=\"image%03d\" href=\"images/%s\" media-type=\"%s\"/>\n"`. -/
def opfImageItem (seq : Nat) (newName mime : Str) : Str :=
  str "    <item id=\"image" ++ pad3 seq ++ str "\" href=\"images/" ++ newName ++
    str "\" media-type=\"" ++ mime ++ str "\"/>\n"

/-- One page manifest item:
`"    <item id=\"page%03d\" href=\"pages/%s\" media-type=\"application/xhtml+xml\"/>\n"`. -/
def opfPageItem (seq : Nat) (pageName : Str) : Str :=
  str "    <item id=\"page" ++ pad3 seq ++ str "\" href=\"pages/" ++ pageName ++
    str "\" media-type=\"application/xhtml+xml\"/>\n"

/-- The spine opener written after the manifest. -/
def spineOpen : Str := str "  </manifest>\n  <spine toc=\"ncx\">\n"

/-- One spine reference: `"    <itemref idref=\"page%03d\"/>\n"`. -/
def spineItemref (seq : Nat) : Str :=
  str "    <itemref idref=\"page" ++ pad3 seq ++ str "\"/>\n"

/-- The closing of content.opf. -/
def spineClose : Str := str "  </spine>\n</package>"

/-- The manifest items for the images, in the order of the first loop. -/
def opfImageItems (images : List Image) : List Str :=
  images.enum.map (fun p => opfImageItem (p.1 + 1) (imageNewName (p.1 + 1) p.2) p.2.MimeType)

/-- The manifest items for the pages, in the order of the second loop. -/
def opfPageItems (images : List Image) : List Str :=
  images.enum.map (fun p => opfPageItem (p.1 + 1) (pageFileName (p.1 + 1)))

/-- The spine references, one per image, in sequence order. -/
def spineItemrefs (images : List Image) : List Str :=
  images.enum.map (fun p => spineItemref (p.1 + 1))

/-- The full content.opf document as ConvertFromCBZ accumulates it. -/
def contentOpf (title uuid date : Str) (images : List Image) : Str :=
  opfHeader title uuid date ++ (opfImageItems images).join ++ (opfPageItems images).join ++
    spineOpen ++ (spineItemrefs images).join ++ spineClose

/-- The wrapper page document for sequence number `seq` referencing
`newName`; the Sprintf of the XHTML template. -/
def pageHtml (seq : Nat) (newName : Str) : Str :=
  str "<?xml version=\"1.0\" encoding=\"UTF-8\"?>\n<!DOCTYPE html PUBLIC \"-//W3C//DTD XHTML 1.1//EN\" \"http://www.w3.org/TR/xhtml11/DTD/xhtml11.dtd\">\n<html xmlns=\"http://www.w3.org/1999/xhtml\">\n<head>\n  <title>Page " ++
    natDigits seq ++
    str "</title>\n  <style type=\"text/css\">\n    img \x7b max-width: 100%; max-height: 100%; \x7d\n    body \x7b margin: 0; padding: 0; text-align: center; \x7d\n  </style>\n</head>\n<body>\n  <div>\n    <img src=\"../images/" ++
    newName ++ str "\" alt=\"Page " ++ natDigits seq ++
    str "\" />\n  </div>\n</body>\n</html>"

/-- The fixed prefix of toc.ncx up to the interpolated uuid. -/
def ncxBeforeUuid : Str :=
  str "<?xml version=\"1.0\" encoding=\"UTF-8\"?>\n<!DOCTYPE ncx PUBLIC \"-//NISO//DTD ncx 2005-1//EN\" \"http://www.daisy.org/z3986/2005/ncx-2005-1.dtd\">\n<ncx xmlns=\"http://www.daisy.org/z3986/2005/ncx/\" version=\"2005-1\">\n  <head>\n    <meta name=\"dtb:uid\" content=\"urn:uuid:"

/-- toc.ncx between the uuid and the title interpolations. -/
def ncxUuidToTitle : Str :=
  str "\"/>\n    <meta name=\"dtb:depth\" content=\"1\"/>\n    <meta name=\"dtb:totalPageCount\" content=\"0\"/>\n    <meta name=\"dtb:maxPageNumber\" content=\"0\"/>\n  </head>\n  <docTitle>\n    <text>"

/-- toc.ncx after the title: end of docTitle, start of navMap. -/
def ncxAfterTitle : Str :=
  str "</text>\n  </docTitle>\n  <navMap>\n"

/-- The header of toc.ncx: the Sprintf with uuid and title. -/
def ncxHeader (uuid title : Str) : Str :=
  ncxBeforeUuid ++ uuid ++ ncxUuidToTitle ++ title ++ ncxAfterTitle

/-- One navPoint of toc.ncx; all four interpolated numbers are i+1. -/
def navPoint (seq : Nat) : Str :=
  str "    <navPoint id=\"navpoint-" ++ natDigits seq ++ str "\" playOrder=\"" ++
    natDigits seq ++ str "\">\n      <navLabel>\n        <text>Page " ++ natDigits seq ++
    str "</text>\n      </navLabel>\n      <content src=\"pages/page" ++ pad3 seq ++
    str ".xhtml\"/>\n    </navPoint>\n"

/-- The navigation points, one per image, in sequence order. -/
def navPoints (images : List Image) : List Str :=
  images.enum.map (fun p => navPoint (p.1 + 1))

/-- The closing of toc.ncx. -/
def ncxClose : Str := str "  </navMap>\n</ncx>"

/-- The full toc.ncx document. -/
def tocNcx (uuid title : Str) (images : List Image) : Str :=
  ncxHeader uuid title ++ (navPoints images).join ++ ncxClose

/-- epub.ConvertFromCBZ: the entries written to the output container, in
write order. The generated uuid (util.GenerateUUID) and the formatted
current date (time.Now) are nondeterministic inputs of the code and are
taken as parameters; `outputFile` only names the output path and does not
influence the entries. Entry-creation and write failures of the output
file are not modelled (the output sink is in-memory here). -/
def ConvertFromCBZ (cbzFile : CbzFile) (outputFile uuid date : Str) : List EpubEntry :=
  let title := goTitle cbzFile.Name
  [ { name := str "mimetype", stored := true, data := utf8Enc mimetypeContent },
    { name := str "META-INF/container.xml", stored := false, data := utf8Enc containerXml } ]
  ++ cbzFile.Images.enum.map (fun p =>
      { name := str "OEBPS/images/" ++ imageNewName (p.1 + 1) p.2, stored := false,
        data := p.2.Data })
  ++ cbzFile.Images.enum.map (fun p =>
      { name := str "OEBPS/pages/" ++ pageFileName (p.1 + 1), stored := false,
        data := utf8Enc (pageHtml (p.1 + 1) (imageNewName (p.1 + 1) p.2)) })
  ++ [ { name := str "OEBPS/content.opf", stored := false,
         data := utf8Enc (contentOpf title uuid date cbzFile.Images) },
       { name := str "OEBPS/toc.ncx", stored := false,
         data := utf8Enc (tocNcx uuid title cbzFile.Images) } ]

/-! ## Permutation facts about the sort

Every mutation the sort performs is a swap, so each routine returns a
permutation of its input. -/

theorem set_nth_self {α : Type} [Inhabited α] (l : List α) (i : Nat) :
    l.set i (nth l i) = l := by
  induction l generalizing i with
  | nil => rfl
  | cons x xs ih =>
    cases i with
    | zero => rfl
    | succ k => show x :: xs.set k (nth xs k) = x :: xs; rw [ih]

theorem perm_cons_set {α : Type} [Inhabited α] (xs : List α) (k : Nat) (x : α)
    (h : k < xs.length) : List.Perm (nth xs k :: xs.set k x) (x :: xs) := by
  induction xs generalizing k with
  | nil => simp at h
  | cons y ys ih =>
    cases k with
    | zero => exact List.Perm.swap x y ys
    | succ k =>
      show List.Perm (nth ys k :: y :: ys.set k x) (x :: y :: ys)
      exact (List.Perm.swap y (nth ys k) (ys.set k x)).trans
        (((ih k (by simpa using h)).cons y).trans (List.Perm.swap x y ys))

theorem lswap_perm_aux {α : Type} [Inhabited α] (l : List α) (i j : Nat)
    (hij : i < j) (hj : j < l.length) :
    List.Perm ((l.set i (nth l j)).set j (nth l i)) l := by
  induction l generalizing i j with
  | nil => simp at hj
  | cons x xs ih =>
    cases i with
    | zero =>
      obtain ⟨jj, rfl⟩ : ∃ jj, j = jj + 1 := ⟨j - 1, by omega⟩
      exact perm_cons_set xs jj x (by simpa using hj)
    | succ ii =>
      obtain ⟨jj, rfl⟩ : ∃ jj, j = jj + 1 := ⟨j - 1, by omega⟩
      show List.Perm (x :: (xs.set ii (nth xs jj)).set jj (nth xs ii)) (x :: xs)
      exact (ih ii jj (by omega) (by simpa using hj)).cons x

theorem lswap_perm {α : Type} [Inhabited α] (l : List α) (i j : Nat) :
    List.Perm (lswap l i j) l := by
  unfold lswap
  split
  case isTrue h =>
    rcases Nat.lt_trichotomy i j with hij | rfl | hji
    · exact lswap_perm_aux l i j hij h.2
    · rw [List.set_set, set_nth_self]
    · rw [List.set_comm _ _ _ (by omega)]
      exact lswap_perm_aux l j i hji h.1
  case isFalse _ => exact List.Perm.refl l

theorem lswapI_perm {α : Type} [Inhabited α] (l : List α) (i j : Int) :
    List.Perm (lswapI l i j) l := by
  unfold lswapI
  split
  · exact lswap_perm _ _ _
  · exact List.Perm.refl l

theorem insertionSortInner_perm {α : Type} [Inhabited α] (less : α → α → Bool)
    (l : List α) (j a : Nat) : List.Perm (insertionSortInner less l j a) l := by
  induction j generalizing l with
  | zero => exact List.Perm.refl l
  | succ j ih =>
    simp only [insertionSortInner]
    split
    · exact (ih _).trans (lswap_perm l (j + 1) j)
    · exact List.Perm.refl l

theorem insertionSortLoopF_perm {α : Type} [Inhabited α] (less : α → α → Bool)
    (fuel : Nat) : ∀ (l : List α) (i b a : Nat),
    List.Perm (insertionSortLoopF less fuel l i b a) l := by
  induction fuel with
  | zero => intro l i b a; exact List.Perm.refl l
  | succ fuel ih =>
    intro l i b a
    simp only [insertionSortLoopF]
    split
    · exact (ih _ _ _ _).trans (insertionSortInner_perm less l i a)
    · exact List.Perm.refl l

theorem insertionSort_perm {α : Type} [Inhabited α] (less : α → α → Bool)
    (l : List α) (a b : Nat) : List.Perm (insertionSort less l a b) l :=
  insertionSortLoopF_perm less (b - (a + 1)) l (a + 1) b a

theorem siftDownF_perm {α : Type} [Inhabited α] (less : α → α → Bool)
    (fuel : Nat) : ∀ (l : List α) (root hi first : Nat),
    List.Perm (siftDownF less fuel l root hi first) l := by
  induction fuel with
  | zero => intro l root hi first; exact List.Perm.refl l
  | succ fuel ih =>
    intro l root hi first
    simp only [siftDownF]
    split
    · exact List.Perm.refl l
    · split <;> split
      · exact (ih _ _ _ _).trans (lswap_perm _ _ _)
      · exact List.Perm.refl l
      · exact (ih _ _ _ _).trans (lswap_perm _ _ _)
      · exact List.Perm.refl l

theorem siftDown_perm {α : Type} [Inhabited α] (less : α → α → Bool)
    (l : List α) (root hi first : Nat) : List.Perm (siftDown less l root hi first) l :=
  siftDownF_perm less hi l root hi first

theorem heapSortBuild_perm {α : Type} [Inhabited α] (less : α → α → Bool)
    (l : List α) (i hi first : Nat) : List.Perm (heapSortBuild less l i hi first) l := by
  induction i generalizing l with
  | zero => exact siftDown_perm less l 0 hi first
  | succ i ih =>
    exact (ih (siftDown less l (i + 1) hi first)).trans (siftDown_perm less l (i + 1) hi first)

theorem heapSortPop_perm {α : Type} [Inhabited α] (less : α → α → Bool)
    (l : List α) (i first : Nat) : List.Perm (heapSortPop less l i first) l := by
  induction i generalizing l with
  | zero =>
    exact (siftDown_perm less (lswap l first (first + 0)) 0 0 first).trans (lswap_perm _ _ _)
  | succ i ih =>
    exact ((ih _).trans (siftDown_perm less (lswap l first (first + (i + 1))) 0 (i + 1) first)).trans
      (lswap_perm _ _ _)

theorem heapSort_perm {α : Type} [Inhabited α] (less : α → α → Bool)
    (l : List α) (a b : Nat) : List.Perm (heapSort less l a b) l := by
  unfold heapSort
  dsimp only
  split
  · exact heapSortBuild_perm less l _ _ _
  · exact (heapSortPop_perm less _ _ _).trans (heapSortBuild_perm less l _ _ _)

theorem reverseRangeLoopF_perm {α : Type} [Inhabited α] (fuel : Nat) :
    ∀ (l : List α) (i j : Nat), List.Perm (reverseRangeLoopF fuel l i j) l := by
  induction fuel with
  | zero => intro l i j; exact List.Perm.refl l
  | succ fuel ih =>
    intro l i j
    simp only [reverseRangeLoopF]
    split
    · exact (ih _ _ _).trans (lswap_perm _ _ _)
    · exact List.Perm.refl l

theorem reverseRange_perm {α : Type} [Inhabited α] (l : List α) (a b : Nat) :
    List.Perm (reverseRange l a b) l :=
  reverseRangeLoopF_perm (b - 1 - a) l a (b - 1)

theorem breakPatternsLoopF_perm {α : Type} [Inhabited α] (fuel : Nat) :
    ∀ (l : List α) (idx a length modulus random i : Nat),
    List.Perm (breakPatternsLoopF fuel l idx a length modulus random i) l := by
  induction fuel with
  | zero => intro l idx a length modulus random i; exact List.Perm.refl l
  | succ fuel ih =>
    intro l idx a length modulus random i
    simp only [breakPatternsLoopF]
    split
    · exact (ih _ _ _ _ _ _ _).trans (lswap_perm _ _ _)
    · exact List.Perm.refl l

theorem breakPatterns_perm {α : Type} [Inhabited α] (l : List α) (a b : Nat) :
    List.Perm (breakPatterns l a b) l := by
  unfold breakPatterns
  dsimp only
  split
  · exact breakPatternsLoopF_perm 3 l _ _ _ _ _ _
  · exact List.Perm.refl l

theorem partitionLoopF_fst_perm {α : Type} [Inhabited α] (less : α → α → Bool)
    (fuel : Nat) : ∀ (l : List α) (a i j : Int),
    List.Perm (partitionLoopF less fuel l a i j).1 l := by
  induction fuel with
  | zero => intro l a i j; exact List.Perm.refl l
  | succ fuel ih =>
    intro l a i j
    simp only [partitionLoopF]
    split
    · exact lswapI_perm _ _ _
    · exact (ih _ _ _ _).trans (lswapI_perm _ _ _)

theorem partition_fst_perm {α : Type} [Inhabited α] (less : α → α → Bool)
    (l : List α) (a b pivot : Nat) : List.Perm (partition less l a b pivot).1 l := by
  unfold partition
  dsimp only
  split
  · exact (lswapI_perm _ _ _).trans (lswap_perm _ _ _)
  · exact ((partitionLoopF_fst_perm less _ _ _ _ _).trans (lswapI_perm _ _ _)).trans
      (lswap_perm _ _ _)

theorem partitionEqualLoopF_fst_perm {α : Type} [Inhabited α] (less : α → α → Bool)
    (fuel : Nat) : ∀ (l : List α) (a i j : Int),
    List.Perm (partitionEqualLoopF less fuel l a i j).1 l := by
  induction fuel with
  | zero => intro l a i j; exact List.Perm.refl l
  | succ fuel ih =>
    intro l a i j
    simp only [partitionEqualLoopF]
    split
    · exact List.Perm.refl l
    · exact (ih _ _ _ _).trans (lswapI_perm _ _ _)

theorem partitionEqual_fst_perm {α : Type} [Inhabited α] (less : α → α → Bool)
    (l : List α) (a b pivot : Nat) : List.Perm (partitionEqual less l a b pivot).1 l := by
  unfold partitionEqual
  dsimp only
  exact (partitionEqualLoopF_fst_perm less _ _ _ _ _).trans (lswap_perm _ _ _)

theorem shiftLeftLoop_perm {α : Type} [Inhabited α] (less : α → α → Bool)
    (l : List α) (j : Nat) : List.Perm (shiftLeftLoop less l j) l := by
  induction j generalizing l with
  | zero => exact List.Perm.refl l
  | succ j ih =>
    simp only [shiftLeftLoop]
    split
    · exact List.Perm.refl l
    · exact (ih _).trans (lswap_perm _ _ _)

theorem shiftRightLoopF_perm {α : Type} [Inhabited α] (less : α → α → Bool)
    (fuel : Nat) : ∀ (l : List α) (j b : Nat),
    List.Perm (shiftRightLoopF less fuel l j b) l := by
  induction fuel with
  | zero => intro l j b; exact List.Perm.refl l
  | succ fuel ih =>
    intro l j b
    simp only [shiftRightLoopF]
    split
    · split
      · exact List.Perm.refl l
      · exact (ih _ _ _).trans (lswap_perm _ _ _)
    · exact List.Perm.refl l

theorem shiftRightLoop_perm {α : Type} [Inhabited α] (less : α → α → Bool)
    (l : List α) (j b : Nat) : List.Perm (shiftRightLoop less l j b) l :=
  shiftRightLoopF_perm less (b - j) l j b

theorem partInsertionSortLoop_fst_perm {α : Type} [Inhabited α] (less : α → α → Bool)
    (l : List α) (a b i steps : Nat) :
    List.Perm (partInsertionSortLoop less l a b i steps).1 l := by
  induction steps generalizing l i with
  | zero => exact List.Perm.refl l
  | succ steps ih =>
    rw [partInsertionSortLoop]
    split
    · exact List.Perm.refl l
    · split
      · exact List.Perm.refl l
      · have hbase : List.Perm
            (lswap l (advanceSorted less l i b) (advanceSorted less l i b - 1)) l :=
          lswap_perm _ _ _
        have hl2 : List.Perm (if 2 ≤ advanceSorted less l i b - a then
            shiftLeftLoop less
              (lswap l (advanceSorted less l i b) (advanceSorted less l i b - 1))
              (advanceSorted less l i b - 1)
          else lswap l (advanceSorted less l i b) (advanceSorted less l i b - 1)) l := by
          split
          · exact (shiftLeftLoop_perm less _ _).trans hbase
          · exact hbase
        refine (ih _ _).trans ?_
        split
        · exact (shiftRightLoop_perm less _ _ _).trans hl2
        · exact hl2

theorem partInsertionSort_fst_perm {α : Type} [Inhabited α] (less : α → α → Bool)
    (l : List α) (a b : Nat) : List.Perm (partInsertionSort less l a b).1 l :=
  partInsertionSortLoop_fst_perm less l a b (a + 1) 5

set_option maxHeartbeats 2000000 in
theorem pdqsort_perm {α : Type} [Inhabited α] (less : α → α → Bool) (fuel : Nat) :
    ∀ (l : List α) (a b limit : Nat) (wB wP : Bool),
    List.Perm (pdqsort less l a b limit wB wP fuel) l := by
  induction fuel with
  | zero => intro l a b limit wB wP; rw [pdqsort]
  | succ fuel ih =>
    intro l a b limit wB wP
    rw [pdqsort]
    simp only []
    split
    · exact insertionSort_perm less l _ _
    · split
      · exact heapSort_perm less l _ _
      · have hl1 : List.Perm (if wB = false then breakPatterns l a b else l) l := by
          split
          · exact breakPatterns_perm l a b
          · exact List.Perm.refl l
        set l1 := if wB = false then breakPatterns l a b else l with hl1def
        have hl2 : ∀ c : Prop, ∀ inst : Decidable c,
            List.Perm (if c then reverseRange l1 a b else l1) l := by
          intro c inst
          split
          · exact (reverseRange_perm l1 a b).trans hl1
          · exact hl1
        set l2 := if (choosePivot less l1 a b).2 = SortedHint.decreasing
          then reverseRange l1 a b else l1 with hl2def
        have hl2' : List.Perm l2 l := hl2 _ _
        have hl3 : ∀ c : Prop, ∀ inst : Decidable c,
            List.Perm (if c then partInsertionSort less l2 a b else (l2, false)).1 l := by
          intro c inst
          split
          · exact (partInsertionSort_fst_perm less l2 a b).trans hl2'
          · exact hl2'
        set pis := if wB = true ∧ wP = true ∧
            (if (choosePivot less l1 a b).2 = SortedHint.decreasing then SortedHint.increasing
              else (choosePivot less l1 a b).2) = SortedHint.increasing
          then partInsertionSort less l2 a b else (l2, false) with hpisdef
        have hpis : List.Perm pis.1 l := hl3 _ _
        repeat' split
        all_goals
          first
            | exact hpis
            | exact (ih _ _ _ _ _ _).trans ((partitionEqual_fst_perm less pis.1 a b _).trans hpis)
            | exact (ih _ _ _ _ _ _).trans ((ih _ _ _ _ _ _).trans
                ((partition_fst_perm less pis.1 a b _).trans hpis))

theorem sortSlice_perm {α : Type} [Inhabited α] (less : α → α → Bool) (l : List α) :
    List.Perm (sortSlice less l) l :=
  pdqsort_perm less (l.length + 1) l 0 l.length (bitsLen l.length) true true

/-! ## Decimal digit facts

pad3 (Go's %03d) is injective, all its output characters are digits, and a
string of digits followed by a non-digit (or nothing) decomposes uniquely.
These facts drive the uniqueness of the generated entry names. -/

/-- Whether a character is an ASCII decimal digit. -/
def isDigitC (c : Char) : Bool := decide (48 ≤ c.toNat) && decide (c.toNat ≤ 57)

theorem digit_toNat (n : Nat) (h : n < 10) : (Char.ofNat (48 + n)).toNat = 48 + n := by
  interval_cases n <;> decide

theorem natDigitsF_digits (fuel : Nat) : ∀ n, n < fuel →
    ∀ c ∈ natDigitsF fuel n, isDigitC c = true := by
  induction fuel with
  | zero => intro n h; omega
  | succ fuel ih =>
    intro n h c hc
    simp only [natDigitsF] at hc
    by_cases hn : n < 10
    · rw [if_pos hn] at hc
      simp only [List.mem_singleton] at hc
      subst hc
      simp only [isDigitC, digit_toNat n hn, Bool.and_eq_true, decide_eq_true_eq]
      omega
    · rw [if_neg hn] at hc
      rcases List.mem_append.1 hc with hc | hc
      · exact ih (n / 10) (by omega) c hc
      · simp only [List.mem_singleton] at hc
        subst hc
        simp only [isDigitC, digit_toNat (n % 10) (by omega), Bool.and_eq_true,
          decide_eq_true_eq]
        omega

theorem natDigits_digits (n : Nat) : ∀ c ∈ natDigits n, isDigitC c = true :=
  natDigitsF_digits (n + 1) n (by omega)

/-- Value of a digit string, most significant first. -/
def digitsValAux (acc : Nat) : Str → Nat
  | [] => acc
  | c :: t => digitsValAux (acc * 10 + (c.toNat - 48)) t

theorem digitsValAux_append (acc : Nat) (l : Str) (c : Char) :
    digitsValAux acc (l ++ [c]) = digitsValAux acc l * 10 + (c.toNat - 48) := by
  induction l generalizing acc with
  | nil => rfl
  | cons d t ih => exact ih _

theorem natDigitsF_val (fuel : Nat) : ∀ n, n < fuel →
    digitsValAux 0 (natDigitsF fuel n) = n := by
  induction fuel with
  | zero => intro n h; omega
  | succ fuel ih =>
    intro n h
    simp only [natDigitsF]
    by_cases hn : n < 10
    · rw [if_pos hn]
      show 0 * 10 + ((Char.ofNat (48 + n)).toNat - 48) = n
      rw [digit_toNat n hn]
      omega
    · rw [if_neg hn, digitsValAux_append, ih (n / 10) (by omega),
        digit_toNat (n % 10) (by omega)]
      omega

theorem digitsValAux_natDigits (n : Nat) : digitsValAux 0 (natDigits n) = n :=
  natDigitsF_val (n + 1) n (by omega)

theorem digitsValAux_zeros (k : Nat) (l : Str) :
    digitsValAux 0 (List.replicate k '0' ++ l) = digitsValAux 0 l := by
  induction k with
  | zero => rfl
  | succ k ih =>
    show digitsValAux (0 * 10 + ('0'.toNat - 48)) (List.replicate k '0' ++ l) = _
    simpa using ih

theorem pad3_val (n : Nat) : digitsValAux 0 (pad3 n) = n := by
  show digitsValAux 0 (List.replicate _ '0' ++ natDigits n) = n
  rw [digitsValAux_zeros, digitsValAux_natDigits]

theorem pad3_inj {m n : Nat} (h : pad3 m = pad3 n) : m = n := by
  have h2 := congrArg (digitsValAux 0) h
  rwa [pad3_val, pad3_val] at h2

theorem pad3_digits {n : Nat} : ∀ c ∈ pad3 n, isDigitC c = true := by
  intro c hc
  rcases List.mem_append.1 hc with hc | hc
  · rw [List.eq_of_mem_replicate hc]; decide
  · exact natDigits_digits n c hc

/-- A string whose first character, if any, is not a digit. -/
def headNotDigit (e : Str) : Prop := ∀ c t, e = c :: t → isDigitC c = false

theorem digits_split : ∀ (p1 p2 e1 e2 : Str),
    (∀ c ∈ p1, isDigitC c = true) → (∀ c ∈ p2, isDigitC c = true) →
    headNotDigit e1 → headNotDigit e2 →
    p1 ++ e1 = p2 ++ e2 → p1 = p2 ∧ e1 = e2 := by
  intro p1
  induction p1 with
  | nil =>
    intro p2 e1 e2 h1 h2 g1 g2 h
    cases p2 with
    | nil => exact ⟨rfl, h⟩
    | cons d t2 =>
      exfalso
      simp only [List.nil_append] at h
      have hd := g1 d (t2 ++ e2) h
      have hd2 := h2 d (List.mem_cons_self d t2)
      rw [hd2] at hd
      cases hd
  | cons c t ih =>
    intro p2 e1 e2 h1 h2 g1 g2 h
    cases p2 with
    | nil =>
      exfalso
      simp only [List.nil_append] at h
      have hd := g2 c (t ++ e1) h.symm
      have hd2 := h1 c (List.mem_cons_self c t)
      rw [hd2] at hd
      cases hd
    | cons d t2 =>
      simp only [List.cons_append, List.cons.injEq] at h
      obtain ⟨rfl, h'⟩ := h
      obtain ⟨he, he2⟩ := ih t2 e1 e2 (fun x hx => h1 x (List.mem_cons_of_mem _ hx))
        (fun x hx => h2 x (List.mem_cons_of_mem _ hx)) g1 g2 h'
      exact ⟨by rw [he], he2⟩

theorem extScanRev_shape : ∀ (l acc : List Char),
    extScanRev l acc = [] ∨ ∃ t, extScanRev l acc = '.' :: t := by
  intro l
  induction l with
  | nil => intro acc; left; rfl
  | cons c rest ih =>
    intro acc
    unfold extScanRev
    split
    · left; rfl
    · split
      · right; exact ⟨acc, by simp_all⟩
      · exact ih (c :: acc)

/-- filepath.Ext is empty or starts with a dot. -/
theorem filepathExt_shape (p : Str) :
    filepathExt p = [] ∨ ∃ t, filepathExt p = '.' :: t :=
  extScanRev_shape p.reverse []

theorem filepathExt_headNotDigit (p : Str) : headNotDigit (filepathExt p) := by
  intro c t hct
  rcases filepathExt_shape p with h | ⟨t2, h⟩
  · rw [h] at hct; cases hct
  · rw [h] at hct
    cases hct
    decide

/-! ## Claim C4 -/

/-- A concrete empty archive used as test input. -/
def emptyArchive : CbzFile := { Name := str "a.cbz", Images := [] }

/-- Claim C4, counterexample: on a concrete archive the first entry of the
output container has content of exactly 20 bytes, not 21 as the claim
states — "application/epub+zip" is 20 bytes long. -/
theorem c4_counterexample :
    ((ConvertFromCBZ emptyArchive (str "a.epub") (str "u") (str "d")).head?.map
      (fun e => e.data.length) = some 20) ∧
    ¬ ((ConvertFromCBZ emptyArchive (str "a.epub") (str "u") (str "d")).head?.map
      (fun e => e.data.length) = some 21) := by
  constructor
  · rfl
  · decide

/-- Claim C4 (amended: the content is 20 bytes, not 21): for every Archive
and output path, the first entry of the container produced by
ConvertFromCBZ is named mimetype, is stored without compression, and its
content is exactly the bytes of "application/epub+zip" — 20 bytes, with no
trailing newline. -/
theorem c4_mimetype_first (cbzFile : CbzFile) (outputFile uuid date : Str) :
    (ConvertFromCBZ cbzFile outputFile uuid date).head? =
      some { name := str "mimetype", stored := true, data := utf8Enc mimetypeContent } ∧
    utf8Enc mimetypeContent =
      [97, 112, 112, 108, 105, 99, 97, 116, 105, 111, 110, 47, 101, 112, 117, 98,
       43, 122, 105, 112] ∧
    (utf8Enc mimetypeContent).length = 20 ∧
    (utf8Enc mimetypeContent).getLast? ≠ some 10 := by
  refine ⟨rfl, by decide, by decide, by decide⟩

/-! ## Claim C7 -/

/-- The test.cbz container of the concrete scenario: image1.jpg holding
"A", image2.png holding "B", and notes.txt. -/
def testCbzEntries : List ZipEntry :=
  [ { name := str "image1.jpg", isDir := false, openErr := none,
      content := .ok (utf8Enc (str "A")) },
    { name := str "image2.png", isDir := false, openErr := none,
      content := .ok (utf8Enc (str "B")) },
    { name := str "notes.txt", isDir := false, openErr := none,
      content := .ok (utf8Enc (str "some notes")) } ]

/-- A filesystem holding only test.cbz. -/
def testFs : FS := fun p =>
  if p = str "test.cbz" then .ok testCbzEntries else .error (str "open: no such file")

/-- The Archive ReadFile produces for the concrete scenario. -/
def testArchive : CbzFile :=
  { Name := str "test.cbz",
    Images := [ { Name := str "image1.jpg", Data := [65], MimeType := str "image/jpeg" },
                { Name := str "image2.png", Data := [66], MimeType := str "image/png" } ] }

/-- Claim C7: reading test.cbz (image1.jpg = "A", image2.png = "B",
notes.txt) returns exactly the two images with their MIME types in that
order, notes.txt is ignored, and for every output path, uuid and date,
assembling the result writes OEBPS/images/image001.jpg with content "A"
(byte 65), OEBPS/images/image002.png with content "B" (byte 66), exactly
two page entries, and the spine references page001 then page002 — image
bytes pass through read and assemble unchanged. -/
theorem c7_concrete_roundtrip :
    ReadFile testFs (str "test.cbz") = .ok testArchive ∧
    (∀ outputFile uuid date : Str,
      let es := ConvertFromCBZ testArchive outputFile uuid date
      ((es.filter (fun e => e.name = str "OEBPS/images/image001.jpg")).map
          (fun e => e.data) = [[65]]) ∧
      ((es.filter (fun e => e.name = str "OEBPS/images/image002.png")).map
          (fun e => e.data) = [[66]]) ∧
      ((es.filter (fun e => (str "OEBPS/pages/").isPrefixOf e.name)).length = 2)) ∧
    spineItemrefs testArchive.Images =
      [str "    <itemref idref=\"page001\"/>\n", str "    <itemref idref=\"page002\"/>\n"] := by
  refine ⟨by decide, fun outputFile uuid date => ⟨rfl, rfl, rfl⟩, by decide⟩

/-! ## Claim C5 -/

/-- Archive A of the merge scenario: two jpg images. -/
def mergeEntriesA : List ZipEntry :=
  [ { name := str "x1.jpg", isDir := false, openErr := none, content := .ok [49] },
    { name := str "x2.jpg", isDir := false, openErr := none, content := .ok [50] } ]

/-- Archive B of the merge scenario: a png and a gif image. -/
def mergeEntriesB : List ZipEntry :=
  [ { name := str "y1.png", isDir := false, openErr := none, content := .ok [51] },
    { name := str "y2.gif", isDir := false, openErr := none, content := .ok [52] } ]

/-- A filesystem holding the two archives of the merge scenario. -/
def mergeFsAB : FS := fun p =>
  if p = str "a.cbz" then .ok mergeEntriesA
  else if p = str "b.cbz" then .ok mergeEntriesB
  else .error (str "open: no such file")

/-- Claim C5, counterexample: merging a 2-image archive with a 2-image
archive yields entries chapter001_001.*, chapter001_002.*,
chapter002_003.*, chapter002_004.* — the third entry is NOT named
chapter002_001.* as the claim states, because the global counter is never
reset between archives. -/
theorem c5_counterexample :
    ((MergeFiles mergeFsAB [str "a.cbz", str "b.cbz"] (str "m.cbz")).map
      (fun es => es.map (fun e => e.1)) =
      .ok [str "chapter001_001.jpg", str "chapter001_002.jpg",
           str "chapter002_003.png", str "chapter002_004.gif"]) ∧
    ¬ ((MergeFiles mergeFsAB [str "a.cbz", str "b.cbz"] (str "m.cbz")).map
      (fun es => es.map (fun e => (str "chapter002_001").isPrefixOf e.1)) =
      .ok [false, false, true, false]) := by
  constructor
  · decide
  · decide

/-- Claim C5 (amended: the global counter continues across archives, so
archive B's entries are chapter002_003.* and chapter002_004.*): merging an
archive A holding 2 images with an archive B holding 2 images (A before B)
yields exactly 4 entries named chapter001_001{ext of A1},
chapter001_002{ext of A2}, chapter002_003{ext of B1}, chapter002_004{ext
of B2}, in that order. -/
theorem c5_merge_two_plus_two (fs : FS) (pa pb outputFile : Str) (fA fB : CbzFile)
    (iA1 iA2 iB1 iB2 : Image)
    (hA : ReadFile fs pa = .ok fA) (hB : ReadFile fs pb = .ok fB)
    (hAi : fA.Images = [iA1, iA2]) (hBi : fB.Images = [iB1, iB2]) :
    MergeFiles fs [pa, pb] outputFile =
      .ok [ (str "chapter001_001" ++ filepathExt iA1.Name, iA1.Data),
            (str "chapter001_002" ++ filepathExt iA2.Name, iA2.Data),
            (str "chapter002_003" ++ filepathExt iB1.Name, iB1.Data),
            (str "chapter002_004" ++ filepathExt iB2.Name, iB2.Data) ] := by
  simp only [MergeFiles, mergeLoop, hA, hB, hAi, hBi, writeChapterImages]
  rfl

/-- Witness for the amended C5 theorem at the concrete merge scenario. -/
theorem c5_merge_two_plus_two_witness :
    MergeFiles mergeFsAB [str "a.cbz", str "b.cbz"] (str "m.cbz") =
      .ok [ (str "chapter001_001" ++ filepathExt (str "x1.jpg"), [49]),
            (str "chapter001_002" ++ filepathExt (str "x2.jpg"), [50]),
            (str "chapter002_003" ++ filepathExt (str "y1.png"), [51]),
            (str "chapter002_004" ++ filepathExt (str "y2.gif"), [52]) ] := by
  exact c5_merge_two_plus_two mergeFsAB (str "a.cbz") (str "b.cbz") (str "m.cbz")
    { Name := str "a.cbz",
      Images := [ { Name := str "x1.jpg", Data := [49], MimeType := str "image/jpeg" },
                  { Name := str "x2.jpg", Data := [50], MimeType := str "image/jpeg" } ] }
    { Name := str "b.cbz",
      Images := [ { Name := str "y1.png", Data := [51], MimeType := str "image/png" },
                  { Name := str "y2.gif", Data := [52], MimeType := str "image/gif" } ] }
    { Name := str "x1.jpg", Data := [49], MimeType := str "image/jpeg" }
    { Name := str "x2.jpg", Data := [50], MimeType := str "image/jpeg" }
    { Name := str "y1.png", Data := [51], MimeType := str "image/png" }
    { Name := str "y2.gif", Data := [52], MimeType := str "image/gif" }
    (by decide) (by decide) (by decide) (by decide)

/-! ## Claim C8 -/

/-- Claim C8: the title declared in the generated content.opf (inside
dc:title) and toc.ncx (inside docTitle) is the source archive's origin
filename with the ".cbz" extension stripped, inserted verbatim with no
further sanitization or escaping: both generated documents are literal
concatenations with the raw title between the fixed markup pieces. -/
theorem c8_title_declared (cbzFile : CbzFile) (outputFile uuid date : Str) :
    goTitle cbzFile.Name = stringsTrimSuffix (filepathBase cbzFile.Name) (str ".cbz") ∧
    { name := str "OEBPS/content.opf", stored := false,
      data := utf8Enc (opfBeforeTitle ++ goTitle cbzFile.Name ++
        (opfTitleToUuid ++ uuid ++ opfUuidToDate ++ date ++ opfAfterDate ++
          (opfImageItems cbzFile.Images).join ++ (opfPageItems cbzFile.Images).join ++
          spineOpen ++ (spineItemrefs cbzFile.Images).join ++ spineClose)) : EpubEntry } ∈
      ConvertFromCBZ cbzFile outputFile uuid date ∧
    { name := str "OEBPS/toc.ncx", stored := false,
      data := utf8Enc (ncxBeforeUuid ++ uuid ++ ncxUuidToTitle ++ goTitle cbzFile.Name ++
        (ncxAfterTitle ++ (navPoints cbzFile.Images).join ++ ncxClose)) : EpubEntry } ∈
      ConvertFromCBZ cbzFile outputFile uuid date := by
  refine ⟨rfl, ?_, ?_⟩
  · simp only [ConvertFromCBZ, contentOpf, opfHeader, List.append_assoc, List.mem_append,
      List.mem_cons]
    tauto
  · simp only [ConvertFromCBZ, tocNcx, ncxHeader, List.append_assoc, List.mem_append,
      List.mem_cons]
    tauto

/-! ## Claim C9 -/

theorem mergeLoop_error (fs : FS) : ∀ (pre : List Str) (c k : Nat) (bad : Str)
    (rest : List Str) (e : Str),
    (∀ p ∈ pre, ∃ f, ReadFile fs p = .ok f) → ReadFile fs bad = .error e →
    mergeLoop fs (pre ++ bad :: rest) c k =
      .error (str "failed to read input file " ++ bad ++ str ": " ++ e) := by
  intro pre
  induction pre with
  | nil =>
    intro c k bad rest e _ hbad
    simp only [List.nil_append, mergeLoop]
    rw [hbad]
  | cons p ps ih =>
    intro c k bad rest e hok hbad
    obtain ⟨f, hf⟩ := hok p (List.mem_cons_self p ps)
    simp only [List.cons_append, mergeLoop]
    rw [hf]
    simp only [List.append_eq]
    rw [ih _ _ bad rest e (fun q hq => hok q (List.mem_cons_of_mem _ hq)) hbad]

/-- Claim C9: ReadFile fails with the open-error wrap (an OpenError,
returning no Archive) for every path the filesystem cannot open as a
zip container; and in MergeFiles a failure from reading any input archive
is propagated immediately as the merge's error — the result is the
wrapped read error of the first failing input, no matter what inputs
follow it (no retry, no further inputs processed). -/
theorem c9_error_propagation :
    (∀ (fs : FS) (name e : Str), fs name = .error e →
      ReadFile fs name = .error (str "failed to open CBZ file: " ++ e)) ∧
    (∀ (fs : FS) (outputFile : Str) (pre : List Str) (bad : Str) (rest : List Str) (e : Str),
      (∀ p ∈ pre, ∃ f, ReadFile fs p = .ok f) → ReadFile fs bad = .error e →
      MergeFiles fs (pre ++ bad :: rest) outputFile =
        .error (str "failed to read input file " ++ bad ++ str ": " ++ e)) := by
  constructor
  · intro fs name e h
    unfold ReadFile
    rw [h]
  · intro fs outputFile pre bad rest e hok hbad
    exact mergeLoop_error fs pre 0 1 bad rest e hok hbad

/-- Witness for C9 at a concrete filesystem: a.cbz reads fine, bad.cbz is
not a zip container, and the merge of [a.cbz, bad.cbz, c.cbz] fails with
bad.cbz's wrapped read error without touching c.cbz. -/
theorem c9_error_propagation_witness :
    ReadFile (fun p => if p = str "bad.cbz" then .error (str "zip: not a valid zip file")
        else .ok mergeEntriesA) (str "bad.cbz") =
      .error (str "failed to open CBZ file: " ++ str "zip: not a valid zip file") ∧
    MergeFiles (fun p => if p = str "bad.cbz" then .error (str "zip: not a valid zip file")
        else .ok mergeEntriesA)
      ([str "a.cbz"] ++ str "bad.cbz" :: [str "c.cbz"]) (str "m.cbz") =
      .error (str "failed to read input file " ++ str "bad.cbz" ++ str ": " ++
        (str "failed to open CBZ file: " ++ str "zip: not a valid zip file")) := by
  constructor
  · exact c9_error_propagation.1 _ (str "bad.cbz") (str "zip: not a valid zip file") (by decide)
  · refine c9_error_propagation.2 _ (str "m.cbz") [str "a.cbz"] (str "bad.cbz") [str "c.cbz"]
      (str "failed to open CBZ file: " ++ str "zip: not a valid zip file") ?_ ?_
    · intro p hp
      simp only [List.mem_singleton] at hp
      subst hp
      exact ⟨⟨str "a.cbz",
        [⟨str "x1.jpg", [49], str "image/jpeg"⟩, ⟨str "x2.jpg", [50], str "image/jpeg"⟩]⟩,
        by decide⟩
    · exact c9_error_propagation.1 _ (str "bad.cbz") (str "zip: not a valid zip file") (by decide)

/-! ## Claim C10 -/

theorem readEntries_no_images : ∀ (entries : List ZipEntry),
    (∀ en ∈ entries, en.isDir = true ∨ isImageFile en.name = false) →
    readEntries entries = .ok [] := by
  intro entries
  induction entries with
  | nil => intro _; rfl
  | cons en rest ih =>
    intro h
    have hskip : (en.isDir || !isImageFile en.name) = true := by
      rcases h en (List.mem_cons_self en rest) with hd | hni
      · simp [hd]
      · simp [hni]
    simp only [readEntries, hskip, if_true]
    exact ih (fun x hx => h x (List.mem_cons_of_mem _ hx))

/-- Claim C10: on a valid container with no recognized image entries,
ReadFile succeeds with an empty image sequence, and ConvertFromCBZ on the
result succeeds, writing exactly the four fixed entries — mimetype,
META-INF/container.xml, OEBPS/content.opf, OEBPS/toc.ncx — whose manifest
carries no image or page items beyond the fixed ncx item (content.opf is
the bare header plus an empty spine) and whose navMap is empty (toc.ncx is
the bare header plus the navMap closing). -/
theorem c10_empty_archive (fs : FS) (name : Str) (entries : List ZipEntry)
    (outputFile uuid date : Str)
    (hfs : fs name = .ok entries)
    (hnone : ∀ en ∈ entries, en.isDir = true ∨ isImageFile en.name = false) :
    ReadFile fs name = .ok { Name := name, Images := [] } ∧
    ((ConvertFromCBZ { Name := name, Images := [] } outputFile uuid date).map
        (fun e => e.name) =
      [str "mimetype", str "META-INF/container.xml", str "OEBPS/content.opf",
       str "OEBPS/toc.ncx"]) ∧
    (ConvertFromCBZ { Name := name, Images := [] } outputFile uuid date).length = 4 ∧
    opfImageItems [] = [] ∧ opfPageItems [] = [] ∧ spineItemrefs [] = [] ∧
    navPoints [] = [] ∧
    contentOpf (goTitle name) uuid date [] =
      opfBeforeTitle ++ goTitle name ++ opfTitleToUuid ++ uuid ++ opfUuidToDate ++ date ++
        opfAfterDate ++ spineOpen ++ spineClose ∧
    tocNcx uuid (goTitle name) [] =
      ncxBeforeUuid ++ uuid ++ ncxUuidToTitle ++ goTitle name ++ ncxAfterTitle ++ ncxClose := by
  refine ⟨?_, rfl, rfl, rfl, rfl, rfl, rfl, ?_, ?_⟩
  · unfold ReadFile
    rw [hfs]
    dsimp only
    rw [readEntries_no_images entries hnone]
    rfl
  · simp [contentOpf, opfHeader, opfImageItems, opfPageItems, spineItemrefs, List.append_assoc]
  · simp [tocNcx, ncxHeader, navPoints, List.append_assoc]

/-- Witness for C10 at a concrete container holding only a text entry and
a directory. -/
theorem c10_empty_archive_witness :
    ReadFile (fun p => if p = str "e.cbz" then
        .ok [ { name := str "readme.txt", isDir := false, openErr := none, content := .ok [1] },
              { name := str "art/", isDir := true, openErr := none, content := .ok [] } ]
      else .error (str "no")) (str "e.cbz") =
      .ok { Name := str "e.cbz", Images := [] } ∧
    ((ConvertFromCBZ { Name := str "e.cbz", Images := [] } (str "e.epub") (str "u") (str "d")).map
        (fun e => e.name) =
      [str "mimetype", str "META-INF/container.xml", str "OEBPS/content.opf",
       str "OEBPS/toc.ncx"]) := by
  have h := c10_empty_archive
    (fun p => if p = str "e.cbz" then
        .ok [ { name := str "readme.txt", isDir := false, openErr := none, content := .ok [1] },
              { name := str "art/", isDir := true, openErr := none, content := .ok [] } ]
      else .error (str "no"))
    (str "e.cbz")
    [ { name := str "readme.txt", isDir := false, openErr := none, content := .ok [1] },
      { name := str "art/", isDir := true, openErr := none, content := .ok [] } ]
    (str "e.epub") (str "u") (str "d") (by decide)
    (by
      intro en hen
      simp only [List.mem_cons, List.mem_singleton] at hen
      rcases hen with rfl | rfl | h
      · right; decide
      · left; decide
      · cases h)
  exact ⟨h.1, h.2.1⟩

/-! ## Claim C2 -/

/-- The number of images in the archive read from a path (0 if unreadable;
only used under a hypothesis that the read succeeds). -/
def archiveImageCount (fs : FS) (p : Str) : Nat :=
  match ReadFile fs p with
  | .ok f => f.Images.length
  | .error _ => 0

/-- The extensions of the images of the archive read from a path, in
the archive's order. -/
def archiveExts (fs : FS) (p : Str) : List Str :=
  match ReadFile fs p with
  | .ok f => f.Images.map (fun im => filepathExt im.Name)
  | .error _ => []

/-- One merged entry name as the claim describes it:
chapter{c:03d}_{n:03d}{ext} with c and n already 1-based. -/
def chapterEntryName (c n : Nat) (ext : Str) : Str :=
  str "chapter" ++ pad3 c ++ str "_" ++ pad3 n ++ ext

/-- The claim's naming rule for one archive: chapter index c (1-based),
global counter starting at k and advancing by one per image. -/
def chapterImageNames (c k : Nat) : List Str → List Str
  | [] => []
  | ext :: rest => chapterEntryName c k ext :: chapterImageNames c (k + 1) rest

/-- The claim's naming rule across archives: the 1-based chapter index
follows the archive position and the global counter carries over from one
archive to the next, never resetting. -/
def chapterNames (c k : Nat) : List (List Str) → List Str
  | [] => []
  | exts :: rest =>
    chapterImageNames (c + 1) k exts ++ chapterNames (c + 1) (k + exts.length) rest

theorem writeChapterImages_spec (c : Nat) : ∀ (imgs : List Image) (k : Nat),
    (writeChapterImages c imgs k).1.map (fun e => e.1) =
      chapterImageNames (c + 1) k (imgs.map (fun im => filepathExt im.Name)) ∧
    (writeChapterImages c imgs k).2 = k + imgs.length ∧
    (writeChapterImages c imgs k).1.length = imgs.length := by
  intro imgs
  induction imgs with
  | nil => intro k; exact ⟨rfl, rfl, rfl⟩
  | cons im rest ih =>
    intro k
    obtain ⟨h1, h2, h3⟩ := ih (k + 1)
    refine ⟨?_, ?_, ?_⟩
    · simp only [writeChapterImages, List.map_cons, chapterImageNames, h1,
        chapterEntryName]
    · simp only [writeChapterImages, h2, List.length_cons]
      omega
    · simp only [writeChapterImages, List.length_cons, h3]

theorem mergeLoop_ok (fs : FS) : ∀ (inputs : List Str) (c k : Nat),
    (∀ p ∈ inputs, ∃ f, ReadFile fs p = .ok f) →
    ∃ es, mergeLoop fs inputs c k = .ok es ∧
      es.map (fun e => e.1) = chapterNames c k (inputs.map (archiveExts fs)) ∧
      es.length = (inputs.map (archiveImageCount fs)).sum := by
  intro inputs
  induction inputs with
  | nil => intro c k _; exact ⟨[], rfl, rfl, rfl⟩
  | cons p ps ih =>
    intro c k hok
    obtain ⟨f, hf⟩ := hok p (List.mem_cons_self p ps)
    obtain ⟨h1, h2, h3⟩ := writeChapterImages_spec c f.Images k
    obtain ⟨es, hes, hnames, hlen⟩ :=
      ih (c + 1) ((writeChapterImages c f.Images k).2)
        (fun q hq => hok q (List.mem_cons_of_mem _ hq))
    refine ⟨(writeChapterImages c f.Images k).1 ++ es, ?_, ?_, ?_⟩
    · simp only [mergeLoop]
      rw [hf]
      simp only []
      rw [hes]
    · simp only [List.map_cons, List.map_append, chapterNames, h1]
      rw [hnames, h2]
      simp only [archiveExts, hf, List.length_map]
    · simp only [List.map_cons, List.length_append, List.sum_cons, h3, hlen,
        archiveImageCount, hf]

/-- The shape filepath.Ext guarantees: empty or dot-headed. -/
def extOkP (e : Str) : Prop := e = [] ∨ ∃ t, e = '.' :: t

theorem extOkP_headNotDigit {e : Str} (he : extOkP e) : headNotDigit e := by
  intro c t hct
  rcases he with rfl | ⟨t2, rfl⟩
  · cases hct
  · cases hct
    decide

theorem underscore_headNotDigit (x : Str) : headNotDigit ('_' :: x) := by
  intro c t hct
  cases hct
  decide

theorem chapterEntryName_inj {c1 n1 c2 n2 : Nat} {e1 e2 : Str}
    (he1 : extOkP e1) (he2 : extOkP e2)
    (h : chapterEntryName c1 n1 e1 = chapterEntryName c2 n2 e2) :
    c1 = c2 ∧ n1 = n2 ∧ e1 = e2 := by
  unfold chapterEntryName at h
  rw [List.append_assoc, List.append_assoc, List.append_assoc, List.append_assoc,
    List.append_assoc, List.append_assoc] at h
  have h0 : pad3 c1 ++ ('_' :: (pad3 n1 ++ e1)) = pad3 c2 ++ ('_' :: (pad3 n2 ++ e2)) :=
    List.append_cancel_left h
  obtain ⟨hc, htail⟩ := digits_split (pad3 c1) (pad3 c2) _ _ pad3_digits pad3_digits
    (underscore_headNotDigit _) (underscore_headNotDigit _) h0
  have hc2 : c1 = c2 := pad3_inj hc
  have htail2 : pad3 n1 ++ e1 = pad3 n2 ++ e2 := by
    injection htail
  obtain ⟨hn, he⟩ := digits_split (pad3 n1) (pad3 n2) _ _ pad3_digits pad3_digits
    (extOkP_headNotDigit he1) (extOkP_headNotDigit he2) htail2
  exact ⟨hc2, pad3_inj hn, he⟩

theorem chapterImageNames_mem : ∀ (exts : List Str) (c k : Nat) (x : Str),
    x ∈ chapterImageNames c k exts →
    ∃ n ext, x = chapterEntryName c n ext ∧ ext ∈ exts ∧ k ≤ n ∧ n < k + exts.length := by
  intro exts
  induction exts with
  | nil => intro c k x hx; cases hx
  | cons e rest ih =>
    intro c k x hx
    rcases List.mem_cons.1 hx with rfl | hx
    · exact ⟨k, e, rfl, List.mem_cons_self e rest, by omega,
        by simp only [List.length_cons]; omega⟩
    · obtain ⟨n, ext, hxe, hmem, hkn, hn⟩ := ih c (k + 1) x hx
      exact ⟨n, ext, hxe, List.mem_cons_of_mem _ hmem, by omega,
        by simp only [List.length_cons]; omega⟩

theorem chapterImageNames_nodup : ∀ (exts : List Str) (c k : Nat),
    (∀ e ∈ exts, extOkP e) → (chapterImageNames c k exts).Nodup := by
  intro exts
  induction exts with
  | nil => intro c k _; exact List.nodup_nil
  | cons e rest ih =>
    intro c k hall
    rw [chapterImageNames, List.nodup_cons]
    constructor
    · intro hmem
      obtain ⟨n, ext, hx, hext, hkn, _⟩ := chapterImageNames_mem rest c (k + 1) _ hmem
      obtain ⟨_, hn, _⟩ := chapterEntryName_inj (hall e (List.mem_cons_self e rest))
        (hall ext (List.mem_cons_of_mem _ hext)) hx
      omega
    · exact ih c (k + 1) (fun x hx => hall x (List.mem_cons_of_mem _ hx))

theorem chapterNames_mem : ∀ (extss : List (List Str)) (c k : Nat) (x : Str),
    (∀ exts ∈ extss, ∀ e ∈ exts, extOkP e) →
    x ∈ chapterNames c k extss →
    ∃ cc n ext, x = chapterEntryName cc n ext ∧ extOkP ext ∧ k ≤ n := by
  intro extss
  induction extss with
  | nil => intro c k x _ hx; cases hx
  | cons exts rest ih =>
    intro c k x hall hx
    rcases List.mem_append.1 hx with hx | hx
    · obtain ⟨n, ext, hxe, hmem, hkn, _⟩ := chapterImageNames_mem exts (c + 1) k x hx
      exact ⟨c + 1, n, ext, hxe, hall exts (List.mem_cons_self exts rest) ext hmem, hkn⟩
    · obtain ⟨cc, n, ext, hxe, hok, hkn⟩ :=
        ih (c + 1) (k + exts.length) x (fun q hq => hall q (List.mem_cons_of_mem _ hq)) hx
      exact ⟨cc, n, ext, hxe, hok, by omega⟩

theorem chapterNames_nodup : ∀ (extss : List (List Str)) (c k : Nat),
    (∀ exts ∈ extss, ∀ e ∈ exts, extOkP e) → (chapterNames c k extss).Nodup := by
  intro extss
  induction extss with
  | nil => intro c k _; exact List.nodup_nil
  | cons exts rest ih =>
    intro c k hall
    rw [chapterNames, List.nodup_append]
    refine ⟨chapterImageNames_nodup exts (c + 1) k
        (hall exts (List.mem_cons_self exts rest)), ?_, ?_⟩
    · exact ih (c + 1) (k + exts.length) (fun q hq => hall q (List.mem_cons_of_mem _ hq))
    · intro x hx hx2
      obtain ⟨n, ext, hxe, hmem, _, hn⟩ := chapterImageNames_mem exts (c + 1) k x hx
      obtain ⟨cc, n2, ext2, hxe2, hok2, hkn2⟩ := chapterNames_mem rest (c + 1)
        (k + exts.length) x (fun q hq => hall q (List.mem_cons_of_mem _ hq)) hx2
      obtain ⟨_, hnn, _⟩ := chapterEntryName_inj
        (hall exts (List.mem_cons_self exts rest) ext hmem) hok2 (hxe.symm.trans hxe2)
      omega

theorem archiveExts_extOk (fs : FS) (p : Str) : ∀ e ∈ archiveExts fs p, extOkP e := by
  intro e he
  unfold archiveExts at he
  rcases hread : ReadFile fs p with err | f
  · rw [hread] at he; cases he
  · rw [hread] at he
    simp only [List.mem_map] at he
    obtain ⟨im, _, rfl⟩ := he
    exact filepathExt_shape im.Name

/-- Claim C2: for every ordered list of input archives that all read
successfully, MergeFiles succeeds and writes exactly one entry per source
image (total count = sum of the archives' image counts); the entry names
follow chapter{c:03d}_{n:03d}{ext} with c the 1-based archive position and
n a single global counter starting at 1 that advances by one per image and
never resets between archives (chapterNames); and the renaming is
injective — the written names contain no duplicate. -/
theorem c2_merge_renaming (fs : FS) (inputFiles : List Str) (outputFile : Str)
    (h : ∀ p ∈ inputFiles, ∃ f, ReadFile fs p = .ok f) :
    ∃ es, MergeFiles fs inputFiles outputFile = .ok es ∧
      es.length = (inputFiles.map (archiveImageCount fs)).sum ∧
      es.map (fun e => e.1) = chapterNames 0 1 (inputFiles.map (archiveExts fs)) ∧
      (es.map (fun e => e.1)).Nodup := by
  obtain ⟨es, hes, hnames, hlen⟩ := mergeLoop_ok fs inputFiles 0 1 h
  refine ⟨es, hes, hlen, hnames, ?_⟩
  rw [hnames]
  refine chapterNames_nodup _ 0 1 ?_
  intro exts hexts e he
  obtain ⟨p, _, rfl⟩ := List.mem_map.1 hexts
  exact archiveExts_extOk fs p e he

/-- Witness for C2 at the concrete two-archive filesystem. -/
theorem c2_merge_renaming_witness :
    ∃ es, MergeFiles mergeFsAB [str "a.cbz", str "b.cbz"] (str "m.cbz") = .ok es ∧
      es.length =
        ([str "a.cbz", str "b.cbz"].map (archiveImageCount mergeFsAB)).sum ∧
      es.map (fun e => e.1) =
        chapterNames 0 1 ([str "a.cbz", str "b.cbz"].map (archiveExts mergeFsAB)) ∧
      (es.map (fun e => e.1)).Nodup := by
  refine c2_merge_renaming mergeFsAB [str "a.cbz", str "b.cbz"] (str "m.cbz") ?_
  intro p hp
  simp only [List.mem_cons, List.mem_singleton] at hp
  rcases hp with rfl | rfl | h
  · exact ⟨⟨str "a.cbz",
      [⟨str "x1.jpg", [49], str "image/jpeg"⟩, ⟨str "x2.jpg", [50], str "image/jpeg"⟩]⟩,
      by decide⟩
  · exact ⟨⟨str "b.cbz",
      [⟨str "y1.png", [51], str "image/png"⟩, ⟨str "y2.gif", [52], str "image/gif"⟩]⟩,
      by decide⟩
  · cases h

/-! ## Claim C1 -/

/-- The names of the written entries, in write order. -/
def entryNames (es : List EpubEntry) : List Str := es.map (fun e => e.name)

/-- Occurrence count of a name in a name list. -/
def countName (l : List Str) (a : Str) : Nat := l.countP (fun x => decide (x = a))

theorem countName_append (l m : List Str) (a : Str) :
    countName (l ++ m) a = countName l a + countName m a := List.countP_append _ _ _

theorem countName_eq_zero {l : List Str} {a : Str} (h : ∀ x ∈ l, x ≠ a) :
    countName l a = 0 :=
  List.countP_eq_zero.2 (fun x hx => by simpa using h x hx)

theorem countName_eq_one {l : List Str} {a : Str} (hn : l.Nodup) (ha : a ∈ l) :
    countName l a = 1 := by
  induction l with
  | nil => cases ha
  | cons x t ih =>
    rw [List.nodup_cons] at hn
    rw [countName, List.countP_cons]
    rcases List.mem_cons.1 ha with rfl | hat
    · have h0 : countName t a = 0 := countName_eq_zero (fun y hy hxy => hn.1 (hxy ▸ hy))
      rw [countName] at h0
      simp [h0]
    · have h1 : countName t a = 1 := ih hn.2 hat
      rw [countName] at h1
      have hxa : ¬ (x = a) := fun hxa => hn.1 (hxa ▸ hat)
      simp [h1, hxa]

theorem take_append_ne {A B x y : Str} (k : Nat) (hA : k ≤ A.length) (hB : k ≤ B.length)
    (hne : A.take k ≠ B.take k) : A ++ x ≠ B ++ y := by
  intro h
  apply hne
  have h2 := congrArg (List.take k) h
  rw [List.take_append_eq_append_take, List.take_append_eq_append_take,
    Nat.sub_eq_zero_of_le hA, Nat.sub_eq_zero_of_le hB] at h2
  simpa using h2

theorem take_append_ne_lit {A B x : Str} (k : Nat) (hA : k ≤ A.length) (hB : k ≤ B.length)
    (hne : A.take k ≠ B.take k) : A ++ x ≠ B := by
  intro h
  exact take_append_ne k hA hB hne (y := []) (by simpa using h)

theorem dotXhtml_headNotDigit : headNotDigit (str ".xhtml") := by
  intro c t hct
  have h1 : c = '.' := by
    have h2 : ('.' : Char) :: str "xhtml" = c :: t := hct
    injection h2 with ha _
    exact ha.symm
  rw [h1]
  decide

theorem imageNewName_inj {s1 s2 : Nat} {im1 im2 : Image}
    (h : imageNewName s1 im1 = imageNewName s2 im2) : s1 = s2 := by
  unfold imageNewName at h
  rw [List.append_assoc, List.append_assoc] at h
  have h0 := List.append_cancel_left h
  obtain ⟨hp, _⟩ := digits_split (pad3 s1) (pad3 s2) _ _ pad3_digits pad3_digits
    (extOkP_headNotDigit (filepathExt_shape im1.Name))
    (extOkP_headNotDigit (filepathExt_shape im2.Name)) h0
  exact pad3_inj hp

theorem pageFileName_inj {s1 s2 : Nat} (h : pageFileName s1 = pageFileName s2) : s1 = s2 := by
  unfold pageFileName at h
  rw [List.append_assoc, List.append_assoc] at h
  have h0 := List.append_cancel_left h
  obtain ⟨hp, _⟩ := digits_split (pad3 s1) (pad3 s2) _ _ pad3_digits pad3_digits
    dotXhtml_headNotDigit dotXhtml_headNotDigit h0
  exact pad3_inj hp

theorem enum_fst_inj (images : List Image) :
    ∀ x ∈ images.enum, ∀ y ∈ images.enum, x.1 = y.1 → x = y :=
  List.inj_on_of_nodup_map (by rw [List.enum_map_fst]; exact List.nodup_range _)

theorem imageEntries_nodup (images : List Image) :
    (images.enum.map (fun p => str "OEBPS/images/" ++ imageNewName (p.1 + 1) p.2)).Nodup := by
  refine List.Nodup.map_on ?_ (List.Nodup.of_map Prod.fst
    (by rw [List.enum_map_fst]; exact List.nodup_range _))
  intro x hx y hy hxy
  have h1 := List.append_cancel_left hxy
  have h2 : x.1 = y.1 := by
    have := imageNewName_inj h1
    omega
  exact enum_fst_inj images x hx y hy h2

theorem pageEntries_nodup (images : List Image) :
    (images.enum.map (fun p => str "OEBPS/pages/" ++ pageFileName (p.1 + 1))).Nodup := by
  refine List.Nodup.map_on ?_ (List.Nodup.of_map Prod.fst
    (by rw [List.enum_map_fst]; exact List.nodup_range _))
  intro x hx y hy hxy
  have h1 := List.append_cancel_left hxy
  have h2 : x.1 = y.1 := by
    have := pageFileName_inj h1
    omega
  exact enum_fst_inj images x hx y hy h2

theorem c1_names_eq (cbzFile : CbzFile) (outputFile uuid date : Str) :
    entryNames (ConvertFromCBZ cbzFile outputFile uuid date) =
      [str "mimetype", str "META-INF/container.xml"] ++
      cbzFile.Images.enum.map (fun p => str "OEBPS/images/" ++ imageNewName (p.1 + 1) p.2) ++
      cbzFile.Images.enum.map (fun p => str "OEBPS/pages/" ++ pageFileName (p.1 + 1)) ++
      [str "OEBPS/content.opf", str "OEBPS/toc.ncx"] := by
  simp only [entryNames, ConvertFromCBZ, List.map_append, List.map_map]
  rfl

/-- Claim C1: for every Archive and output path, ConvertFromCBZ writes,
besides the four fixed entries, exactly one image entry named
image{seq:03d}{ext} (under OEBPS/images/) and exactly one page entry named
page{seq:03d}.xhtml (under OEBPS/pages/) per source image, seq being the
1-based position in the Archive's order; and the spine of content.opf
lists every page exactly once (the page sequence fragments page{seq:03d}
are pairwise distinct), in the same 1-based sequence order as the navMap's
playOrder in toc.ncx (the k-th spine itemref and the k-th navPoint both
carry sequence number k+1, the navPoint's playOrder being k+1). -/
theorem c1_assemble_structure (cbzFile : CbzFile) (outputFile uuid date : Str) :
    entryNames (ConvertFromCBZ cbzFile outputFile uuid date) =
      [str "mimetype", str "META-INF/container.xml"] ++
      cbzFile.Images.enum.map (fun p => str "OEBPS/images/" ++ imageNewName (p.1 + 1) p.2) ++
      cbzFile.Images.enum.map (fun p => str "OEBPS/pages/" ++ pageFileName (p.1 + 1)) ++
      [str "OEBPS/content.opf", str "OEBPS/toc.ncx"] ∧
    (∀ p ∈ cbzFile.Images.enum,
      countName (entryNames (ConvertFromCBZ cbzFile outputFile uuid date))
          (str "OEBPS/images/" ++ imageNewName (p.1 + 1) p.2) = 1 ∧
      countName (entryNames (ConvertFromCBZ cbzFile outputFile uuid date))
          (str "OEBPS/pages/" ++ pageFileName (p.1 + 1)) = 1) ∧
    spineItemrefs cbzFile.Images =
      (List.range cbzFile.Images.length).map (fun i => spineItemref (i + 1)) ∧
    ((List.range cbzFile.Images.length).map (fun i => pad3 (i + 1))).Nodup ∧
    navPoints cbzFile.Images =
      (List.range cbzFile.Images.length).map (fun i => navPoint (i + 1)) := by
  refine ⟨c1_names_eq cbzFile outputFile uuid date, ?_, ?_, ?_, ?_⟩
  · intro p hp
    rw [c1_names_eq cbzFile outputFile uuid date]
    constructor
    · rw [countName_append, countName_append, countName_append]
      have hfix1 : countName [str "mimetype", str "META-INF/container.xml"]
          (str "OEBPS/images/" ++ imageNewName (p.1 + 1) p.2) = 0 := by
        refine countName_eq_zero ?_
        intro x hx
        rcases List.mem_cons.1 hx with rfl | hx2
        · intro h; exact take_append_ne_lit 7 (by decide) (by decide) (by decide) h.symm
        · rcases List.mem_singleton.1 hx2 with rfl
          intro h; exact take_append_ne_lit 7 (by decide) (by decide) (by decide) h.symm
      have himg : countName (cbzFile.Images.enum.map
          (fun q => str "OEBPS/images/" ++ imageNewName (q.1 + 1) q.2))
          (str "OEBPS/images/" ++ imageNewName (p.1 + 1) p.2) = 1 :=
        countName_eq_one (imageEntries_nodup cbzFile.Images) (List.mem_map_of_mem _ hp)
      have hpag : countName (cbzFile.Images.enum.map
          (fun q => str "OEBPS/pages/" ++ pageFileName (q.1 + 1)))
          (str "OEBPS/images/" ++ imageNewName (p.1 + 1) p.2) = 0 := by
        refine countName_eq_zero ?_
        intro x hx
        obtain ⟨q, _, rfl⟩ := List.mem_map.1 hx
        exact take_append_ne 7 (by decide) (by decide) (by decide)
      have hfix2 : countName [str "OEBPS/content.opf", str "OEBPS/toc.ncx"]
          (str "OEBPS/images/" ++ imageNewName (p.1 + 1) p.2) = 0 := by
        refine countName_eq_zero ?_
        intro x hx
        rcases List.mem_cons.1 hx with rfl | hx2
        · intro h; exact take_append_ne_lit 7 (by decide) (by decide) (by decide) h.symm
        · rcases List.mem_singleton.1 hx2 with rfl
          intro h; exact take_append_ne_lit 7 (by decide) (by decide) (by decide) h.symm
      omega
    · rw [countName_append, countName_append, countName_append]
      have hfix1 : countName [str "mimetype", str "META-INF/container.xml"]
          (str "OEBPS/pages/" ++ pageFileName (p.1 + 1)) = 0 := by
        refine countName_eq_zero ?_
        intro x hx
        rcases List.mem_cons.1 hx with rfl | hx2
        · intro h; exact take_append_ne_lit 7 (by decide) (by decide) (by decide) h.symm
        · rcases List.mem_singleton.1 hx2 with rfl
          intro h; exact take_append_ne_lit 7 (by decide) (by decide) (by decide) h.symm
      have himg : countName (cbzFile.Images.enum.map
          (fun q => str "OEBPS/images/" ++ imageNewName (q.1 + 1) q.2))
          (str "OEBPS/pages/" ++ pageFileName (p.1 + 1)) = 0 := by
        refine countName_eq_zero ?_
        intro x hx
        obtain ⟨q, _, rfl⟩ := List.mem_map.1 hx
        exact take_append_ne 7 (by decide) (by decide) (by decide)
      have hpag : countName (cbzFile.Images.enum.map
          (fun q => str "OEBPS/pages/" ++ pageFileName (q.1 + 1)))
          (str "OEBPS/pages/" ++ pageFileName (p.1 + 1)) = 1 :=
        countName_eq_one (pageEntries_nodup cbzFile.Images) (List.mem_map_of_mem _ hp)
      have hfix2 : countName [str "OEBPS/content.opf", str "OEBPS/toc.ncx"]
          (str "OEBPS/pages/" ++ pageFileName (p.1 + 1)) = 0 := by
        refine countName_eq_zero ?_
        intro x hx
        rcases List.mem_cons.1 hx with rfl | hx2
        · intro h; exact take_append_ne_lit 7 (by decide) (by decide) (by decide) h.symm
        · rcases List.mem_singleton.1 hx2 with rfl
          intro h; exact take_append_ne_lit 7 (by decide) (by decide) (by decide) h.symm
      omega
  · rw [spineItemrefs, ← List.enum_map_fst cbzFile.Images, List.map_map]
    rfl
  · refine List.Nodup.map ?_ (List.nodup_range _)
    intro a b hab
    have := pad3_inj hab
    omega
  · rw [navPoints, ← List.enum_map_fst cbzFile.Images, List.map_map]
    rfl

/-! ## Claim C6 -/

theorem extScanRev_ne_nil_decomp : ∀ (l acc : List Char),
    extScanRev l acc ≠ [] →
    ∃ ds t, l = ds ++ '.' :: t ∧ ∀ c ∈ ds, ¬ c = '/' ∧ ¬ c = '.' := by
  intro l
  induction l with
  | nil => intro acc h; exact absurd rfl h
  | cons c rest ih =>
    intro acc h
    unfold extScanRev at h
    by_cases h1 : c = '/'
    · rw [if_pos h1] at h; exact absurd rfl h
    · rw [if_neg h1] at h
      by_cases h2 : c = '.'
      · subst h2
        exact ⟨[], rest, rfl, by intro x hx; cases hx⟩
      · rw [if_neg h2] at h
        obtain ⟨ds, t, hl, hds⟩ := ih (c :: acc) h
        refine ⟨c :: ds, t, by simp [hl], ?_⟩
        intro x hx
        rcases List.mem_cons.1 hx with rfl | hx2
        · exact ⟨h1, h2⟩
        · exact hds x hx2

theorem extScanRev_front : ∀ (ds t acc : List Char),
    (∀ c ∈ ds, ¬ c = '/' ∧ ¬ c = '.') →
    extScanRev (ds ++ '.' :: t) acc = '.' :: (ds.reverse ++ acc) := by
  intro ds
  induction ds with
  | nil => intro t acc _; simp [extScanRev]
  | cons c rest ih =>
    intro t acc h
    obtain ⟨h1, h2⟩ := h c (List.mem_cons_self c rest)
    simp only [List.cons_append, extScanRev, if_neg h1, if_neg h2, List.append_eq]
    rw [ih t (c :: acc) (fun x hx => h x (List.mem_cons_of_mem _ hx))]
    simp [List.append_assoc]

theorem takeWhile_append_front : ∀ (ds t : List Char) (p : Char → Bool),
    (∀ c ∈ ds, p c = true) → (ds ++ t).takeWhile p = ds ++ t.takeWhile p := by
  intro ds
  induction ds with
  | nil => intro t p _; rfl
  | cons c rest ih =>
    intro t p h
    rw [List.cons_append, List.takeWhile_cons, if_pos (h c (List.mem_cons_self c rest)),
      ih t p (fun x hx => h x (List.mem_cons_of_mem _ hx))]
    rfl

theorem filepathExt_base (p : Str) (h : filepathExt p ≠ []) :
    filepathExt (filepathBase p) = filepathExt p := by
  obtain ⟨ds, t, hpr, hds⟩ := extScanRev_ne_nil_decomp p.reverse [] h
  have hp_ne : ¬ p = [] := by
    intro hp
    rw [hp] at hpr
    exact absurd hpr.symm (by simp)
  have hdrop : p.reverse.dropWhile (fun c => c = '/') = p.reverse := by
    rw [hpr]
    cases ds with
    | nil => simp [List.dropWhile_cons]
    | cons c rest =>
      have h1 := (hds c (List.mem_cons_self c rest)).1
      simp [List.dropWhile_cons, h1]
  have htake : p.reverse.takeWhile (fun c => decide (c ≠ '/')) =
      (ds ++ ['.']) ++ t.takeWhile (fun c => decide (c ≠ '/')) := by
    rw [hpr, show ds ++ '.' :: t = (ds ++ ['.']) ++ t by simp]
    refine takeWhile_append_front (ds ++ ['.']) t _ ?_
    intro c hc
    rcases List.mem_append.1 hc with hc | hc
    · simp [(hds c hc).1]
    · rcases List.mem_singleton.1 hc with rfl
      decide
  unfold filepathBase
  rw [if_neg hp_ne]
  dsimp only
  rw [hdrop, List.reverse_reverse, htake]
  have hne2 : ¬ (((ds ++ ['.']) ++ t.takeWhile (fun c => decide (c ≠ '/'))).reverse = []) := by
    simp
  rw [if_neg hne2]
  unfold filepathExt
  rw [List.reverse_reverse, hpr, List.append_assoc]
  rw [extScanRev_front ds _ [] hds]
  exact extScanRev_front ds _ [] hds

theorem isImageFile_ext_mem {p : Str} (h : isImageFile p = true) :
    stringsToLower (filepathExt p) ∈
      [str ".jpg", str ".jpeg", str ".png", str ".gif", str ".webp"] := by
  by_cases h1 : stringsToLower (filepathExt p) = str ".jpg"
  · simp [h1]
  by_cases h2 : stringsToLower (filepathExt p) = str ".jpeg"
  · simp [h2]
  by_cases h3 : stringsToLower (filepathExt p) = str ".png"
  · simp [h3]
  by_cases h4 : stringsToLower (filepathExt p) = str ".gif"
  · simp [h4]
  by_cases h5 : stringsToLower (filepathExt p) = str ".webp"
  · simp [h5]
  exfalso
  unfold isImageFile at h
  simp [h1, h2, h3, h4, h5] at h

theorem isImageFile_ext_ne_nil {p : Str} (h : isImageFile p = true) : filepathExt p ≠ [] := by
  intro h0
  have h1 := isImageFile_ext_mem h
  rw [h0] at h1
  have h2 : stringsToLower [] = ([] : Str) := rfl
  rw [h2] at h1
  exact absurd h1 (by decide)

theorem getMimeType_base {p : Str} (h : isImageFile p = true) :
    getMimeType (filepathBase p) = getMimeType p := by
  unfold getMimeType
  rw [filepathExt_base p (isImageFile_ext_ne_nil h)]

theorem getMimeType_mem {p : Str} (h : isImageFile p = true) :
    getMimeType p ∈ [str "image/jpeg", str "image/png", str "image/gif", str "image/webp"] := by
  have h1 := isImageFile_ext_mem h
  simp only [List.mem_cons] at h1
  unfold getMimeType
  dsimp only
  rcases h1 with h1 | h1 | h1 | h1 | h1 | h1
  · rw [h1]; decide
  · rw [h1]; decide
  · rw [h1]; decide
  · rw [h1]; decide
  · rw [h1]; decide
  · exact absurd h1 (List.not_mem_nil _)

theorem readEntries_src : ∀ (entries : List ZipEntry) (imgs : List Image),
    readEntries entries = .ok imgs → ∀ img ∈ imgs,
    ∃ en : ZipEntry, isImageFile en.name = true ∧
      img.Name = filepathBase en.name ∧ img.MimeType = getMimeType en.name := by
  intro entries
  induction entries with
  | nil =>
    intro imgs h img hm
    injection h with h2
    rw [← h2] at hm
    cases hm
  | cons en rest ih =>
    intro imgs h img hm
    rw [readEntries] at h
    cases hskip : (en.isDir || !isImageFile en.name) with
    | true =>
      rw [if_pos (by rw [hskip])] at h
      exact ih imgs h img hm
    | false =>
      rw [if_neg (by rw [hskip]; exact Bool.false_ne_true)] at h
      have himg : isImageFile en.name = true := by
        rcases Bool.or_eq_false_iff.1 hskip with ⟨_, hni⟩
        simpa using hni
      cases hopen : en.openErr with
      | some e => rw [hopen] at h; cases h
      | none =>
        rw [hopen] at h
        cases hcont : en.content with
        | error e => rw [hcont] at h; cases h
        | ok data =>
          rw [hcont] at h
          cases hrest : readEntries rest with
          | error e => rw [hrest] at h; cases h
          | ok imgs2 =>
            rw [hrest] at h
            injection h with h2
            rw [← h2] at hm
            rcases List.mem_cons.1 hm with rfl | hm2
            · exact ⟨en, himg, rfl, rfl⟩
            · exact ih imgs2 hrest img hm2

/-- Claim C6: every Image in an Archive returned by ReadFile has a
filename extension that, lowered, is one of .jpg, .jpeg, .png, .gif,
.webp; its mimeType is exactly the fixed mapping applied to its filename
(so never null — it is always one of the four image MIME strings). -/
theorem c6_image_invariants (fs : FS) (name : Str) (f : CbzFile)
    (h : ReadFile fs name = .ok f) :
    ∀ img ∈ f.Images,
      stringsToLower (filepathExt img.Name) ∈
        [str ".jpg", str ".jpeg", str ".png", str ".gif", str ".webp"] ∧
      img.MimeType = getMimeType img.Name ∧
      img.MimeType ∈ [str "image/jpeg", str "image/png", str "image/gif",
        str "image/webp"] := by
  unfold ReadFile at h
  cases hfs : fs name with
  | error e => rw [hfs] at h; cases h
  | ok entries =>
    rw [hfs] at h
    dsimp only at h
    cases hre : readEntries entries with
    | error e => rw [hre] at h; cases h
    | ok imgs =>
      rw [hre] at h
      dsimp only at h
      injection h with h2
      intro img hmem
      have hImages : f.Images = sortSlice lessImage imgs := by rw [← h2]
      rw [hImages] at hmem
      have hmem2 : img ∈ imgs := ((sortSlice_perm lessImage imgs).mem_iff).1 hmem
      obtain ⟨en, hif, hname, hmime⟩ := readEntries_src entries imgs hre img hmem2
      have hextne := isImageFile_ext_ne_nil hif
      refine ⟨?_, ?_, ?_⟩
      · rw [hname, filepathExt_base en.name hextne]
        exact isImageFile_ext_mem hif
      · rw [hmime, hname, getMimeType_base hif]
      · rw [hmime]
        exact getMimeType_mem hif

/-- The first retained image of the concrete test.cbz scenario. -/
def c6wImage : Image :=
  { Name := str "image1.jpg", Data := [65], MimeType := str "image/jpeg" }

/-- Witness for C6 at the concrete test.cbz scenario. -/
theorem c6_image_invariants_witness :
    stringsToLower (filepathExt c6wImage.Name) ∈
      [str ".jpg", str ".jpeg", str ".png", str ".gif", str ".webp"] ∧
    c6wImage.MimeType = getMimeType c6wImage.Name ∧
    c6wImage.MimeType ∈ [str "image/jpeg", str "image/png", str "image/gif",
      str "image/webp"] :=
  c6_image_invariants testFs (str "test.cbz") testArchive (by decide) c6wImage (by decide)

/-! ## Sortedness of Go's pdqsort: order-theoretic groundwork -/

/-- A strict weak order given as a Boolean comparison: transitivity,
asymmetry, and negative transitivity (transitive incomparability). -/
def StrictWeak {α : Type} (less : α → α → Bool) : Prop :=
  (∀ x y z, less x y = true → less y z = true → less x z = true) ∧
  (∀ x y, less x y = true → less y x = false) ∧
  (∀ x y z, less x y = false → less y z = false → less x z = false)

/-- A strict weak order is irreflexive. -/
theorem StrictWeak.irr {α : Type} {less : α → α → Bool} (sw : StrictWeak less)
    (x : α) : less x x = false := by
  cases h : less x x with
  | false => rfl
  | true => exact h.symm.trans (sw.2.1 x x h)

/-- x < y and y ≤ z give x < z. -/
theorem StrictWeak.ltle {α : Type} {less : α → α → Bool} (sw : StrictWeak less)
    {x y z : α} (h1 : less x y = true) (h2 : less z y = false) :
    less x z = true := by
  cases h : less x z with
  | true => rfl
  | false => exact absurd (sw.2.2 x z y h h2) (by simp [h1])

/-- x ≤ y and y < z give x < z. -/
theorem StrictWeak.lelt {α : Type} {less : α → α → Bool} (sw : StrictWeak less)
    {x y z : α} (h1 : less y x = false) (h2 : less y z = true) :
    less x z = true := by
  cases h : less x z with
  | true => rfl
  | false => exact absurd (sw.2.2 y x z h1 h) (by simp [h2])

/-- strLt is irreflexive. -/
theorem strLt_irr : ∀ s : Str, strLt s s = false := by
  intro s
  induction s with
  | nil => rfl
  | cons a t ih => simp [strLt, ih]

/-- strLt is transitive. -/
theorem strLt_trans : ∀ s t u : Str, strLt s t = true → strLt t u = true →
    strLt s u = true := by
  intro s
  induction s with
  | nil =>
    intro t u h1 h2
    cases t with
    | nil => simp [strLt] at h1
    | cons b bs =>
      cases u with
      | nil => simp [strLt] at h2
      | cons c cs => rfl
  | cons a as ih =>
    intro t u h1 h2
    cases t with
    | nil => simp [strLt] at h1
    | cons b bs =>
      cases u with
      | nil => simp [strLt] at h2
      | cons c cs =>
        simp only [strLt] at h1 h2 ⊢
        by_cases hab : a.toNat < b.toNat
        · by_cases hbc : b.toNat < c.toNat
          · simp [Nat.lt_trans hab hbc]
          · simp [hab] at h1
            by_cases hcb : c.toNat < b.toNat
            · simp [hbc, hcb] at h2
            · have hbc2 : b.toNat = c.toNat := by omega
              simp [show a.toNat < c.toNat by omega]
        · by_cases hba : b.toNat < a.toNat
          · simp [hab, hba] at h1
          · have hab2 : a.toNat = b.toNat := by omega
            by_cases hbc : b.toNat < c.toNat
            · simp [show a.toNat < c.toNat by omega]
            · by_cases hcb : c.toNat < b.toNat
              · simp [hbc, hcb] at h2
              · have hbc2 : b.toNat = c.toNat := by omega
                simp only [hab, hba, if_false] at h1
                simp only [hbc, hcb, if_false] at h2
                simp [show ¬ a.toNat < c.toNat by omega,
                  show ¬ c.toNat < a.toNat by omega, ih bs cs h1 h2]

/-- strLt is negatively transitive. -/
theorem strLt_negtrans : ∀ s t u : Str, strLt s t = false → strLt t u = false →
    strLt s u = false := by
  intro s
  induction s with
  | nil =>
    intro t u h1 h2
    cases t with
    | nil => cases u with
      | nil => rfl
      | cons c cs => simp [strLt] at h2
    | cons b bs => simp [strLt] at h1
  | cons a as ih =>
    intro t u h1 h2
    cases u with
    | nil => rfl
    | cons c cs =>
      cases t with
      | nil => simp [strLt] at h2
      | cons b bs =>
        simp only [strLt] at h1 h2 ⊢
        by_cases hab : a.toNat < b.toNat
        · simp [hab] at h1
        · by_cases hbc : b.toNat < c.toNat
          · simp [hbc] at h2
          · by_cases hba : b.toNat < a.toNat
            · simp [show ¬ a.toNat < c.toNat by omega,
                show c.toNat < a.toNat by omega]
            · by_cases hcb : c.toNat < b.toNat
              · simp [show ¬ a.toNat < c.toNat by omega,
                  show c.toNat < a.toNat by omega]
              · simp only [hab, hba, if_false] at h1
                simp only [hbc, hcb, if_false] at h2
                simp [show ¬ a.toNat < c.toNat by omega,
                  show ¬ c.toNat < a.toNat by omega, ih bs cs h1 h2]

/-- strLt is asymmetric. -/
theorem strLt_asymm : ∀ s t : Str, strLt s t = true → strLt t s = false := by
  intro s t h
  cases h2 : strLt t s with
  | false => rfl
  | true => exact absurd (strLt_trans s t s h h2) (by simp [strLt_irr])

/-- Comparing images by name with strLt is a strict weak order. -/
theorem lessImage_swo : StrictWeak lessImage := by
  refine ⟨?_, ?_, ?_⟩
  · intro x y z h1 h2
    exact strLt_trans _ _ _ h1 h2
  · intro x y h
    exact strLt_asymm _ _ h
  · intro x y z h1 h2
    exact strLt_negtrans _ _ _ h1 h2

/-- nth at an in-range index is the getElem value. -/
theorem nth_in {α : Type} [Inhabited α] (l : List α) (k : Nat)
    (h : k < l.length) : nth l k = l[k] := by
  simp [nth, List.getD_eq_getElem?_getD, List.getElem?_eq_getElem h]

/-- Setting an index then reading it back. -/
theorem nth_set_eq {α : Type} [Inhabited α] (l : List α) (k : Nat) (x : α)
    (h : k < l.length) : nth (l.set k x) k = x := by
  rw [nth_in _ _ (by simp [h])]
  simp [List.getElem_set, h]

/-- Setting one index leaves the others. -/
theorem nth_set_ne {α : Type} [Inhabited α] (l : List α) (j k : Nat) (x : α)
    (h : j ≠ k) : nth (l.set j x) k = nth l k := by
  by_cases hk : k < l.length
  · rw [nth_in _ _ (by simp [hk]), nth_in _ _ hk]
    simp [List.getElem_set, h]
  · simp [nth, List.getD_eq_getElem?_getD, List.getElem?_eq_none,
      Nat.le_of_not_lt hk, show l.length ≤ k from Nat.le_of_not_lt hk]

/-- lswap preserves the length. -/
theorem lswap_length {α : Type} [Inhabited α] (l : List α) (i j : Nat) :
    (lswap l i j).length = l.length := by
  unfold lswap
  split <;> simp

/-- lswap at equal indices is the identity. -/
theorem lswap_self {α : Type} [Inhabited α] (l : List α) (i : Nat) :
    lswap l i i = l := by
  unfold lswap
  split
  · rw [set_nth_self, set_nth_self]
  · rfl

/-- The first swapped position receives the second value. -/
theorem lswap_nth_fst {α : Type} [Inhabited α] (l : List α) (i j : Nat)
    (hi : i < l.length) (hj : j < l.length) :
    nth (lswap l i j) i = nth l j := by
  unfold lswap
  rw [if_pos ⟨hi, hj⟩]
  by_cases hij : i = j
  · subst hij
    rw [nth_set_eq _ _ _ (by simp [hi])]
  · rw [nth_set_ne _ _ _ _ (fun h => hij h.symm), nth_set_eq _ _ _ hi]

/-- The second swapped position receives the first value. -/
theorem lswap_nth_snd {α : Type} [Inhabited α] (l : List α) (i j : Nat)
    (hi : i < l.length) (hj : j < l.length) :
    nth (lswap l i j) j = nth l i := by
  unfold lswap
  rw [if_pos ⟨hi, hj⟩]
  rw [nth_set_eq _ _ _ (by simp [hj])]

/-- Positions outside a swap are untouched. -/
theorem lswap_nth_other {α : Type} [Inhabited α] (l : List α) (i j k : Nat)
    (h1 : k ≠ i) (h2 : k ≠ j) : nth (lswap l i j) k = nth l k := by
  unfold lswap
  split
  · rw [nth_set_ne _ _ _ _ (fun h => h2 h.symm), nth_set_ne _ _ _ _ (fun h => h1 h.symm)]
  · rfl

/-- Adjacent-pair sortedness of the range [a, b). -/
def AdjSorted {α : Type} [Inhabited α] (less : α → α → Bool)
    (l : List α) (a b : Nat) : Prop :=
  ∀ k, a ≤ k → k + 1 < b → less (nth l (k + 1)) (nth l k) = false

/-- Pairwise sortedness of the range [a, b). -/
def SortedRange {α : Type} [Inhabited α] (less : α → α → Bool)
    (l : List α) (a b : Nat) : Prop :=
  ∀ p q, a ≤ p → p < q → q < b → less (nth l q) (nth l p) = false

/-- Positions outside [a, b) agree between two lists. -/
def OutEq {α : Type} [Inhabited α] (l l' : List α) (a b : Nat) : Prop :=
  ∀ k, k < a ∨ b ≤ k → nth l' k = nth l k

/-- Under a strict weak order, adjacent sortedness is pairwise sortedness. -/
theorem adj_sortedRange {α : Type} [Inhabited α] {less : α → α → Bool}
    (sw : StrictWeak less) (l : List α) (a b : Nat)
    (h : AdjSorted less l a b) : SortedRange less l a b := by
  intro p q hap hpq hqb
  induction q with
  | zero => omega
  | succ q' ih =>
    by_cases hq : p = q'
    · subst hq
      exact h p hap hqb
    · exact sw.2.2 _ _ _ (h q' (by omega) hqb) (ih (by omega) (by omega))

/-- OutEq is transitive along a chain of routines. -/
theorem OutEq.comp {α : Type} [Inhabited α] {l1 l2 l3 : List α} {a b : Nat}
    (h1 : OutEq l1 l2 a b) (h2 : OutEq l2 l3 a b) : OutEq l1 l3 a b :=
  fun k hk => (h2 k hk).trans (h1 k hk)

/-- OutEq on a wider window from OutEq on a narrower one. -/
theorem OutEq.widen {α : Type} [Inhabited α] {l1 l2 : List α} {a b a' b' : Nat}
    (h : OutEq l1 l2 a b) (ha : a' ≤ a) (hb : b ≤ b') : OutEq l1 l2 a' b' :=
  fun k hk => h k (by omega)

/-- A routine that permutes the list while fixing every position outside
[a, b) permutes the slice [a, b): each value the new slice holds already
appeared somewhere in the old slice. -/
theorem slice_mem {α : Type} [Inhabited α] {l l' : List α} {a b : Nat}
    (hp : l.Perm l') (hout : OutEq l l' a b) (hb : b ≤ l.length) :
    ∀ k, a ≤ k → k < b → ∃ k0, a ≤ k0 ∧ k0 < b ∧ nth l' k = nth l k0 := by
  by_cases hab : a ≤ b
  case neg => intro k h1 h2; omega
  have hlen : l'.length = l.length := hp.length_eq.symm
  have htake : l'.take a = l.take a := by
    apply List.ext_getElem
    · simp [hlen]
    · intro i h1 h2
      have hia : i < a := by simp at h1; omega
      have hi : i < l.length := by omega
      have := hout i (Or.inl hia)
      rw [nth_in _ _ (by omega), nth_in _ _ hi] at this
      simp [List.getElem_take, this]
  have hdrop : l'.drop b = l.drop b := by
    apply List.ext_getElem
    · simp [hlen]
    · intro i h1 h2
      have := hout (b + i) (Or.inr (by omega))
      rw [nth_in _ _ (by simp at h1; omega), nth_in _ _ (by simp at h2; omega)] at this
      simp [List.getElem_drop, this]
  have hdecl : l = l.take a ++ ((l.drop a).take (b - a) ++ l.drop b) := by
    conv_lhs => rw [← List.take_append_drop a l]
    congr 1
    conv_lhs => rw [← List.take_append_drop (b - a) (l.drop a)]
    congr 1
    rw [List.drop_drop]
    congr 1
    omega
  have hdecr : l' = l'.take a ++ ((l'.drop a).take (b - a) ++ l'.drop b) := by
    conv_lhs => rw [← List.take_append_drop a l']
    congr 1
    conv_lhs => rw [← List.take_append_drop (b - a) (l'.drop a)]
    congr 1
    rw [List.drop_drop]
    congr 1
    omega
  have hp2 : (l.take a ++ ((l.drop a).take (b - a) ++ l.drop b)).Perm
      (l.take a ++ ((l'.drop a).take (b - a) ++ l.drop b)) := by
    have h0 := hp
    rw [hdecl] at h0
    rw [hdecr] at h0
    rw [htake, hdrop] at h0
    exact h0
  have hmid : ((l.drop a).take (b - a)).Perm ((l'.drop a).take (b - a)) := by
    have h3 := (List.perm_append_left_iff (l.take a)).mp hp2
    exact (List.perm_append_right_iff (l.drop b)).mp h3
  intro k hak hkb
  have hkl : k < l'.length := by omega
  have hmlen : ((l.drop a).take (b - a)).length = b - a := by
    simp; omega
  have hmlen' : ((l'.drop a).take (b - a)).length = b - a := by
    simp; omega
  have hka : k - a < b - a := by omega
  have hklt : k - a < ((l'.drop a).take (b - a)).length := by omega
  have hval : nth l' k = ((l'.drop a).take (b - a))[k - a] := by
    rw [nth_in _ _ hkl]
    rw [List.getElem_take, List.getElem_drop]
    congr 1
    omega
  have hmem : ((l'.drop a).take (b - a))[k - a] ∈
      (l.drop a).take (b - a) :=
    hmid.mem_iff.mpr (List.getElem_mem _)
  obtain ⟨i, hi, hieq⟩ := List.mem_iff_getElem.mp hmem
  refine ⟨a + i, by omega, by omega, ?_⟩
  rw [hval, ← hieq]
  rw [nth_in _ _ (by omega)]
  rw [List.getElem_take, List.getElem_drop]

/-- The context pdqsort maintains for a sub-range [a, b): whenever the
range has a left neighbour, that neighbour is no greater than anything
inside the range. -/
def LeftCtx {α : Type} [Inhabited α] (less : α → α → Bool)
    (l : List α) (a b : Nat) : Prop :=
  0 < a → ∀ k, a ≤ k → k < b → less (nth l k) (nth l (a - 1)) = false

/-- LeftCtx survives any routine that permutes the list inside [a, b). -/
theorem LeftCtx.transport {α : Type} [Inhabited α] {less : α → α → Bool}
    {l l' : List α} {a b : Nat} (hc : LeftCtx less l a b)
    (hp : l.Perm l') (hout : OutEq l l' a b) (hb : b ≤ l.length) :
    LeftCtx less l' a b := by
  intro ha k h1 h2
  obtain ⟨k0, hk1, hk2, hk3⟩ := slice_mem hp hout hb k h1 h2
  rw [hk3, hout (a - 1) (Or.inl (by omega))]
  exact hc ha k0 hk1 hk2

/-- Any pointwise property of the slice [a, b) survives a routine that
permutes the list inside [a, b). -/
theorem slice_all {α : Type} [Inhabited α] {l l' : List α} {a b : Nat}
    {P : α → Prop} (hp : l.Perm l') (hout : OutEq l l' a b)
    (hb : b ≤ l.length) (h : ∀ k, a ≤ k → k < b → P (nth l k)) :
    ∀ k, a ≤ k → k < b → P (nth l' k) := by
  intro k h1 h2
  obtain ⟨k0, hk1, hk2, hk3⟩ := slice_mem hp hout hb k h1 h2
  rw [hk3]
  exact h k0 hk1 hk2

/-- The inner insertion loop inserts the element at position m into the
adjacently sorted run [a, m), leaving everything outside [a, m] alone;
position m keeps its value or receives the one from m - 1. -/
theorem insertionSortInner_spec {α : Type} [Inhabited α] {less : α → α → Bool}
    (sw : StrictWeak less) (a : Nat) :
    ∀ m l, a ≤ m → m < l.length → AdjSorted less l a m →
      AdjSorted less (insertionSortInner less l m a) a (m + 1) ∧
      OutEq l (insertionSortInner less l m a) a (m + 1) ∧
      (nth (insertionSortInner less l m a) m = nth l m ∨
        (a < m ∧ nth (insertionSortInner less l m a) m = nth l (m - 1))) := by
  intro m
  induction m with
  | zero =>
    intro l hm hlen hadj
    refine ⟨?_, ?_, Or.inl rfl⟩
    · intro k h1 h2; omega
    · intro k hk; rfl
  | succ j ih =>
    intro l hm hlen hadj
    by_cases hg : a < j + 1 ∧ less (nth l (j + 1)) (nth l j) = true
    · have hstep : insertionSortInner less l (j + 1) a =
          insertionSortInner less (lswap l (j + 1) j) j a := by
        rw [insertionSortInner]
        simp [hg.1, hg.2]
      have hlen1 : (lswap l (j + 1) j).length = l.length := lswap_length l _ _
      have hjlen : j < l.length := by omega
      have haj : a ≤ j := by omega
      have hadj1 : AdjSorted less (lswap l (j + 1) j) a j := by
        intro k h1 h2
        rw [lswap_nth_other l _ _ _ (by omega) (by omega),
          lswap_nth_other l _ _ _ (by omega) (by omega)]
        exact hadj k h1 (by omega)
      obtain ⟨radj, rout, rtop⟩ := ih (lswap l (j + 1) j) haj (by omega) hadj1
      rw [hstep]
      refine ⟨?_, ?_, ?_⟩
      · intro k h1 h2
        by_cases hk : k + 1 < j + 1
        · exact radj k h1 hk
        · have hkj : k = j := by omega
          rw [hkj]
          have htop : nth (insertionSortInner less (lswap l (j + 1) j) j a) (j + 1) =
              nth l j := by
            rw [rout (j + 1) (Or.inr (by omega)),
              lswap_nth_fst l _ _ (by omega) hjlen]
          rw [htop]
          rcases rtop with h4 | ⟨h4a, h4⟩
          · rw [h4, lswap_nth_snd l _ _ (by omega) hjlen]
            exact sw.2.1 _ _ hg.2
          · rw [h4, lswap_nth_other l _ _ _ (by omega) (by omega)]
            have h5 := hadj (j - 1) (by omega) (by omega)
            rw [show j - 1 + 1 = j by omega] at h5
            exact h5
      · refine OutEq.comp (fun k hk => ?_) (rout.widen (le_refl a) (by omega))
        exact lswap_nth_other l _ _ _ (by omega) (by omega)
      · right
        refine ⟨by omega, ?_⟩
        rw [rout (j + 1) (Or.inr (by omega)),
          lswap_nth_fst l _ _ (by omega) hjlen]
        simp
    · have hstep : insertionSortInner less l (j + 1) a = l := by
        rw [insertionSortInner]
        split
        · rename_i hcond
          exact absurd ⟨hcond.1, hcond.2⟩ hg
        · rfl
      rw [hstep]
      refine ⟨?_, fun k hk => rfl, Or.inl rfl⟩
      intro k h1 h2
      by_cases hk : k + 1 < j + 1
      · exact hadj k h1 hk
      · have hkj : k = j := by omega
        rw [hkj]
        rcases Bool.eq_false_or_eq_true (less (nth l (j + 1)) (nth l j)) with h | h
        · exact absurd ⟨by omega, h⟩ hg
        · exact h

/-- The outer insertion loop extends an adjacently sorted prefix to all of
[a, b). -/
theorem insertionSortLoopF_spec {α : Type} [Inhabited α] {less : α → α → Bool}
    (sw : StrictWeak less) (a b : Nat) :
    ∀ fuel l i, b ≤ l.length → a + 1 ≤ i → b ≤ i + fuel →
      AdjSorted less l a i →
      AdjSorted less (insertionSortLoopF less fuel l i b a) a b ∧
      OutEq l (insertionSortLoopF less fuel l i b a) a b := by
  intro fuel
  induction fuel with
  | zero =>
    intro l i hb hi hfuel hadj
    refine ⟨fun k h1 h2 => hadj k h1 (by omega), fun k hk => rfl⟩
  | succ fuel' ih =>
    intro l i hb hi hfuel hadj
    rw [insertionSortLoopF]
    by_cases hib : i < b
    · rw [if_pos hib]
      obtain ⟨iadj, iout, _⟩ :=
        insertionSortInner_spec sw a i l (by omega) (by omega) hadj
      have hlen1 : (insertionSortInner less l i a).length = l.length :=
        (insertionSortInner_perm less l i a).length_eq
      obtain ⟨radj, rout⟩ := ih (insertionSortInner less l i a) (i + 1)
        (by omega) (by omega) (by omega) iadj
      exact ⟨radj, OutEq.comp (iout.widen (le_refl a) (by omega)) rout⟩
    · rw [if_neg hib]
      refine ⟨fun k h1 h2 => hadj k h1 (by omega), fun k hk => rfl⟩

/-- Go sort's insertionSort sorts [a, b) and fixes everything else. -/
theorem insertionSort_spec {α : Type} [Inhabited α] {less : α → α → Bool}
    (sw : StrictWeak less) (l : List α) (a b : Nat) (hb : b ≤ l.length) :
    SortedRange less (insertionSort less l a b) a b ∧
    OutEq l (insertionSort less l a b) a b := by
  obtain ⟨radj, rout⟩ := insertionSortLoopF_spec sw a b (b - (a + 1)) l (a + 1)
    hb (le_refl _) (by omega) (fun k h1 h2 => by omega)
  exact ⟨adj_sortedRange sw _ a b radj, rout⟩

/-- The max-heap property at one node of the implicit tree that Go's
heapSort builds over data[first : first+hi]. -/
def LocalHeap {α : Type} [Inhabited α] (less : α → α → Bool)
    (l : List α) (first hi j : Nat) : Prop :=
  (2 * j + 1 < hi → less (nth l (first + j)) (nth l (first + (2 * j + 1))) = false) ∧
  (2 * j + 2 < hi → less (nth l (first + j)) (nth l (first + (2 * j + 2))) = false)

/-- One step of siftDown: given the recursion's guarantees below the
chosen child, the swap at the root re-establishes every guarantee at the
root.  `l2` stands for the recursion's result. -/
theorem siftDown_step {α : Type} [Inhabited α] {less : α → α → Bool}
    (sw : StrictWeak less) (hi first root child : Nat) (l l2 : List α)
    (hlen : first + hi ≤ l.length)
    (hch : child = 2 * root + 1 ∨ child = 2 * root + 2) (hchhi : child < hi)
    (hother : ∀ o, (o = 2 * root + 1 ∨ o = 2 * root + 2) → o < hi →
      less (nth l (first + child)) (nth l (first + o)) = false)
    (hswap : less (nth l (first + root)) (nth l (first + child)) = true)
    (hpre : ∀ j, root < j → LocalHeap less l first hi j)
    (hH : ∀ j, child ≤ j → LocalHeap less l2 first hi j)
    (hO : OutEq (lswap l (first + root) (first + child)) l2
      (first + child) (first + hi))
    (hP3 : ∀ k, child < k →
      less (nth (lswap l (first + root) (first + child)) (first + k))
        (nth l2 (first + k)) = false)
    (hP4 : nth l2 (first + child) =
        nth (lswap l (first + root) (first + child)) (first + child) ∨
      (2 * child + 1 < hi ∧ nth l2 (first + child) =
        nth (lswap l (first + root) (first + child)) (first + (2 * child + 1))) ∨
      (2 * child + 2 < hi ∧ nth l2 (first + child) =
        nth (lswap l (first + root) (first + child)) (first + (2 * child + 2)))) :
    (∀ j, root ≤ j → LocalHeap less l2 first hi j) ∧
    OutEq l l2 (first + root) (first + hi) ∧
    (∀ k, root < k → less (nth l (first + k)) (nth l2 (first + k)) = false) ∧
    (nth l2 (first + root) = nth l (first + root) ∨
      (2 * root + 1 < hi ∧ nth l2 (first + root) = nth l (first + (2 * root + 1))) ∨
      (2 * root + 2 < hi ∧ nth l2 (first + root) = nth l (first + (2 * root + 2)))) := by
  have hrc : root < child := by omega
  have hRlen : first + root < l.length := by omega
  have hClen : first + child < l.length := by omega
  have f1 : nth (lswap l (first + root) (first + child)) (first + child) =
      nth l (first + root) := lswap_nth_snd l _ _ hRlen hClen
  have f2 : nth (lswap l (first + root) (first + child)) (first + root) =
      nth l (first + child) := lswap_nth_fst l _ _ hRlen hClen
  have hl2root : nth l2 (first + root) = nth l (first + child) := by
    rw [hO (first + root) (Or.inl (by omega)), f2]
  have key : less (nth l (first + child)) (nth l2 (first + child)) = false := by
    rcases hP4 with h4 | ⟨hgc, h4⟩ | ⟨hgc, h4⟩
    · rw [h4, f1]
      exact sw.2.1 _ _ hswap
    · rw [h4, lswap_nth_other l _ _ _ (by omega) (by omega)]
      exact (hpre child hrc).1 hgc
    · rw [h4, lswap_nth_other l _ _ _ (by omega) (by omega)]
      exact (hpre child hrc).2 hgc
  have hout : OutEq l l2 (first + root) (first + hi) := by
    refine OutEq.comp (fun k hk => ?_) (hO.widen (by omega) (le_refl _))
    exact lswap_nth_other l _ _ _ (by omega) (by omega)
  have huntouched : ∀ k, root < k → k < child →
      nth l2 (first + k) = nth l (first + k) := by
    intro k h1 h2
    rw [hO (first + k) (Or.inl (by omega)),
      lswap_nth_other l _ _ _ (by omega) (by omega)]
  have hp3 : ∀ k, root < k → less (nth l (first + k)) (nth l2 (first + k)) = false := by
    intro k hk
    by_cases hkc : k = child
    · rw [hkc]; exact key
    · by_cases hkc2 : k < child
      · rw [huntouched k hk hkc2]
        exact sw.irr _
      · have := hP3 k (by omega)
        rw [lswap_nth_other l _ _ _ (by omega) (by omega)] at this
        exact this
  refine ⟨?_, hout, hp3, ?_⟩
  · intro j hj
    by_cases hjc : child ≤ j
    · exact hH j hjc
    · by_cases hjr : j = root
      · subst hjr
        constructor
        · intro h1
          rw [hl2root]
          by_cases ho : 2 * j + 1 = child
          · rw [ho]; exact key
          · rw [huntouched (2 * j + 1) (by omega) (by omega)]
            exact hother (2 * j + 1) (Or.inl rfl) h1
        · intro h2
          rw [hl2root]
          by_cases ho : 2 * j + 2 = child
          · rw [ho]; exact key
          · by_cases ho2 : 2 * j + 2 < child
            · rw [huntouched (2 * j + 2) (by omega) (by omega)]
              exact hother (2 * j + 2) (Or.inr rfl) h2
            · have h5 := hP3 (2 * j + 2) (by omega)
              rw [lswap_nth_other l _ _ _ (by omega) (by omega)] at h5
              exact sw.2.2 _ _ _ (hother (2 * j + 2) (Or.inr rfl) h2) h5
      · have hjmid : root < j ∧ j < child := ⟨by omega, by omega⟩
        constructor
        · intro h1
          rw [huntouched j hjmid.1 hjmid.2]
          have h5 := hP3 (2 * j + 1) (by omega)
          rw [lswap_nth_other l _ _ _ (by omega) (by omega)] at h5
          exact sw.2.2 _ _ _ ((hpre j hjmid.1).1 h1) h5
        · intro h2
          rw [huntouched j hjmid.1 hjmid.2]
          have h5 := hP3 (2 * j + 2) (by omega)
          rw [lswap_nth_other l _ _ _ (by omega) (by omega)] at h5
          exact sw.2.2 _ _ _ ((hpre j hjmid.1).2 h2) h5
  · rcases hch with hc | hc
    · exact Or.inr (Or.inl ⟨by omega, by rw [hl2root, hc]⟩)
    · exact Or.inr (Or.inr ⟨by omega, by rw [hl2root, hc]⟩)

/-- siftDown restores the heap property at the root: full specification by
induction on the fuel, which bounds hi - root. -/
theorem siftDownF_spec {α : Type} [Inhabited α] {less : α → α → Bool}
    (sw : StrictWeak less) (hi first : Nat) :
    ∀ fuel root l, first + hi ≤ l.length → hi - root ≤ fuel →
      (∀ j, root < j → LocalHeap less l first hi j) →
      (∀ j, root ≤ j → LocalHeap less (siftDownF less fuel l root hi first) first hi j) ∧
      OutEq l (siftDownF less fuel l root hi first) (first + root) (first + hi) ∧
      (∀ k, root < k →
        less (nth l (first + k)) (nth (siftDownF less fuel l root hi first) (first + k)) = false) ∧
      (nth (siftDownF less fuel l root hi first) (first + root) = nth l (first + root) ∨
        (2 * root + 1 < hi ∧
          nth (siftDownF less fuel l root hi first) (first + root) = nth l (first + (2 * root + 1))) ∨
        (2 * root + 2 < hi ∧
          nth (siftDownF less fuel l root hi first) (first + root) = nth l (first + (2 * root + 2)))) := by
  intro fuel
  induction fuel with
  | zero =>
    intro root l hlen hfuel hpre
    rw [siftDownF]
    refine ⟨?_, fun k hk => rfl, fun k hk => sw.irr _, Or.inl rfl⟩
    intro j hj
    by_cases hjr : root < j
    · exact hpre j hjr
    · have hjr2 : j = root := by omega
      subst hjr2
      exact ⟨fun h => by omega, fun h => by omega⟩
  | succ fuel' ih =>
    intro root l hlen hfuel hpre
    by_cases hguard : hi ≤ 2 * root + 1
    · rw [siftDownF, if_pos hguard]
      refine ⟨?_, fun k hk => rfl, fun k hk => sw.irr _, Or.inl rfl⟩
      intro j hj
      by_cases hjr : root < j
      · exact hpre j hjr
      · have hjr2 : j = root := by omega
        subst hjr2
        exact ⟨fun h => by omega, fun h => by omega⟩
    · have hc1len : first + (2 * root + 1) < l.length := by omega
      by_cases hcond : 2 * root + 1 + 1 < hi ∧
          less (nth l (first + (2 * root + 1))) (nth l (first + (2 * root + 1) + 1)) = true
      · have hcmax : less (nth l (first + (2 * root + 1)))
            (nth l (first + (2 * root + 1 + 1))) = true := by
          rw [show first + (2 * root + 1 + 1) = first + (2 * root + 1) + 1 by omega]
          exact hcond.2
        by_cases hswap : less (nth l (first + root)) (nth l (first + (2 * root + 1 + 1))) = true
        · have hstep : siftDownF less (fuel' + 1) l root hi first =
              siftDownF less fuel' (lswap l (first + root) (first + (2 * root + 1 + 1)))
                (2 * root + 1 + 1) hi first := by
            rw [siftDownF, if_neg hguard]
            dsimp only
            rw [if_pos hcond]
            rw [if_pos (by
              rw [show first + (2 * root + 1 + 1) = first + (2 * root + 1) + 1 by omega] at hswap
              exact hswap)]
          rw [hstep]
          have hpre2 : ∀ j, 2 * root + 1 + 1 < j →
              LocalHeap less (lswap l (first + root) (first + (2 * root + 1 + 1))) first hi j := by
            intro j hj
            refine ⟨fun h1 => ?_, fun h2 => ?_⟩
            · rw [lswap_nth_other l _ _ _ (by omega) (by omega),
                lswap_nth_other l _ _ _ (by omega) (by omega)]
              exact (hpre j (by omega)).1 h1
            · rw [lswap_nth_other l _ _ _ (by omega) (by omega),
                lswap_nth_other l _ _ _ (by omega) (by omega)]
              exact (hpre j (by omega)).2 h2
          obtain ⟨rH, rO, rP3, rP4⟩ := ih (2 * root + 1 + 1)
            (lswap l (first + root) (first + (2 * root + 1 + 1)))
            (by rw [lswap_length]; exact hlen) (by omega) hpre2
          refine siftDown_step sw hi first root (2 * root + 1 + 1) l _ hlen
            (Or.inr (by omega)) (by omega) ?_ hswap hpre rH rO rP3 rP4
          intro o ho hohi
          rcases ho with ho | ho
          · subst ho
            exact sw.2.1 _ _ hcmax
          · subst ho
            rw [show 2 * root + 1 + 1 = 2 * root + 2 by omega]
            exact sw.irr _
        · have hstep : siftDownF less (fuel' + 1) l root hi first = l := by
            rw [siftDownF, if_neg hguard]
            dsimp only
            rw [if_pos hcond]
            rw [if_neg (by
              rw [show first + (2 * root + 1 + 1) = first + (2 * root + 1) + 1 by omega] at hswap
              exact hswap)]
          rw [hstep]
          refine ⟨?_, fun k hk => rfl, fun k hk => sw.irr _, Or.inl rfl⟩
          intro j hj
          by_cases hjr : root < j
          · exact hpre j hjr
          · have hjr2 : j = root := by omega
            subst hjr2
            refine ⟨fun h1 => ?_, fun h2 => ?_⟩
            · cases h : less (nth l (first + j)) (nth l (first + (2 * j + 1))) with
              | false => rfl
              | true =>
                have h6 := sw.1 _ _ _ h hcmax
                rw [show first + (2 * j + 1 + 1) = first + (2 * j + 2) by omega] at h6
                rw [show first + (2 * j + 2) = first + (2 * j + 1 + 1) by omega] at h6
                exact absurd h6 (by
                  rw [show first + (2 * j + 1 + 1) = first + (2 * j + 1) + 1 by omega]
                  rw [show first + (2 * j + 1) + 1 = first + (2 * j + 1 + 1) by omega]
                  simp [hswap])
            · rw [show first + (2 * j + 2) = first + (2 * j + 1 + 1) by omega]
              cases h : less (nth l (first + j)) (nth l (first + (2 * j + 1 + 1))) with
              | false => rfl
              | true => exact absurd h hswap
      · have hc1 : ¬ (2 * root + 1 + 1 < hi) ∨
            less (nth l (first + (2 * root + 1))) (nth l (first + (2 * root + 1) + 1)) = false := by
          by_cases h1 : 2 * root + 1 + 1 < hi
          · right
            cases h : less (nth l (first + (2 * root + 1))) (nth l (first + (2 * root + 1) + 1)) with
            | false => rfl
            | true => exact absurd ⟨h1, h⟩ hcond
          · exact Or.inl h1
        by_cases hswap : less (nth l (first + root)) (nth l (first + (2 * root + 1))) = true
        · have hstep : siftDownF less (fuel' + 1) l root hi first =
              siftDownF less fuel' (lswap l (first + root) (first + (2 * root + 1)))
                (2 * root + 1) hi first := by
            rw [siftDownF, if_neg hguard]
            dsimp only
            rw [if_neg hcond]
            rw [if_pos hswap]
          rw [hstep]
          have hpre2 : ∀ j, 2 * root + 1 < j →
              LocalHeap less (lswap l (first + root) (first + (2 * root + 1))) first hi j := by
            intro j hj
            refine ⟨fun h1 => ?_, fun h2 => ?_⟩
            · rw [lswap_nth_other l _ _ _ (by omega) (by omega),
                lswap_nth_other l _ _ _ (by omega) (by omega)]
              exact (hpre j (by omega)).1 h1
            · rw [lswap_nth_other l _ _ _ (by omega) (by omega),
                lswap_nth_other l _ _ _ (by omega) (by omega)]
              exact (hpre j (by omega)).2 h2
          obtain ⟨rH, rO, rP3, rP4⟩ := ih (2 * root + 1)
            (lswap l (first + root) (first + (2 * root + 1)))
            (by rw [lswap_length]; exact hlen) (by omega) hpre2
          refine siftDown_step sw hi first root (2 * root + 1) l _ hlen
            (Or.inl rfl) (by omega) ?_ hswap hpre rH rO rP3 rP4
          intro o ho hohi
          rcases ho with ho | ho
          · subst ho
            exact sw.irr _
          · subst ho
            rcases hc1 with hc1 | hc1
            · omega
            · rw [show first + (2 * root + 2) = first + (2 * root + 1) + 1 by omega]
              exact hc1
        · have hstep : siftDownF less (fuel' + 1) l root hi first = l := by
            rw [siftDownF, if_neg hguard]
            dsimp only
            rw [if_neg hcond]
            rw [if_neg hswap]
          rw [hstep]
          refine ⟨?_, fun k hk => rfl, fun k hk => sw.irr _, Or.inl rfl⟩
          intro j hj
          by_cases hjr : root < j
          · exact hpre j hjr
          · have hjr2 : j = root := by omega
            subst hjr2
            refine ⟨fun h1 => ?_, fun h2 => ?_⟩
            · cases h : less (nth l (first + j)) (nth l (first + (2 * j + 1))) with
              | false => rfl
              | true => exact absurd h hswap
            · rcases hc1 with hc1 | hc1
              · omega
              · have h8 : less (nth l (first + j)) (nth l (first + (2 * j + 1))) = false := by
                  cases h : less (nth l (first + j)) (nth l (first + (2 * j + 1))) with
                  | false => rfl
                  | true => exact absurd h hswap
                have h9 := sw.2.2 _ _ _ h8 hc1
                rw [show first + (2 * j + 1) + 1 = first + (2 * j + 2) by omega] at h9
                exact h9

/-- The build phase establishes the heap property at every node. -/
theorem heapSortBuild_spec {α : Type} [Inhabited α] {less : α → α → Bool}
    (sw : StrictWeak less) (hi first : Nat) :
    ∀ i l, first + hi ≤ l.length →
      (∀ j, i < j → LocalHeap less l first hi j) →
      (∀ j, LocalHeap less (heapSortBuild less l i hi first) first hi j) ∧
      OutEq l (heapSortBuild less l i hi first) first (first + hi) := by
  intro i
  induction i with
  | zero =>
    intro l hlen hpre
    obtain ⟨rH, rO, _, _⟩ := siftDownF_spec sw hi first hi 0 l hlen (by omega) hpre
    rw [heapSortBuild]
    exact ⟨fun j => rH j (Nat.zero_le j), rO.widen (by omega) (le_refl _)⟩
  | succ i' ih =>
    intro l hlen hpre
    obtain ⟨rH, rO, _, _⟩ :=
      siftDownF_spec sw hi first hi (i' + 1) l hlen (by omega) hpre
    have hstep : heapSortBuild less l (i' + 1) hi first =
        heapSortBuild less (siftDown less l (i' + 1) hi first) i' hi first := by
      rw [heapSortBuild]
    rw [hstep, siftDown]
    have hlen1 : (siftDownF less hi l (i' + 1) hi first).length = l.length :=
      (siftDownF_perm less hi l (i' + 1) hi first).length_eq
    obtain ⟨sH, sO⟩ := ih (siftDownF less hi l (i' + 1) hi first) (by omega)
      (fun j hj => rH j (by omega))
    exact ⟨sH, OutEq.comp (rO.widen (by omega) (le_refl _)) sO⟩

/-- In a max-heap the root is no less than any node. -/
theorem heap_root_max {α : Type} [Inhabited α] {less : α → α → Bool}
    (sw : StrictWeak less) (l : List α) (first hi : Nat)
    (h : ∀ j, LocalHeap less l first hi j) :
    ∀ j, j < hi → less (nth l first) (nth l (first + j)) = false := by
  intro j
  induction j using Nat.strong_induction_on with
  | _ j ih =>
    intro hj
    match j with
    | 0 => simpa using sw.irr (nth l first)
    | Nat.succ j' =>
      have hsplit : j' + 1 = 2 * (j' / 2) + 1 ∨ j' + 1 = 2 * (j' / 2) + 2 := by omega
      have hpar : less (nth l (first + j' / 2)) (nth l (first + (j' + 1))) = false := by
        rcases hsplit with hs | hs
        · have := (h (j' / 2)).1 (by omega)
          rw [← hs] at this
          exact this
        · have := (h (j' / 2)).2 (by omega)
          rw [← hs] at this
          exact this
      exact sw.2.2 _ _ _ (ih (j' / 2) (by omega) (by omega)) hpar

/-- The pop phase keeps a shrinking heap below a growing sorted suffix and
ends with the whole window sorted. -/
theorem heapSortPop_spec {α : Type} [Inhabited α] {less : α → α → Bool}
    (sw : StrictWeak less) (first e : Nat) :
    ∀ i l, i < e → first + e ≤ l.length →
      (∀ j, LocalHeap less l first (i + 1) j) →
      (∀ p q, i + 1 ≤ p → p < q → q < e →
        less (nth l (first + q)) (nth l (first + p)) = false) →
      (∀ p q, p ≤ i → i + 1 ≤ q → q < e →
        less (nth l (first + q)) (nth l (first + p)) = false) →
      (∀ p q, p < q → q < e →
        less (nth (heapSortPop less l i first) (first + q))
          (nth (heapSortPop less l i first) (first + p)) = false) ∧
      OutEq l (heapSortPop less l i first) first (first + i + 1) := by
  intro i
  induction i with
  | zero =>
    intro l hie hlen hA hB hC
    have hstep : heapSortPop less l 0 first = l := by
      rw [heapSortPop]
      rw [Nat.add_zero, lswap_self, siftDown, siftDownF]
    rw [hstep]
    refine ⟨?_, fun k hk => rfl⟩
    intro p q hpq hqe
    match p with
    | 0 =>
      have := hC 0 q (by omega) (by omega) hqe
      simpa using this
    | Nat.succ p' => exact hB (p' + 1) q (by omega) hpq hqe
  | succ i' ih =>
    intro l hie hlen hA hB hC
    have hilen : first + (i' + 1) < l.length := by omega
    have hflen : first < l.length := by omega
    have hswfst : nth (lswap l first (first + (i' + 1))) first = nth l (first + (i' + 1)) :=
      lswap_nth_fst l _ _ hflen hilen
    have hswsnd : nth (lswap l first (first + (i' + 1))) (first + (i' + 1)) = nth l first :=
      lswap_nth_snd l _ _ hflen hilen
    have hlen0 : (lswap l first (first + (i' + 1))).length = l.length := lswap_length l _ _
    have hpre : ∀ j, 0 < j →
        LocalHeap less (lswap l first (first + (i' + 1))) first (i' + 1) j := by
      intro j hj
      refine ⟨fun h1 => ?_, fun h2 => ?_⟩
      · rw [lswap_nth_other l _ _ _ (by omega) (by omega),
          lswap_nth_other l _ _ _ (by omega) (by omega)]
        exact (hA j).1 (by omega)
      · rw [lswap_nth_other l _ _ _ (by omega) (by omega),
          lswap_nth_other l _ _ _ (by omega) (by omega)]
        exact (hA j).2 (by omega)
    obtain ⟨rH, rO, rP3, rP4⟩ := siftDownF_spec sw (i' + 1) first (i' + 1) 0
      (lswap l first (first + (i' + 1))) (by omega) (by omega) hpre
    have hrm := heap_root_max sw l first (i' + 2) hA
    have hsv1 : nth (siftDownF less (i' + 1) (lswap l first (first + (i' + 1))) 0 (i' + 1) first)
        (first + (i' + 1)) = nth l first := by
      rw [rO (first + (i' + 1)) (Or.inr (by omega)), hswsnd]
    have hsv2 : ∀ q, i' + 1 < q →
        nth (siftDownF less (i' + 1) (lswap l first (first + (i' + 1))) 0 (i' + 1) first)
          (first + q) = nth l (first + q) := by
      intro q hq
      rw [rO (first + q) (Or.inr (by omega)),
        lswap_nth_other l _ _ _ (by omega) (by omega)]
    have hhv : ∀ p, 1 ≤ p → p ≤ i' →
        less (nth l (first + p))
          (nth (siftDownF less (i' + 1) (lswap l first (first + (i' + 1))) 0 (i' + 1) first)
            (first + p)) = false := by
      intro p h1 h2
      have := rP3 p (by omega)
      rw [lswap_nth_other l _ _ _ (by omega) (by omega)] at this
      exact this
    have hr4 : ∃ r, r < i' + 2 ∧
        nth (siftDownF less (i' + 1) (lswap l first (first + (i' + 1))) 0 (i' + 1) first)
          first = nth l (first + r) := by
      rcases rP4 with h4 | ⟨hg, h4⟩ | ⟨hg, h4⟩
      · refine ⟨i' + 1, by omega, ?_⟩
        have h4b : nth (siftDownF less (i' + 1) (lswap l first (first + (i' + 1))) 0 (i' + 1)
            first) first = nth (lswap l first (first + (i' + 1))) first := by
          simpa using h4
        rw [h4b, hswfst]
      · refine ⟨1, by omega, ?_⟩
        have h4b : nth (siftDownF less (i' + 1) (lswap l first (first + (i' + 1))) 0 (i' + 1)
            first) first = nth (lswap l first (first + (i' + 1))) (first + 1) := by
          simpa using h4
        rw [h4b, lswap_nth_other l _ _ _ (by omega) (by omega)]
      · refine ⟨2, by omega, ?_⟩
        have h4b : nth (siftDownF less (i' + 1) (lswap l first (first + (i' + 1))) 0 (i' + 1)
            first) first = nth (lswap l first (first + (i' + 1))) (first + 2) := by
          simpa using h4
        rw [h4b, lswap_nth_other l _ _ _ (by omega) (by omega)]
    have hA2 : ∀ j, LocalHeap less
        (siftDownF less (i' + 1) (lswap l first (first + (i' + 1))) 0 (i' + 1) first)
        first (i' + 1) j := fun j => rH j (Nat.zero_le j)
    have hB2 : ∀ p q, i' + 1 ≤ p → p < q → q < e →
        less (nth (siftDownF less (i' + 1) (lswap l first (first + (i' + 1))) 0 (i' + 1) first)
            (first + q))
          (nth (siftDownF less (i' + 1) (lswap l first (first + (i' + 1))) 0 (i' + 1) first)
            (first + p)) = false := by
      intro p q h1 h2 h3
      rw [hsv2 q (by omega)]
      by_cases hp : p = i' + 1
      · rw [hp, hsv1]
        have := hC 0 q (by omega) (by omega) h3
        simpa using this
      · rw [hsv2 p (by omega)]
        exact hB p q (by omega) h2 h3
    have hC2 : ∀ p q, p ≤ i' → i' + 1 ≤ q → q < e →
        less (nth (siftDownF less (i' + 1) (lswap l first (first + (i' + 1))) 0 (i' + 1) first)
            (first + q))
          (nth (siftDownF less (i' + 1) (lswap l first (first + (i' + 1))) 0 (i' + 1) first)
            (first + p)) = false := by
      intro p q h1 h2 h3
      have hsval : ∀ x, less (nth l first) x = false →
          (∀ q2, i' + 2 ≤ q2 → q2 < e → less (nth l (first + q2)) x = false) →
          less (nth (siftDownF less (i' + 1) (lswap l first (first + (i' + 1))) 0 (i' + 1) first)
            (first + q)) x = false := by
        intro x hroot hsuf
        by_cases hq : q = i' + 1
        · rw [hq, hsv1]
          exact hroot
        · rw [hsv2 q (by omega)]
          exact hsuf q (by omega) h3
      match p, h1 with
      | 0, _ =>
        obtain ⟨r, hr, hreq⟩ := hr4
        have hgoal : less (nth (siftDownF less (i' + 1) (lswap l first (first + (i' + 1))) 0
            (i' + 1) first) (first + q)) (nth l (first + r)) = false :=
          hsval _ (hrm r (by omega)) (fun q2 hq2 hq2e => hC r q2 (by omega) hq2 hq2e)
        rw [← hreq] at hgoal
        simpa using hgoal
      | Nat.succ p', h1 =>
        refine sw.2.2 _ _ _ (hsval _ (hrm (p' + 1) (by omega))
          (fun q2 hq2 hq2e => hC (p' + 1) q2 (by omega) hq2 hq2e)) ?_
        exact hhv (p' + 1) (by omega) h1
    have hlen1 : (siftDownF less (i' + 1) (lswap l first (first + (i' + 1))) 0 (i' + 1)
        first).length = l.length := by
      rw [(siftDownF_perm less (i' + 1) (lswap l first (first + (i' + 1))) 0 (i' + 1)
        first).length_eq, hlen0]
    obtain ⟨rsor, rout⟩ := ih
      (siftDownF less (i' + 1) (lswap l first (first + (i' + 1))) 0 (i' + 1) first)
      (by omega) (by omega) hA2 hB2 hC2
    have hstep : heapSortPop less l (i' + 1) first =
        heapSortPop less
          (siftDownF less (i' + 1) (lswap l first (first + (i' + 1))) 0 (i' + 1) first)
          i' first := by
      rw [heapSortPop]
      rw [siftDown]
    rw [hstep]
    refine ⟨rsor, ?_⟩
    have o1 : OutEq l (lswap l first (first + (i' + 1))) first (first + (i' + 1) + 1) :=
      fun k hk => lswap_nth_other l _ _ _ (by omega) (by omega)
    have o2 := rO.widen (show first ≤ first + 0 by omega)
      (show first + (i' + 1) ≤ first + (i' + 1) + 1 by omega)
    have o3 := rout.widen (le_refl first)
      (show first + i' + 1 ≤ first + (i' + 1) + 1 by omega)
    exact (o1.comp o2).comp o3

/-- Go sort's heapSort sorts [a, b) and fixes everything else. -/
theorem heapSort_spec {α : Type} [Inhabited α] {less : α → α → Bool}
    (sw : StrictWeak less) (l : List α) (a b : Nat) (hab : a ≤ b)
    (hb : b ≤ l.length) :
    SortedRange less (heapSort less l a b) a b ∧
    OutEq l (heapSort less l a b) a b := by
  by_cases hhi : b - a = 0
  · obtain ⟨bH, bO⟩ := heapSortBuild_spec sw (b - a) a ((b - a - 1) / 2) l
      (by omega) (fun j hj => ⟨fun h => by omega, fun h => by omega⟩)
    rw [heapSort]
    rw [if_pos hhi]
    refine ⟨fun p q h1 h2 h3 => by omega, ?_⟩
    intro k hk
    exact bO k (by omega)
  · obtain ⟨bH, bO⟩ := heapSortBuild_spec sw (b - a) a ((b - a - 1) / 2) l
      (by omega) (fun j hj => ⟨fun h => by omega, fun h => by omega⟩)
    have hlen1 : (heapSortBuild less l ((b - a - 1) / 2) (b - a) a).length = l.length :=
      (heapSortBuild_perm less l ((b - a - 1) / 2) (b - a) a).length_eq
    obtain ⟨pS, pO⟩ := heapSortPop_spec sw a (b - a) (b - a - 1)
      (heapSortBuild less l ((b - a - 1) / 2) (b - a) a)
      (by omega) (by omega)
      (fun j => by
        have := bH j
        rw [show b - a - 1 + 1 = b - a by omega]
        exact this)
      (fun p q h1 h2 h3 => by omega)
      (fun p q h1 h2 h3 => by omega)
    rw [heapSort]
    rw [if_neg hhi]
    constructor
    · intro p q h1 h2 h3
      have := pS (p - a) (q - a) (by omega) (by omega)
      rw [show a + (q - a) = q by omega, show a + (p - a) = p by omega] at this
      exact this
    · refine OutEq.comp (bO.widen (le_refl a) (by omega)) ?_
      exact pO.widen (le_refl a) (by omega)

/-- nthI at a non-negative index. -/
theorem nthI_eq {α : Type} [Inhabited α] (l : List α) (k : Int) (h : 0 ≤ k) :
    nthI l k = nth l k.toNat := by
  simp [nthI, h]

/-- lswapI at non-negative indices. -/
theorem lswapI_eq {α : Type} [Inhabited α] (l : List α) (i j : Int)
    (hi : 0 ≤ i) (hj : 0 ≤ j) : lswapI l i j = lswap l i.toNat j.toNat := by
  simp [lswapI, hi, hj]

/-- partition's rightward scan: skips exactly the elements below the
pivot value and stops in range. -/
theorem scanRightF_spec {α : Type} [Inhabited α] (less : α → α → Bool)
    (l : List α) (a : Int) :
    ∀ fuel (i j : Int), (j + 1 - i).toNat < fuel → i ≤ j + 1 →
      i ≤ scanRightF less l fuel i j a ∧
      scanRightF less l fuel i j a ≤ j + 1 ∧
      (∀ k, i ≤ k → k < scanRightF less l fuel i j a →
        less (nthI l k) (nthI l a) = true) ∧
      (scanRightF less l fuel i j a ≤ j →
        less (nthI l (scanRightF less l fuel i j a)) (nthI l a) = false) := by
  intro fuel
  induction fuel with
  | zero => intro i j hf hij; omega
  | succ fuel' ih =>
    intro i j hf hij
    rw [scanRightF]
    by_cases hc : i ≤ j ∧ less (nthI l i) (nthI l a) = true
    · rw [if_pos hc]
      obtain ⟨r1, r2, r3, r4⟩ := ih (i + 1) j (by omega) (by omega)
      refine ⟨by omega, r2, ?_, r4⟩
      intro k hk1 hk2
      by_cases hk : k = i
      · rw [hk]; exact hc.2
      · exact r3 k (by omega) hk2
    · rw [if_neg hc]
      refine ⟨le_refl i, hij, fun k h1 h2 => by omega, ?_⟩
      intro hij2
      cases h : less (nthI l i) (nthI l a) with
      | false => rfl
      | true => exact absurd ⟨hij2, h⟩ hc

/-- partition's leftward scan: skips exactly the elements not below the
pivot value and stops in range. -/
theorem scanLeftF_spec {α : Type} [Inhabited α] (less : α → α → Bool)
    (l : List α) (a : Int) :
    ∀ fuel (i j : Int), (j + 1 - i).toNat < fuel → i - 1 ≤ j →
      scanLeftF less l fuel i j a ≤ j ∧
      i - 1 ≤ scanLeftF less l fuel i j a ∧
      (∀ k, scanLeftF less l fuel i j a < k → k ≤ j →
        less (nthI l k) (nthI l a) = false) ∧
      (i ≤ scanLeftF less l fuel i j a →
        less (nthI l (scanLeftF less l fuel i j a)) (nthI l a) = true) := by
  intro fuel
  induction fuel with
  | zero => intro i j hf hij; omega
  | succ fuel' ih =>
    intro i j hf hij
    rw [scanLeftF]
    by_cases hc : i ≤ j ∧ ¬ less (nthI l j) (nthI l a) = true
    · rw [if_pos hc]
      obtain ⟨r1, r2, r3, r4⟩ := ih i (j - 1) (by omega) (by omega)
      refine ⟨by omega, r2, ?_, r4⟩
      intro k hk1 hk2
      by_cases hk : k = j
      · rw [hk]
        simpa using hc.2
      · exact r3 k hk1 (by omega)
    · rw [if_neg hc]
      refine ⟨le_refl j, hij, fun k h1 h2 => by omega, ?_⟩
      intro hij2
      cases h : less (nthI l j) (nthI l a) with
      | false => exact absurd ⟨hij2, by simp [h]⟩ hc
      | true => rfl

/-- partitionEqual's rightward scan: skips exactly the elements not above
the pivot value and stops in range. -/
theorem scanEqRightF_spec {α : Type} [Inhabited α] (less : α → α → Bool)
    (l : List α) (a : Int) :
    ∀ fuel (i j : Int), (j + 1 - i).toNat < fuel → i ≤ j + 1 →
      i ≤ scanEqRightF less l fuel i j a ∧
      scanEqRightF less l fuel i j a ≤ j + 1 ∧
      (∀ k, i ≤ k → k < scanEqRightF less l fuel i j a →
        less (nthI l a) (nthI l k) = false) ∧
      (scanEqRightF less l fuel i j a ≤ j →
        less (nthI l a) (nthI l (scanEqRightF less l fuel i j a)) = true) := by
  intro fuel
  induction fuel with
  | zero => intro i j hf hij; omega
  | succ fuel' ih =>
    intro i j hf hij
    rw [scanEqRightF]
    by_cases hc : i ≤ j ∧ ¬ less (nthI l a) (nthI l i) = true
    · rw [if_pos hc]
      obtain ⟨r1, r2, r3, r4⟩ := ih (i + 1) j (by omega) (by omega)
      refine ⟨by omega, r2, ?_, r4⟩
      intro k hk1 hk2
      by_cases hk : k = i
      · rw [hk]
        simpa using hc.2
      · exact r3 k (by omega) hk2
    · rw [if_neg hc]
      refine ⟨le_refl i, hij, fun k h1 h2 => by omega, ?_⟩
      intro hij2
      cases h : less (nthI l a) (nthI l i) with
      | false => exact absurd ⟨hij2, by simp [h]⟩ hc
      | true => rfl

/-- partitionEqual's leftward scan: skips exactly the elements above the
pivot value and stops in range. -/
theorem scanEqLeftF_spec {α : Type} [Inhabited α] (less : α → α → Bool)
    (l : List α) (a : Int) :
    ∀ fuel (i j : Int), (j + 1 - i).toNat < fuel → i - 1 ≤ j →
      scanEqLeftF less l fuel i j a ≤ j ∧
      i - 1 ≤ scanEqLeftF less l fuel i j a ∧
      (∀ k, scanEqLeftF less l fuel i j a < k → k ≤ j →
        less (nthI l a) (nthI l k) = true) ∧
      (i ≤ scanEqLeftF less l fuel i j a →
        less (nthI l a) (nthI l (scanEqLeftF less l fuel i j a)) = false) := by
  intro fuel
  induction fuel with
  | zero => intro i j hf hij; omega
  | succ fuel' ih =>
    intro i j hf hij
    rw [scanEqLeftF]
    by_cases hc : i ≤ j ∧ less (nthI l a) (nthI l j) = true
    · rw [if_pos hc]
      obtain ⟨r1, r2, r3, r4⟩ := ih i (j - 1) (by omega) (by omega)
      refine ⟨by omega, r2, ?_, r4⟩
      intro k hk1 hk2
      by_cases hk : k = j
      · rw [hk]; exact hc.2
      · exact r3 k hk1 (by omega)
    · rw [if_neg hc]
      refine ⟨le_refl j, hij, fun k h1 h2 => by omega, ?_⟩
      intro hij2
      cases h : less (nthI l a) (nthI l j) with
      | false => rfl
      | true => exact absurd ⟨hij2, h⟩ hc

/-- scanRight with its packaged fuel. -/
theorem scanRight_spec {α : Type} [Inhabited α] (less : α → α → Bool)
    (l : List α) (a i j : Int) (hij : i ≤ j + 1) :
    i ≤ scanRight less l i j a ∧
    scanRight less l i j a ≤ j + 1 ∧
    (∀ k, i ≤ k → k < scanRight less l i j a →
      less (nthI l k) (nthI l a) = true) ∧
    (scanRight less l i j a ≤ j →
      less (nthI l (scanRight less l i j a)) (nthI l a) = false) :=
  scanRightF_spec less l a ((j + 1 - i).toNat + 1) i j (by omega) hij

/-- scanLeft with its packaged fuel. -/
theorem scanLeft_spec {α : Type} [Inhabited α] (less : α → α → Bool)
    (l : List α) (a i j : Int) (hij : i - 1 ≤ j) :
    scanLeft less l i j a ≤ j ∧
    i - 1 ≤ scanLeft less l i j a ∧
    (∀ k, scanLeft less l i j a < k → k ≤ j →
      less (nthI l k) (nthI l a) = false) ∧
    (i ≤ scanLeft less l i j a →
      less (nthI l (scanLeft less l i j a)) (nthI l a) = true) :=
  scanLeftF_spec less l a ((j + 1 - i).toNat + 1) i j (by omega) hij

/-- scanEqRight with its packaged fuel. -/
theorem scanEqRight_spec {α : Type} [Inhabited α] (less : α → α → Bool)
    (l : List α) (a i j : Int) (hij : i ≤ j + 1) :
    i ≤ scanEqRight less l i j a ∧
    scanEqRight less l i j a ≤ j + 1 ∧
    (∀ k, i ≤ k → k < scanEqRight less l i j a →
      less (nthI l a) (nthI l k) = false) ∧
    (scanEqRight less l i j a ≤ j →
      less (nthI l a) (nthI l (scanEqRight less l i j a)) = true) :=
  scanEqRightF_spec less l a ((j + 1 - i).toNat + 1) i j (by omega) hij

/-- scanEqLeft with its packaged fuel. -/
theorem scanEqLeft_spec {α : Type} [Inhabited α] (less : α → α → Bool)
    (l : List α) (a i j : Int) (hij : i - 1 ≤ j) :
    scanEqLeft less l i j a ≤ j ∧
    i - 1 ≤ scanEqLeft less l i j a ∧
    (∀ k, scanEqLeft less l i j a < k → k ≤ j →
      less (nthI l a) (nthI l k) = true) ∧
    (i ≤ scanEqLeft less l i j a →
      less (nthI l a) (nthI l (scanEqLeft less l i j a)) = false) :=
  scanEqLeftF_spec less l a ((j + 1 - i).toNat + 1) i j (by omega) hij

/-- The main partition loop: starting from established side zones it
finishes the partition of [a+1, B-1] around the pivot value parked at a,
parks that value between the zones and reports its position. -/
theorem partitionLoopF_spec {α : Type} [Inhabited α] {less : α → α → Bool}
    (sw : StrictWeak less) (B : Int) :
    ∀ fuel l (a i j : Int), (j + 1 - i).toNat < fuel →
      0 ≤ a → a + 1 ≤ i → i ≤ j + 1 → j ≤ B - 1 → B ≤ (l.length : Int) →
      (∀ k, a + 1 ≤ k → k < i → less (nthI l k) (nthI l a) = true) →
      (∀ k, j < k → k < B → less (nthI l k) (nthI l a) = false) →
      a ≤ (partitionLoopF less fuel l a i j).2 ∧
      (partitionLoopF less fuel l a i j).2 ≤ B - 1 ∧
      (∀ k, a ≤ k → k < (partitionLoopF less fuel l a i j).2 →
        less (nthI (partitionLoopF less fuel l a i j).1 k)
          (nthI (partitionLoopF less fuel l a i j).1 (partitionLoopF less fuel l a i j).2) = true) ∧
      (∀ k, (partitionLoopF less fuel l a i j).2 < k → k < B →
        less (nthI (partitionLoopF less fuel l a i j).1 k)
          (nthI (partitionLoopF less fuel l a i j).1 (partitionLoopF less fuel l a i j).2) = false) ∧
      OutEq l (partitionLoopF less fuel l a i j).1 a.toNat B.toNat ∧
      (partitionLoopF less fuel l a i j).1.length = l.length := by
  intro fuel
  induction fuel with
  | zero =>
    intro l a i j hf
    exact absurd hf (by omega)
  | succ fuel' ih =>
    intro l a i j hf ha hai hij hjB hlen hzL hzR
    obtain ⟨s1, s2, s3, s4⟩ := scanRight_spec less l a i j hij
    obtain ⟨t1, t2, t3, t4⟩ := scanLeft_spec less l a (scanRight less l i j a) j (by omega)
    have hzL2 : ∀ k, a + 1 ≤ k → k < scanRight less l i j a →
        less (nthI l k) (nthI l a) = true := by
      intro k h1 h2
      by_cases hk : k < i
      · exact hzL k h1 hk
      · exact s3 k (by omega) h2
    have hzR2 : ∀ k, scanLeft less l (scanRight less l i j a) j a < k → k < B →
        less (nthI l k) (nthI l a) = false := by
      intro k h1 h2
      by_cases hk : k ≤ j
      · exact t3 k h1 hk
      · exact hzR k (by omega) h2
    by_cases hcase : scanRight less l i j a > scanLeft less l (scanRight less l i j a) j a
    · have hstep : partitionLoopF less (fuel' + 1) l a i j =
          (lswapI l (scanLeft less l (scanRight less l i j a) j a) a,
            scanLeft less l (scanRight less l i j a) j a) := by
        rw [partitionLoopF]
        rw [if_pos hcase]
      rw [hstep]
      set i1 := scanRight less l i j a with hi1def
      set j1 := scanLeft less l i1 j a with hj1def
      have hj1a : a ≤ j1 := by omega
      have hstop : j1 = i1 - 1 := by omega
      by_cases hja : j1 = a
      · have hswap : lswapI l j1 a = l := by
          rw [lswapI_eq l _ _ (by omega) ha, hja, lswap_self]
        rw [hswap]
        refine ⟨by omega, by omega, fun k h1 h2 => by omega, ?_, fun k hk => rfl, rfl⟩
        intro k h1 h2
        rw [hja]
        exact hzR2 k (by omega) h2
      · have hj1len : j1.toNat < l.length := by omega
        have halen : a.toNat < l.length := by omega
        have hswap : lswapI l j1 a = lswap l j1.toNat a.toNat :=
          lswapI_eq l _ _ (by omega) ha
        have hfst : nthI (lswap l j1.toNat a.toNat) j1 = nthI l a := by
          rw [nthI_eq _ _ (by omega), nthI_eq _ _ ha]
          exact lswap_nth_fst l _ _ hj1len halen
        have hsnd : nthI (lswap l j1.toNat a.toNat) a = nthI l j1 := by
          rw [nthI_eq _ _ ha, nthI_eq _ _ (by omega)]
          exact lswap_nth_snd l _ _ hj1len halen
        have hoth : ∀ k : Int, k ≠ j1 → k ≠ a → 0 ≤ k →
            nthI (lswap l j1.toNat a.toNat) k = nthI l k := by
          intro k hk1 hk2 hk0
          rw [nthI_eq _ _ hk0, nthI_eq _ _ hk0]
          exact lswap_nth_other l _ _ _ (by omega) (by omega)
        rw [hswap]
        refine ⟨by omega, by omega, ?_, ?_, ?_, lswap_length l _ _⟩
        · intro k h1 h2
          rw [hfst]
          by_cases hk : k = a
          · rw [hk, hsnd]
            exact hzL2 j1 (by omega) (by omega)
          · rw [hoth k (by omega) hk (by omega)]
            exact hzL2 k (by omega) (by omega)
        · intro k h1 h2
          rw [hfst, hoth k (by omega) (by omega) (by omega)]
          exact hzR2 k (by omega) h2
        · intro k hk
          exact lswap_nth_other l _ _ _ (by omega) (by omega)
    · have hstep : partitionLoopF less (fuel' + 1) l a i j =
          partitionLoopF less fuel'
            (lswapI l (scanRight less l i j a) (scanLeft less l (scanRight less l i j a) j a))
            a (scanRight less l i j a + 1)
            (scanLeft less l (scanRight less l i j a) j a - 1) := by
        rw [partitionLoopF]
        rw [if_neg hcase]
      rw [hstep]
      set i1 := scanRight less l i j a with hi1def
      set j1 := scanLeft less l i1 j a with hj1def
      have hij1 : i1 ≤ j1 := by omega
      have hne : i1 ≠ j1 := by
        intro he
        have hf1 := s4 (by omega)
        have ht1 := t4 (by omega)
        rw [he] at hf1
        exact absurd (hf1.symm.trans ht1) (by simp)
      have hlt : i1 < j1 := by omega
      have hi1len : i1.toNat < l.length := by omega
      have hj1len : j1.toNat < l.length := by omega
      have hswap : lswapI l i1 j1 = lswap l i1.toNat j1.toNat :=
        lswapI_eq l _ _ (by omega) (by omega)
      have hfst : nthI (lswap l i1.toNat j1.toNat) i1 = nthI l j1 := by
        rw [nthI_eq _ _ (by omega), nthI_eq _ _ (by omega)]
        exact lswap_nth_fst l _ _ hi1len hj1len
      have hsnd : nthI (lswap l i1.toNat j1.toNat) j1 = nthI l i1 := by
        rw [nthI_eq _ _ (by omega), nthI_eq _ _ (by omega)]
        exact lswap_nth_snd l _ _ hi1len hj1len
      have hoth : ∀ k : Int, k ≠ i1 → k ≠ j1 → 0 ≤ k →
          nthI (lswap l i1.toNat j1.toNat) k = nthI l k := by
        intro k hk1 hk2 hk0
        rw [nthI_eq _ _ hk0, nthI_eq _ _ hk0]
        exact lswap_nth_other l _ _ _ (by omega) (by omega)
      have hpiv : nthI (lswap l i1.toNat j1.toNat) a = nthI l a :=
        hoth a (by omega) (by omega) ha
      have hzL3 : ∀ k, a + 1 ≤ k → k < i1 + 1 →
          less (nthI (lswap l i1.toNat j1.toNat) k)
            (nthI (lswap l i1.toNat j1.toNat) a) = true := by
        intro k h1 h2
        rw [hpiv]
        by_cases hk : k = i1
        · rw [hk, hfst]
          exact t4 hij1
        · rw [hoth k hk (by omega) (by omega)]
          exact hzL2 k h1 (by omega)
      have hzR3 : ∀ k, j1 - 1 < k → k < B →
          less (nthI (lswap l i1.toNat j1.toNat) k)
            (nthI (lswap l i1.toNat j1.toNat) a) = false := by
        intro k h1 h2
        rw [hpiv]
        by_cases hk : k = j1
        · rw [hk, hsnd]
          exact s4 (by omega)
        · rw [hoth k (by omega) hk (by omega)]
          exact hzR2 k (by omega) h2
      rw [hswap]
      obtain ⟨r1, r2, r3, r4, r5, r6⟩ := ih (lswap l i1.toNat j1.toNat) a (i1 + 1) (j1 - 1)
        (by omega) ha (by omega) (by omega) (by omega)
        (by rw [lswap_length]; omega) hzL3 hzR3
      refine ⟨r1, r2, r3, r4, ?_, by rw [r6, lswap_length]⟩
      refine OutEq.comp (fun k hk => ?_) r5
      exact lswap_nth_other l _ _ _ (by omega) (by omega)

/-- Go sort's partition: the returned index lies in [a, b), elements to
its left are below the parked pivot value, elements to its right are not,
and nothing outside [a, b) moves. -/
theorem partition_spec {α : Type} [Inhabited α] {less : α → α → Bool}
    (sw : StrictWeak less) (l : List α) (a b pivot : Nat) (hab : a < b)
    (hb : b ≤ l.length) (hp1 : a ≤ pivot) (hp2 : pivot < b) :
    a ≤ (partition less l a b pivot).2.1 ∧
    (partition less l a b pivot).2.1 < b ∧
    (∀ k, a ≤ k → k < (partition less l a b pivot).2.1 →
      less (nth (partition less l a b pivot).1 k)
        (nth (partition less l a b pivot).1 (partition less l a b pivot).2.1) = true) ∧
    (∀ k, (partition less l a b pivot).2.1 < k → k < b →
      less (nth (partition less l a b pivot).1 k)
        (nth (partition less l a b pivot).1 (partition less l a b pivot).2.1) = false) ∧
    OutEq l (partition less l a b pivot).1 a b ∧
    (partition less l a b pivot).1.length = l.length := by
  have hl0len : (lswap l a pivot).length = l.length := lswap_length l a pivot
  have hOl0 : OutEq l (lswap l a pivot) a b :=
    fun k hk => lswap_nth_other l _ _ _ (by omega) (by omega)
  obtain ⟨s1, s2, s3, s4⟩ := scanRight_spec less (lswap l a pivot) (a : Int)
    ((a : Int) + 1) ((b : Int) - 1) (by omega)
  obtain ⟨t1, t2, t3, t4⟩ := scanLeft_spec less (lswap l a pivot) (a : Int)
    (scanRight less (lswap l a pivot) ((a : Int) + 1) ((b : Int) - 1) (a : Int))
    ((b : Int) - 1) (by omega)
  set i1 := scanRight less (lswap l a pivot) ((a : Int) + 1) ((b : Int) - 1) (a : Int)
    with hi1def
  set j1 := scanLeft less (lswap l a pivot) i1 ((b : Int) - 1) (a : Int) with hj1def
  by_cases hcase : i1 > j1
  · have hstep : partition less l a b pivot =
        (lswapI (lswap l a pivot) j1 (a : Int), j1.toNat, true) := by
      rw [partition]
      rw [if_pos hcase]
    rw [hstep]
    dsimp only
    have hstop : j1 = i1 - 1 := by omega
    have hj1a : (a : Int) ≤ j1 := by omega
    by_cases hja : j1 = (a : Int)
    · have hswap : lswapI (lswap l a pivot) j1 (a : Int) = lswap l a pivot := by
        rw [lswapI_eq _ _ _ (by omega) (by omega), hja, lswap_self]
      rw [hswap]
      refine ⟨by omega, by omega, fun k h1 h2 => by omega, ?_, hOl0, hl0len⟩
      intro k h1 h2
      have hz := t3 (k : Int) (by omega) (by omega)
      rw [nthI_eq _ _ (by omega), nthI_eq _ _ (by omega)] at hz
      have hk1 : ((k : Int)).toNat = k := by omega
      have hk2 : ((a : Int)).toNat = a := by omega
      rw [hk1, hk2] at hz
      have hj1n : j1.toNat = a := by omega
      rw [hj1n]
      exact hz
    · have hj1len : j1.toNat < (lswap l a pivot).length := by omega
      have halen : a < (lswap l a pivot).length := by omega
      have hswap : lswapI (lswap l a pivot) j1 (a : Int) =
          lswap (lswap l a pivot) j1.toNat a := by
        rw [lswapI_eq _ _ _ (by omega) (by omega)]
        rw [show ((a : Int)).toNat = a by omega]
      rw [hswap]
      have hfst : nth (lswap (lswap l a pivot) j1.toNat a) j1.toNat =
          nth (lswap l a pivot) a :=
        lswap_nth_fst _ _ _ hj1len halen
      have hsnd : nth (lswap (lswap l a pivot) j1.toNat a) a =
          nth (lswap l a pivot) j1.toNat :=
        lswap_nth_snd _ _ _ hj1len halen
      have hzL2 : ∀ k : Int, (a : Int) + 1 ≤ k → k < i1 →
          less (nth (lswap l a pivot) k.toNat) (nth (lswap l a pivot) a) = true := by
        intro k h1 h2
        have hz := s3 k (by omega) h2
        rw [nthI_eq _ _ (by omega), nthI_eq _ _ (by omega)] at hz
        have hk2 : ((a : Int)).toNat = a := by omega
        rw [hk2] at hz
        exact hz
      have hzR2 : ∀ k : Int, j1 < k → k < (b : Int) →
          less (nth (lswap l a pivot) k.toNat) (nth (lswap l a pivot) a) = false := by
        intro k h1 h2
        have hz := t3 k h1 (by omega)
        rw [nthI_eq _ _ (by omega), nthI_eq _ _ (by omega)] at hz
        have hk2 : ((a : Int)).toNat = a := by omega
        rw [hk2] at hz
        exact hz
      refine ⟨by omega, by omega, ?_, ?_, ?_, by rw [lswap_length, hl0len]⟩
      · intro k h1 h2
        rw [hfst]
        by_cases hk : k = a
        · rw [hk, hsnd]
          exact hzL2 j1 (by omega) (by omega)
        · rw [lswap_nth_other _ _ _ _ (by omega) (by omega)]
          have h5 := hzL2 (k : Int)
          have h6 := h5 (by omega) (by omega)
          rw [show ((k : Int)).toNat = k by omega] at h6
          exact h6
      · intro k h1 h2
        rw [hfst]
        rw [lswap_nth_other _ _ _ _ (by omega) (by omega)]
        have h5 := hzR2 (k : Int)
        have h6 := h5 (by omega) (by omega)
        rw [show ((k : Int)).toNat = k by omega] at h6
        exact h6
      · refine OutEq.comp hOl0 (fun k hk => ?_)
        exact lswap_nth_other _ _ _ _ (by omega) (by omega)
  · have hstep : partition less l a b pivot =
        ((partitionLoopF less ((j1 + 1 - i1).toNat + 1) (lswapI (lswap l a pivot) i1 j1)
          (a : Int) (i1 + 1) (j1 - 1)).1,
         (partitionLoopF less ((j1 + 1 - i1).toNat + 1) (lswapI (lswap l a pivot) i1 j1)
          (a : Int) (i1 + 1) (j1 - 1)).2.toNat, false) := by
      rw [partition]
      rw [if_neg hcase]
    rw [hstep]
    dsimp only
    have hij1 : i1 ≤ j1 := by omega
    have hne : i1 ≠ j1 := by
      intro he
      have hf1 := s4 (by omega)
      have ht1 := t4 (by omega)
      rw [he] at hf1
      exact absurd (hf1.symm.trans ht1) (by simp)
    have hlt : i1 < j1 := by omega
    have hi1len : i1.toNat < (lswap l a pivot).length := by omega
    have hj1len : j1.toNat < (lswap l a pivot).length := by omega
    have hswap : lswapI (lswap l a pivot) i1 j1 =
        lswap (lswap l a pivot) i1.toNat j1.toNat :=
      lswapI_eq _ _ _ (by omega) (by omega)
    rw [hswap]
    have hfst : nthI (lswap (lswap l a pivot) i1.toNat j1.toNat) i1 =
        nthI (lswap l a pivot) j1 := by
      rw [nthI_eq _ _ (by omega), nthI_eq _ _ (by omega)]
      exact lswap_nth_fst _ _ _ hi1len hj1len
    have hsnd : nthI (lswap (lswap l a pivot) i1.toNat j1.toNat) j1 =
        nthI (lswap l a pivot) i1 := by
      rw [nthI_eq _ _ (by omega), nthI_eq _ _ (by omega)]
      exact lswap_nth_snd _ _ _ hi1len hj1len
    have hoth : ∀ k : Int, k ≠ i1 → k ≠ j1 → 0 ≤ k →
        nthI (lswap (lswap l a pivot) i1.toNat j1.toNat) k = nthI (lswap l a pivot) k := by
      intro k hk1 hk2 hk0
      rw [nthI_eq _ _ hk0, nthI_eq _ _ hk0]
      exact lswap_nth_other _ _ _ _ (by omega) (by omega)
    have hpiv : nthI (lswap (lswap l a pivot) i1.toNat j1.toNat) (a : Int) =
        nthI (lswap l a pivot) (a : Int) :=
      hoth (a : Int) (by omega) (by omega) (by omega)
    have hzL3 : ∀ k, (a : Int) + 1 ≤ k → k < i1 + 1 →
        less (nthI (lswap (lswap l a pivot) i1.toNat j1.toNat) k)
          (nthI (lswap (lswap l a pivot) i1.toNat j1.toNat) (a : Int)) = true := by
      intro k h1 h2
      rw [hpiv]
      by_cases hk : k = i1
      · rw [hk, hfst]
        exact t4 hij1
      · rw [hoth k hk (by omega) (by omega)]
        exact s3 k h1 (by omega)
    have hzR3 : ∀ k, j1 - 1 < k → k < (b : Int) →
        less (nthI (lswap (lswap l a pivot) i1.toNat j1.toNat) k)
          (nthI (lswap (lswap l a pivot) i1.toNat j1.toNat) (a : Int)) = false := by
      intro k h1 h2
      rw [hpiv]
      by_cases hk : k = j1
      · rw [hk, hsnd]
        exact s4 (by omega)
      · rw [hoth k (by omega) hk (by omega)]
        exact t3 k (by omega) (by omega)
    obtain ⟨r1, r2, r3, r4, r5, r6⟩ := partitionLoopF_spec sw (b : Int)
      ((j1 + 1 - i1).toNat + 1) (lswap (lswap l a pivot) i1.toNat j1.toNat)
      (a : Int) (i1 + 1) (j1 - 1) (by omega) (by omega) (by omega) (by omega) (by omega)
      (by rw [lswap_length, hl0len]; omega) hzL3 hzR3
    refine ⟨by omega, by omega, ?_, ?_, ?_, by rw [r6, lswap_length, hl0len]⟩
    · intro k h1 h2
      have h5 := r3 (k : Int)
      have h6 := h5 (by omega) (by omega)
      rw [nthI_eq _ _ (by omega), nthI_eq _ _ (by omega)] at h6
      rw [show ((k : Int)).toNat = k by omega] at h6
      exact h6
    · intro k h1 h2
      have h5 := r4 (k : Int)
      have h6 := h5 (by omega) (by omega)
      rw [nthI_eq _ _ (by omega), nthI_eq _ _ (by omega)] at h6
      rw [show ((k : Int)).toNat = k by omega] at h6
      exact h6
    · have omid : OutEq (lswap l a pivot) (lswap (lswap l a pivot) i1.toNat j1.toNat) a b :=
        fun k hk => lswap_nth_other _ _ _ _ (by omega) (by omega)
      have oend : OutEq (lswap (lswap l a pivot) i1.toNat j1.toNat)
          (partitionLoopF less ((j1 + 1 - i1).toNat + 1)
            (lswap (lswap l a pivot) i1.toNat j1.toNat) (a : Int) (i1 + 1) (j1 - 1)).1 a b :=
        fun k hk => r5 k (by omega)
      exact OutEq.comp hOl0 (OutEq.comp omid oend)

/-- The partitionEqual loop: gathers the elements not above the pivot
value (parked at a) at the front of the window and returns the first
index past them. -/
theorem partitionEqualLoopF_spec {α : Type} [Inhabited α] {less : α → α → Bool}
    (sw : StrictWeak less) (B : Int) :
    ∀ fuel l (a i j : Int), (j + 1 - i).toNat < fuel →
      0 ≤ a → a + 1 ≤ i → i ≤ j + 1 → j ≤ B - 1 → B ≤ (l.length : Int) →
      (∀ k, a + 1 ≤ k → k < i → less (nthI l a) (nthI l k) = false) →
      (∀ k, j < k → k < B → less (nthI l a) (nthI l k) = true) →
      a + 1 ≤ (partitionEqualLoopF less fuel l a i j).2 ∧
      (partitionEqualLoopF less fuel l a i j).2 ≤ B ∧
      nthI (partitionEqualLoopF less fuel l a i j).1 a = nthI l a ∧
      (∀ k, a + 1 ≤ k → k < (partitionEqualLoopF less fuel l a i j).2 →
        less (nthI (partitionEqualLoopF less fuel l a i j).1 a)
          (nthI (partitionEqualLoopF less fuel l a i j).1 k) = false) ∧
      (∀ k, (partitionEqualLoopF less fuel l a i j).2 ≤ k → k < B →
        less (nthI (partitionEqualLoopF less fuel l a i j).1 a)
          (nthI (partitionEqualLoopF less fuel l a i j).1 k) = true) ∧
      OutEq l (partitionEqualLoopF less fuel l a i j).1 a.toNat B.toNat ∧
      (partitionEqualLoopF less fuel l a i j).1.length = l.length := by
  intro fuel
  induction fuel with
  | zero =>
    intro l a i j hf
    exact absurd hf (by omega)
  | succ fuel' ih =>
    intro l a i j hf ha hai hij hjB hlen hzL hzR
    obtain ⟨s1, s2, s3, s4⟩ := scanEqRight_spec less l a i j hij
    obtain ⟨t1, t2, t3, t4⟩ := scanEqLeft_spec less l a (scanEqRight less l i j a) j (by omega)
    have hzL2 : ∀ k, a + 1 ≤ k → k < scanEqRight less l i j a →
        less (nthI l a) (nthI l k) = false := by
      intro k h1 h2
      by_cases hk : k < i
      · exact hzL k h1 hk
      · exact s3 k (by omega) h2
    have hzR2 : ∀ k, scanEqLeft less l (scanEqRight less l i j a) j a < k → k < B →
        less (nthI l a) (nthI l k) = true := by
      intro k h1 h2
      by_cases hk : k ≤ j
      · exact t3 k h1 hk
      · exact hzR k (by omega) h2
    by_cases hcase : scanEqRight less l i j a > scanEqLeft less l (scanEqRight less l i j a) j a
    · have hstep : partitionEqualLoopF less (fuel' + 1) l a i j =
          (l, scanEqRight less l i j a) := by
        rw [partitionEqualLoopF]
        rw [if_pos hcase]
      rw [hstep]
      set i1 := scanEqRight less l i j a with hi1def
      set j1 := scanEqLeft less l i1 j a with hj1def
      refine ⟨by omega, by omega, rfl, ?_, ?_, fun k hk => rfl, rfl⟩
      · intro k h1 h2
        exact hzL2 k h1 h2
      · intro k h1 h2
        exact hzR2 k (by omega) h2
    · have hstep : partitionEqualLoopF less (fuel' + 1) l a i j =
          partitionEqualLoopF less fuel'
            (lswapI l (scanEqRight less l i j a)
              (scanEqLeft less l (scanEqRight less l i j a) j a))
            a (scanEqRight less l i j a + 1)
            (scanEqLeft less l (scanEqRight less l i j a) j a - 1) := by
        rw [partitionEqualLoopF]
        rw [if_neg hcase]
      rw [hstep]
      set i1 := scanEqRight less l i j a with hi1def
      set j1 := scanEqLeft less l i1 j a with hj1def
      have hij1 : i1 ≤ j1 := by omega
      have hne : i1 ≠ j1 := by
        intro he
        have hf1 := s4 (by omega)
        have ht1 := t4 (by omega)
        rw [he] at hf1
        exact absurd (hf1.symm.trans ht1) (by simp)
      have hlt : i1 < j1 := by omega
      have hi1len : i1.toNat < l.length := by omega
      have hj1len : j1.toNat < l.length := by omega
      have hswap : lswapI l i1 j1 = lswap l i1.toNat j1.toNat :=
        lswapI_eq l _ _ (by omega) (by omega)
      have hfst : nthI (lswap l i1.toNat j1.toNat) i1 = nthI l j1 := by
        rw [nthI_eq _ _ (by omega), nthI_eq _ _ (by omega)]
        exact lswap_nth_fst l _ _ hi1len hj1len
      have hsnd : nthI (lswap l i1.toNat j1.toNat) j1 = nthI l i1 := by
        rw [nthI_eq _ _ (by omega), nthI_eq _ _ (by omega)]
        exact lswap_nth_snd l _ _ hi1len hj1len
      have hoth : ∀ k : Int, k ≠ i1 → k ≠ j1 → 0 ≤ k →
          nthI (lswap l i1.toNat j1.toNat) k = nthI l k := by
        intro k hk1 hk2 hk0
        rw [nthI_eq _ _ hk0, nthI_eq _ _ hk0]
        exact lswap_nth_other l _ _ _ (by omega) (by omega)
      have hpiv : nthI (lswap l i1.toNat j1.toNat) a = nthI l a :=
        hoth a (by omega) (by omega) ha
      have hzL3 : ∀ k, a + 1 ≤ k → k < i1 + 1 →
          less (nthI (lswap l i1.toNat j1.toNat) a)
            (nthI (lswap l i1.toNat j1.toNat) k) = false := by
        intro k h1 h2
        rw [hpiv]
        by_cases hk : k = i1
        · rw [hk, hfst]
          exact t4 hij1
        · rw [hoth k hk (by omega) (by omega)]
          exact hzL2 k h1 (by omega)
      have hzR3 : ∀ k, j1 - 1 < k → k < B →
          less (nthI (lswap l i1.toNat j1.toNat) a)
            (nthI (lswap l i1.toNat j1.toNat) k) = true := by
        intro k h1 h2
        rw [hpiv]
        by_cases hk : k = j1
        · rw [hk, hsnd]
          exact s4 (by omega)
        · rw [hoth k (by omega) hk (by omega)]
          exact hzR2 k (by omega) h2
      rw [hswap]
      obtain ⟨r1, r2, r3, r4, r5, r6, r7⟩ := ih (lswap l i1.toNat j1.toNat) a (i1 + 1) (j1 - 1)
        (by omega) ha (by omega) (by omega) (by omega)
        (by rw [lswap_length]; omega) hzL3 hzR3
      refine ⟨r1, r2, by rw [r3, hpiv], r4, r5, ?_, by rw [r7, lswap_length]⟩
      refine OutEq.comp (fun k hk => ?_) r6
      exact lswap_nth_other l _ _ _ (by omega) (by omega)

/-- Go sort's partitionEqual: returns the first index past the block of
elements equal in order to the pivot value now parked at position a. -/
theorem partitionEqual_spec {α : Type} [Inhabited α] {less : α → α → Bool}
    (sw : StrictWeak less) (l : List α) (a b pivot : Nat) (hab : a < b)
    (hb : b ≤ l.length) (hp1 : a ≤ pivot) (hp2 : pivot < b) :
    a + 1 ≤ (partitionEqual less l a b pivot).2 ∧
    (partitionEqual less l a b pivot).2 ≤ b ∧
    nth (partitionEqual less l a b pivot).1 a = nth l pivot ∧
    (∀ k, a ≤ k → k < (partitionEqual less l a b pivot).2 →
      less (nth (partitionEqual less l a b pivot).1 a)
        (nth (partitionEqual less l a b pivot).1 k) = false) ∧
    (∀ k, (partitionEqual less l a b pivot).2 ≤ k → k < b →
      less (nth (partitionEqual less l a b pivot).1 a)
        (nth (partitionEqual less l a b pivot).1 k) = true) ∧
    OutEq l (partitionEqual less l a b pivot).1 a b ∧
    (partitionEqual less l a b pivot).1.length = l.length := by
  have hl0len : (lswap l a pivot).length = l.length := lswap_length l a pivot
  have hOl0 : OutEq l (lswap l a pivot) a b :=
    fun k hk => lswap_nth_other l _ _ _ (by omega) (by omega)
  have hstep : partitionEqual less l a b pivot =
      ((partitionEqualLoopF less (((b : Int) - 1 + 1 - ((a : Int) + 1)).toNat + 1)
          (lswap l a pivot) (a : Int) ((a : Int) + 1) ((b : Int) - 1)).1,
        (partitionEqualLoopF less (((b : Int) - 1 + 1 - ((a : Int) + 1)).toNat + 1)
          (lswap l a pivot) (a : Int) ((a : Int) + 1) ((b : Int) - 1)).2.toNat) := by
    rw [partitionEqual]
  rw [hstep]
  dsimp only
  have hpv : nthI (lswap l a pivot) (a : Int) = nth l pivot := by
    rw [nthI_eq _ _ (by omega)]
    rw [show ((a : Int)).toNat = a by omega]
    exact lswap_nth_fst l a pivot (by omega) (by omega)
  obtain ⟨r1, r2, r3, r4, r5, r6, r7⟩ := partitionEqualLoopF_spec sw (b : Int)
    (((b : Int) - 1 + 1 - ((a : Int) + 1)).toNat + 1) (lswap l a pivot)
    (a : Int) ((a : Int) + 1) ((b : Int) - 1)
    (by omega) (by omega) (by omega) (by omega) (by omega) (by omega)
    (fun k h1 h2 => by omega) (fun k h1 h2 => by omega)
  have hpveq : nth (partitionEqualLoopF less (((b : Int) - 1 + 1 - ((a : Int) + 1)).toNat + 1)
      (lswap l a pivot) (a : Int) ((a : Int) + 1) ((b : Int) - 1)).1 a = nth l pivot := by
    have := r3
    rw [hpv] at this
    rw [nthI_eq _ _ (by omega)] at this
    rw [show ((a : Int)).toNat = a by omega] at this
    exact this
  refine ⟨by omega, by omega, hpveq, ?_, ?_, ?_, by rw [r7, hl0len]⟩
  · intro k h1 h2
    by_cases hk : k = a
    · rw [hk]
      exact sw.irr _
    · have h5 := r4 (k : Int)
      have h6 := h5 (by omega) (by omega)
      rw [nthI_eq _ _ (by omega), nthI_eq _ _ (by omega)] at h6
      rw [show ((k : Int)).toNat = k by omega,
        show ((a : Int)).toNat = a by omega] at h6
      exact h6
  · intro k h1 h2
    have h5 := r5 (k : Int)
    have h6 := h5 (by omega) (by omega)
    rw [nthI_eq _ _ (by omega), nthI_eq _ _ (by omega)] at h6
    rw [show ((k : Int)).toNat = k by omega,
      show ((a : Int)).toNat = a by omega] at h6
    exact h6
  · refine OutEq.comp hOl0 (fun k hk => ?_)
    exact r6 k (by omega)

/-- The left shift of partialInsertionSort inserts the moving element at m
into the adjacently sorted run [a, m); under the pdqsort context it never
crosses below a. -/
theorem shiftLeftLoop_spec {α : Type} [Inhabited α] {less : α → α → Bool}
    (sw : StrictWeak less) (a : Nat) :
    ∀ m l, a ≤ m → m < l.length → AdjSorted less l a m →
      (0 < a → less (nth l m) (nth l (a - 1)) = false) →
      AdjSorted less (shiftLeftLoop less l m) a (m + 1) ∧
      OutEq l (shiftLeftLoop less l m) a (m + 1) ∧
      (nth (shiftLeftLoop less l m) m = nth l m ∨
        (a < m ∧ nth (shiftLeftLoop less l m) m = nth l (m - 1))) := by
  intro m
  induction m with
  | zero =>
    intro l hm hlen hadj hctx
    rw [shiftLeftLoop]
    refine ⟨?_, fun k hk => rfl, Or.inl rfl⟩
    intro k h1 h2
    omega
  | succ j ih =>
    intro l hm hlen hadj hctx
    by_cases hg : less (nth l (j + 1)) (nth l j) = true
    · have haj : a ≤ j := by
        by_cases hja : a = j + 1
        · exfalso
          have h0 := hctx (by omega)
          rw [show a - 1 = j by omega] at h0
          exact absurd hg (by simp [h0])
        · omega
      have hstep : shiftLeftLoop less l (j + 1) =
          shiftLeftLoop less (lswap l (j + 1) j) j := by
        rw [shiftLeftLoop]
        rw [if_neg (by simp [hg])]
      rw [hstep]
      have hjlen : j < l.length := by omega
      have hadj1 : AdjSorted less (lswap l (j + 1) j) a j := by
        intro k h1 h2
        rw [lswap_nth_other l _ _ _ (by omega) (by omega),
          lswap_nth_other l _ _ _ (by omega) (by omega)]
        exact hadj k h1 (by omega)
      have hctx1 : 0 < a → less (nth (lswap l (j + 1) j) j)
          (nth (lswap l (j + 1) j) (a - 1)) = false := by
        intro ha
        rw [lswap_nth_snd l _ _ (by omega) hjlen,
          lswap_nth_other l _ _ _ (by omega) (by omega)]
        exact hctx ha
      obtain ⟨radj, rout, rtop⟩ := ih (lswap l (j + 1) j) haj
        (by rw [lswap_length]; omega) hadj1 hctx1
      refine ⟨?_, ?_, ?_⟩
      · intro k h1 h2
        by_cases hk : k + 1 < j + 1
        · exact radj k h1 hk
        · have hkj : k = j := by omega
          rw [hkj]
          have htop : nth (shiftLeftLoop less (lswap l (j + 1) j) j) (j + 1) =
              nth l j := by
            rw [rout (j + 1) (Or.inr (by omega)),
              lswap_nth_fst l _ _ (by omega) hjlen]
          rw [htop]
          rcases rtop with h4 | ⟨h4a, h4⟩
          · rw [h4, lswap_nth_snd l _ _ (by omega) hjlen]
            exact sw.2.1 _ _ hg
          · rw [h4, lswap_nth_other l _ _ _ (by omega) (by omega)]
            have h5 := hadj (j - 1) (by omega) (by omega)
            rw [show j - 1 + 1 = j by omega] at h5
            exact h5
      · refine OutEq.comp (fun k hk => ?_) (rout.widen (le_refl a) (by omega))
        exact lswap_nth_other l _ _ _ (by omega) (by omega)
      · right
        refine ⟨by omega, ?_⟩
        rw [rout (j + 1) (Or.inr (by omega)),
          lswap_nth_fst l _ _ (by omega) hjlen]
        simp
    · have hstep : shiftLeftLoop less l (j + 1) = l := by
        rw [shiftLeftLoop]
        rw [if_pos (by simp [hg])]
      rw [hstep]
      refine ⟨?_, fun k hk => rfl, Or.inl rfl⟩
      intro k h1 h2
      by_cases hk : k + 1 < j + 1
      · exact hadj k h1 hk
      · have hkj : k = j := by omega
        rw [hkj]
        cases h : less (nth l (j + 1)) (nth l j) with
        | false => rfl
        | true => exact absurd h hg

/-- The right shift of partialInsertionSort only touches positions from
j - 1 on. -/
theorem shiftRightLoopF_out {α : Type} [Inhabited α] (less : α → α → Bool)
    (b : Nat) : ∀ fuel l (j : Nat), 1 ≤ j →
      OutEq l (shiftRightLoopF less fuel l j b) (j - 1) b := by
  intro fuel
  induction fuel with
  | zero => intro l j hj k hk; rfl
  | succ fuel' ih =>
    intro l j hj
    rw [shiftRightLoopF]
    by_cases hjb : j < b
    · rw [if_pos hjb]
      by_cases hl : ¬ less (nth l j) (nth l (j - 1)) = true
      · rw [if_pos hl]
        intro k hk
        rfl
      · rw [if_neg hl]
        refine OutEq.comp (fun k hk => ?_) ((ih _ (j + 1) (by omega)).widen (by omega) (le_refl b))
        exact lswap_nth_other l _ _ _ (by omega) (by omega)
    · rw [if_neg hjb]
      intro k hk
      rfl

/-- The advancing scan of partialInsertionSort: certifies the adjacent
pairs it walks over. -/
theorem advanceSortedF_spec {α : Type} [Inhabited α] (less : α → α → Bool)
    (l : List α) (b : Nat) :
    ∀ fuel i, b ≤ i + fuel → i ≤ b →
      i ≤ advanceSortedF less l fuel i b ∧
      advanceSortedF less l fuel i b ≤ b ∧
      (∀ k, i ≤ k → k < advanceSortedF less l fuel i b →
        less (nth l k) (nth l (k - 1)) = false) := by
  intro fuel
  induction fuel with
  | zero =>
    intro i hf hib
    rw [advanceSortedF]
    exact ⟨le_refl i, hib, fun k h1 h2 => by omega⟩
  | succ fuel' ih =>
    intro i hf hib
    rw [advanceSortedF]
    by_cases hc : i < b ∧ ¬ less (nth l i) (nth l (i - 1)) = true
    · rw [if_pos hc]
      obtain ⟨r1, r2, r3⟩ := ih (i + 1) (by omega) (by omega)
      refine ⟨by omega, r2, ?_⟩
      intro k h1 h2
      by_cases hk : k = i
      · rw [hk]
        simpa using hc.2
      · exact r3 k (by omega) h2
    · rw [if_neg hc]
      exact ⟨le_refl i, hib, fun k h1 h2 => by omega⟩

/-- advanceSorted with its packaged fuel. -/
theorem advanceSorted_spec {α : Type} [Inhabited α] (less : α → α → Bool)
    (l : List α) (i b : Nat) (hib : i ≤ b) :
    i ≤ advanceSorted less l i b ∧
    advanceSorted less l i b ≤ b ∧
    (∀ k, i ≤ k → k < advanceSorted less l i b →
      less (nth l k) (nth l (k - 1)) = false) :=
  advanceSortedF_spec less l b (b - i) i (by omega) hib

/-- One body iteration of partialInsertionSort: the swap plus the two
shifts keep the prefix [a, i1) adjacently sorted, stay inside [a, b), and
preserve the pdqsort context. -/
theorem partInsertionSortStep {α : Type} [Inhabited α] {less : α → α → Bool}
    (sw : StrictWeak less) (a b : Nat) (l l2 l3 : List α) (I : Nat)
    (hblen : b ≤ l.length) (haI : a + 1 ≤ I) (hIb : I < b)
    (hadj : AdjSorted less l a I) (hctx : LeftCtx less l a b)
    (hl2 : l2 = if 2 ≤ I - a then shiftLeftLoop less (lswap l I (I - 1)) (I - 1)
      else lswap l I (I - 1))
    (hl3 : l3 = if 2 ≤ b - I then shiftRightLoop less l2 (I + 1) b else l2) :
    AdjSorted less l3 a I ∧ OutEq l l3 a b ∧ l3.Perm l ∧ LeftCtx less l3 a b := by
  have hIlen : I < l.length := by omega
  have hl1len : (lswap l I (I - 1)).length = l.length := lswap_length _ _ _
  have hadj1 : AdjSorted less (lswap l I (I - 1)) a (I - 1) := by
    intro k h1 h2
    rw [lswap_nth_other l _ _ _ (by omega) (by omega),
      lswap_nth_other l _ _ _ (by omega) (by omega)]
    exact hadj k h1 (by omega)
  have hl2pack : AdjSorted less l2 a I ∧ OutEq (lswap l I (I - 1)) l2 a I ∧
      l2.Perm (lswap l I (I - 1)) := by
    by_cases hsl : 2 ≤ I - a
    · rw [hl2, if_pos hsl]
      have hctx1 : 0 < a → less (nth (lswap l I (I - 1)) (I - 1))
          (nth (lswap l I (I - 1)) (a - 1)) = false := by
        intro ha
        rw [lswap_nth_snd l _ _ hIlen (by omega),
          lswap_nth_other l _ _ _ (by omega) (by omega)]
        exact hctx ha I (by omega) (by omega)
      obtain ⟨sadj, sout, _⟩ := shiftLeftLoop_spec sw a (I - 1) (lswap l I (I - 1))
        (by omega) (by rw [hl1len]; omega) hadj1 hctx1
      have hI1 : I - 1 + 1 = I := by omega
      rw [hI1] at sadj sout
      exact ⟨sadj, sout, shiftLeftLoop_perm less _ _⟩
    · rw [hl2, if_neg hsl]
      refine ⟨?_, fun k hk => rfl, List.Perm.refl _⟩
      intro k h1 h2
      omega
  have hl2len : l2.length = l.length := by
    rw [hl2pack.2.2.length_eq, hl1len]
  have hl3pack : OutEq l2 l3 I b ∧ l3.Perm l2 := by
    by_cases hsr : 2 ≤ b - I
    · rw [hl3, if_pos hsr]
      constructor
      · have h6 := shiftRightLoopF_out less b (b - (I + 1)) l2 (I + 1) (by omega)
        rw [show I + 1 - 1 = I by omega] at h6
        rw [shiftRightLoop]
        exact h6
      · exact shiftRightLoop_perm less l2 _ _
    · rw [hl3, if_neg hsr]
      exact ⟨fun k hk => rfl, List.Perm.refl _⟩
  have hperm : l3.Perm l :=
    hl3pack.2.trans (hl2pack.2.2.trans (lswap_perm l _ _))
  have hout : OutEq l l3 a b := by
    have o1 : OutEq l (lswap l I (I - 1)) a b :=
      fun k hk => lswap_nth_other l _ _ _ (by omega) (by omega)
    exact (o1.comp (hl2pack.2.1.widen (le_refl a) (by omega))).comp
      (hl3pack.1.widen (by omega) (le_refl b))
  refine ⟨?_, hout, hperm, hctx.transport hperm.symm hout hblen⟩
  intro k h1 h2
  rw [hl3pack.1 (k + 1) (Or.inl (by omega)), hl3pack.1 k (Or.inl (by omega))]
  exact hl2pack.1 k h1 h2

/-- The outer loop of partialInsertionSort: it only permutes [a, b), and a
true verdict certifies that the whole window is sorted. -/
theorem partInsertionSortLoop_spec {α : Type} [Inhabited α] {less : α → α → Bool}
    (sw : StrictWeak less) (a b : Nat) :
    ∀ steps l i, b ≤ l.length → a + 1 ≤ i → i ≤ b → AdjSorted less l a i →
      LeftCtx less l a b →
      ((partInsertionSortLoop less l a b i steps).2 = true →
        SortedRange less (partInsertionSortLoop less l a b i steps).1 a b) ∧
      OutEq l (partInsertionSortLoop less l a b i steps).1 a b := by
  intro steps
  induction steps with
  | zero =>
    intro l i hblen hai hib hadj hctx
    rw [partInsertionSortLoop]
    refine ⟨?_, fun k hk => rfl⟩
    intro h
    exact absurd h (by simp)
  | succ steps' ih =>
    intro l i hblen hai hib hadj hctx
    obtain ⟨v1, v2, v3⟩ := advanceSorted_spec less l i b hib
    have hadj2 : AdjSorted less l a (advanceSorted less l i b) := by
      intro k h1 h2
      by_cases hk : k + 1 < i
      · exact hadj k h1 hk
      · have h5 := v3 (k + 1) (by omega) (by omega)
        rw [show k + 1 - 1 = k by omega] at h5
        exact h5
    by_cases hc1 : advanceSorted less l i b = b
    · have hstep : partInsertionSortLoop less l a b i (steps' + 1) = (l, true) := by
        rw [partInsertionSortLoop]
        rw [if_pos hc1]
      rw [hstep]
      refine ⟨fun _ => ?_, fun k hk => rfl⟩
      rw [hc1] at hadj2
      exact adj_sortedRange sw l a b hadj2
    · by_cases hc2 : b - a < 50
      · have hstep : partInsertionSortLoop less l a b i (steps' + 1) = (l, false) := by
          rw [partInsertionSortLoop]
          rw [if_neg hc1]
          rw [if_pos hc2]
        rw [hstep]
        refine ⟨fun h => ?_, fun k hk => rfl⟩
        exact absurd h (by simp)
      · have hstep : partInsertionSortLoop less l a b i (steps' + 1) =
            partInsertionSortLoop less
              (if 2 ≤ b - advanceSorted less l i b then
                shiftRightLoop less
                  (if 2 ≤ advanceSorted less l i b - a then
                    shiftLeftLoop less
                      (lswap l (advanceSorted less l i b) (advanceSorted less l i b - 1))
                      (advanceSorted less l i b - 1)
                  else lswap l (advanceSorted less l i b) (advanceSorted less l i b - 1))
                  (advanceSorted less l i b + 1) b
              else
                if 2 ≤ advanceSorted less l i b - a then
                  shiftLeftLoop less
                    (lswap l (advanceSorted less l i b) (advanceSorted less l i b - 1))
                    (advanceSorted less l i b - 1)
                else lswap l (advanceSorted less l i b) (advanceSorted less l i b - 1))
              a b (advanceSorted less l i b) steps' := by
          rw [partInsertionSortLoop]
          rw [if_neg hc1]
          rw [if_neg hc2]
        obtain ⟨sadj, sout, sperm, sctx⟩ := partInsertionSortStep sw a b l
          (if 2 ≤ advanceSorted less l i b - a then
            shiftLeftLoop less
              (lswap l (advanceSorted less l i b) (advanceSorted less l i b - 1))
              (advanceSorted less l i b - 1)
          else lswap l (advanceSorted less l i b) (advanceSorted less l i b - 1))
          (if 2 ≤ b - advanceSorted less l i b then
            shiftRightLoop less
              (if 2 ≤ advanceSorted less l i b - a then
                shiftLeftLoop less
                  (lswap l (advanceSorted less l i b) (advanceSorted less l i b - 1))
                  (advanceSorted less l i b - 1)
              else lswap l (advanceSorted less l i b) (advanceSorted less l i b - 1))
              (advanceSorted less l i b + 1) b
          else
            if 2 ≤ advanceSorted less l i b - a then
              shiftLeftLoop less
                (lswap l (advanceSorted less l i b) (advanceSorted less l i b - 1))
                (advanceSorted less l i b - 1)
            else lswap l (advanceSorted less l i b) (advanceSorted less l i b - 1))
          (advanceSorted less l i b) hblen (by omega) (by omega) hadj2 hctx rfl rfl
        rw [hstep]
        obtain ⟨r1, r2⟩ := ih _ (advanceSorted less l i b)
          (by rw [sperm.length_eq]; exact hblen) (by omega) (by omega) sadj sctx
        exact ⟨r1, sout.comp r2⟩

/-- Go sort's partialInsertionSort: only permutes [a, b); a true verdict
certifies sortedness of the window. -/
theorem partInsertionSort_spec {α : Type} [Inhabited α] {less : α → α → Bool}
    (sw : StrictWeak less) (l : List α) (a b : Nat) (hab : a < b)
    (hb : b ≤ l.length) (hctx : LeftCtx less l a b) :
    ((partInsertionSort less l a b).2 = true →
      SortedRange less (partInsertionSort less l a b).1 a b) ∧
    OutEq l (partInsertionSort less l a b).1 a b := by
  rw [partInsertionSort]
  exact partInsertionSortLoop_spec sw a b 5 l (a + 1) hb (le_refl _) (by omega)
    (fun k h1 h2 => by omega) hctx

/-- The reverseRange loop only touches [i, j]. -/
theorem reverseRangeLoopF_out {α : Type} [Inhabited α] :
    ∀ fuel (l : List α) (i j : Nat), OutEq l (reverseRangeLoopF fuel l i j) i (j + 1) := by
  intro fuel
  induction fuel with
  | zero => intro l i j k hk; rfl
  | succ fuel' ih =>
    intro l i j
    rw [reverseRangeLoopF]
    by_cases hij : i < j
    · rw [if_pos hij]
      refine OutEq.comp (fun k hk => ?_) (((ih _ (i + 1) (j - 1)).widen (by omega) (by omega)))
      exact lswap_nth_other l _ _ _ (by omega) (by omega)
    · rw [if_neg hij]
      intro k hk
      rfl

/-- reverseRange only touches [a, b). -/
theorem reverseRange_out {α : Type} [Inhabited α] (l : List α) (a b : Nat)
    (hab : a < b) : OutEq l (reverseRange l a b) a b := by
  rw [reverseRange]
  have := reverseRangeLoopF_out (b - 1 - a) l a (b - 1)
  rw [show b - 1 + 1 = b by omega] at this
  exact this

/-- bitsLenF of zero is zero. -/
theorem bitsLenF_zero : ∀ fuel, bitsLenF fuel 0 = 0 := by
  intro fuel
  cases fuel with
  | zero => rfl
  | succ fuel' => rw [bitsLenF]; simp

/-- math/bits.Len brackets its argument between consecutive powers of
two. -/
theorem bitsLenF_bound : ∀ fuel n, n < fuel →
    n < 2 ^ bitsLenF fuel n ∧ (1 ≤ n → 2 ^ bitsLenF fuel n ≤ 2 * n) := by
  intro fuel
  induction fuel with
  | zero => intro n hf; omega
  | succ fuel' ih =>
    intro n hf
    by_cases hn : n = 0
    · subst hn
      rw [bitsLenF]
      simp
    · rw [bitsLenF, if_neg hn]
      obtain ⟨ih1, ih2⟩ := ih (n / 2) (by omega)
      have hpow : 2 ^ (bitsLenF fuel' (n / 2) + 1) = 2 * 2 ^ (bitsLenF fuel' (n / 2)) := by
        rw [pow_succ]
        ring
      by_cases hn1 : n = 1
      · subst hn1
        rw [show (1 : Nat) / 2 = 0 by omega, bitsLenF_zero]
        simp
      · have h2 : 1 ≤ n / 2 := by omega
        have := ih2 h2
        constructor
        · omega
        · intro h1
          omega

/-- nextPowerOfTwo is at most twice its argument. -/
theorem nextPowerOfTwo_le (n : Nat) (hn : 1 ≤ n) :
    1 ≤ nextPowerOfTwo n ∧ nextPowerOfTwo n ≤ 2 * n := by
  rw [nextPowerOfTwo, bitsLen, Nat.one_shiftLeft]
  obtain ⟨h1, h2⟩ := bitsLenF_bound (n + 1) n (by omega)
  exact ⟨Nat.one_le_two_pow, h2 hn⟩

/-- The breakPatterns loop only touches [a, a + length). -/
theorem breakPatternsLoopF_out {α : Type} [Inhabited α]
    (idx a length modulus : Nat)
    (hidx1 : a + 1 ≤ idx) (hidx2 : idx + 1 < a + length)
    (hmod1 : 1 ≤ modulus) (hmod2 : modulus ≤ 2 * length) :
    ∀ fuel (l : List α) (random i : Nat),
      OutEq l (breakPatternsLoopF fuel l idx a length modulus random i) a (a + length) := by
  intro fuel
  induction fuel with
  | zero => intro l random i k hk; rfl
  | succ fuel' ih =>
    intro l random i
    rw [breakPatternsLoopF]
    by_cases hi : i < 3
    · rw [if_pos hi]
      refine OutEq.comp (fun k hk => ?_) (ih _ _ _)
      have hother : Nat.land (xorshiftNext random) (modulus - 1) ≤ modulus - 1 :=
        Nat.and_le_right
      have ho1 : (if length ≤ Nat.land (xorshiftNext random) (modulus - 1) then
          Nat.land (xorshiftNext random) (modulus - 1) - length
        else Nat.land (xorshiftNext random) (modulus - 1)) < length := by
        split
        · omega
        · omega
      exact lswap_nth_other l _ _ _ (by omega) (by omega)
    · rw [if_neg hi]
      intro k hk
      rfl

/-- breakPatterns only touches [a, b). -/
theorem breakPatterns_out {α : Type} [Inhabited α] (l : List α) (a b : Nat) :
    OutEq l (breakPatterns l a b) a b := by
  rw [breakPatterns]
  by_cases h8 : 8 ≤ b - a
  · rw [if_pos h8]
    obtain ⟨hm1, hm2⟩ := nextPowerOfTwo_le (b - a) (by omega)
    have := breakPatternsLoopF_out (a + (b - a) / 4 * 2 - 1) a (b - a)
      (nextPowerOfTwo (b - a)) (by omega) (by omega) hm1 hm2 3 l (b - a) 0
    rw [show a + (b - a) = b by omega] at this
    exact this
  · rw [if_neg h8]
    intro k hk
    rfl

/-- order2 returns its two indices in one of the two orders. -/
theorem order2_cases {α : Type} [Inhabited α] (less : α → α → Bool)
    (l : List α) (x y s : Nat) :
    order2 less l x y s = (y, x, s + 1) ∨ order2 less l x y s = (x, y, s) := by
  rw [order2]
  split
  · exact Or.inl rfl
  · exact Or.inr rfl

/-- The median index is one of the three inputs. -/
theorem median_fst_mem {α : Type} [Inhabited α] (less : α → α → Bool)
    (l : List α) (x y z s : Nat) :
    (median less l x y z s).1 = x ∨ (median less l x y z s).1 = y ∨
      (median less l x y z s).1 = z := by
  rw [median]
  rcases order2_cases less l x y s with h1 | h1 <;> rw [h1] <;> dsimp only
  · rcases order2_cases less l x z (s + 1) with h2 | h2 <;> rw [h2] <;> dsimp only
    · rcases order2_cases less l y z (s + 1 + 1) with h3 | h3 <;> rw [h3] <;> dsimp only
      · tauto
      · tauto
    · rcases order2_cases less l y x (s + 1) with h3 | h3 <;> rw [h3] <;> dsimp only
      · tauto
      · tauto
  · rcases order2_cases less l y z s with h2 | h2 <;> rw [h2] <;> dsimp only
    · rcases order2_cases less l x z (s + 1) with h3 | h3 <;> rw [h3] <;> dsimp only
      · tauto
      · tauto
    · rcases order2_cases less l x y s with h3 | h3 <;> rw [h3] <;> dsimp only
      · tauto
      · tauto

/-- The medianAdjacent index differs from its centre by at most one. -/
theorem medianAdjacent_fst_mem {α : Type} [Inhabited α] (less : α → α → Bool)
    (l : List α) (x s : Nat) :
    (medianAdjacent less l x s).1 = x - 1 ∨ (medianAdjacent less l x s).1 = x ∨
      (medianAdjacent less l x s).1 = x + 1 := by
  rw [medianAdjacent]
  exact median_fst_mem less l (x - 1) x (x + 1) s

/-- For the ranges pdqsort passes it, choosePivot picks a pivot inside
[a, b). -/
theorem choosePivot_range {α : Type} [Inhabited α] (less : α → α → Bool)
    (l : List α) (a b : Nat) (hab : 13 ≤ b - a) :
    a ≤ (choosePivot less l a b).1 ∧ (choosePivot less l a b).1 < b := by
  rw [choosePivot]
  rw [if_pos (by omega : 8 ≤ b - a)]
  by_cases h50 : 50 ≤ b - a
  · rw [if_pos h50]
    dsimp only
    obtain hi := medianAdjacent_fst_mem less l (a + (b - a) / 4 * 1) 0
    obtain hj := medianAdjacent_fst_mem less l (a + (b - a) / 4 * 2)
      (medianAdjacent less l (a + (b - a) / 4 * 1) 0).2
    obtain hk := medianAdjacent_fst_mem less l (a + (b - a) / 4 * 3)
      (medianAdjacent less l (a + (b - a) / 4 * 2)
        (medianAdjacent less l (a + (b - a) / 4 * 1) 0).2).2
    obtain hm := median_fst_mem less l
      (medianAdjacent less l (a + (b - a) / 4 * 1) 0).1
      (medianAdjacent less l (a + (b - a) / 4 * 2)
        (medianAdjacent less l (a + (b - a) / 4 * 1) 0).2).1
      (medianAdjacent less l (a + (b - a) / 4 * 3)
        (medianAdjacent less l (a + (b - a) / 4 * 2)
          (medianAdjacent less l (a + (b - a) / 4 * 1) 0).2).2).1
      (medianAdjacent less l (a + (b - a) / 4 * 3)
        (medianAdjacent less l (a + (b - a) / 4 * 2)
          (medianAdjacent less l (a + (b - a) / 4 * 1) 0).2).2).2
    split <;> (try split) <;> dsimp only <;> omega
  · rw [if_neg h50]
    dsimp only
    obtain hm := median_fst_mem less l (a + (b - a) / 4 * 1) (a + (b - a) / 4 * 2)
      (a + (b - a) / 4 * 3) 0
    split <;> (try split) <;> dsimp only <;> omega

/-- Assembling sortedness of [a, b) from a parked pivot at mid with its
two zones and the two sorted halves. -/
theorem pdq_assemble {α : Type} [Inhabited α] {less : α → α → Bool}
    (sw : StrictWeak less) (lfin : List α) (a mid b : Nat)
    (hamid : a ≤ mid) (hmidb : mid < b)
    (hL : ∀ k, a ≤ k → k < mid → less (nth lfin k) (nth lfin mid) = true)
    (hR : ∀ k, mid < k → k < b → less (nth lfin k) (nth lfin mid) = false)
    (hSL : SortedRange less lfin a mid)
    (hSR : SortedRange less lfin (mid + 1) b) :
    SortedRange less lfin a b := by
  intro p q hap hpq hqb
  by_cases hqm : q < mid
  · exact hSL p q hap hpq hqm
  · by_cases hqm2 : q = mid
    · rw [hqm2]
      exact sw.2.1 _ _ (hL p hap (by omega))
    · by_cases hpm : p < mid
      · cases hcc : less (nth lfin q) (nth lfin p) with
        | false => rfl
        | true => exact absurd (sw.1 _ _ _ hcc (hL p hap hpm)) (by simp [hR q (by omega) hqb])
      · by_cases hpm2 : p = mid
        · rw [hpm2]
          exact hR q (by omega) hqb
        · exact hSR p q (by omega) hpq hqb

/-- The partitionEqual branch of pdqsort: after gathering the block of
elements equivalent to the pivot, the recursive call on the rest sorts
the whole window. -/
theorem pdqsort_pe_spec {α : Type} [Inhabited α] {less : α → α → Bool}
    (sw : StrictWeak less) (fuel' : Nat)
    (ih : ∀ (l : List α) (a b limit : Nat) (wB wP : Bool), b ≤ l.length →
      b - a ≤ fuel' → LeftCtx less l a b →
      SortedRange less (pdqsort less l a b limit wB wP fuel') a b ∧
      OutEq l (pdqsort less l a b limit wB wP fuel') a b)
    (l3 : List α) (a b lim1 pivot : Nat) (wb1 wp1 : Bool)
    (hb : b ≤ l3.length) (h13 : 13 ≤ b - a) (hf : b - a ≤ fuel' + 1)
    (hctx : LeftCtx less l3 a b) (hp1 : a ≤ pivot) (hp2 : pivot < b)
    (ha0 : 0 < a) (hpe : less (nth l3 (a - 1)) (nth l3 pivot) = false) :
    SortedRange less (pdqsort less (partitionEqual less l3 a b pivot).1
      (partitionEqual less l3 a b pivot).2 b lim1 wb1 wp1 fuel') a b ∧
    OutEq l3 (pdqsort less (partitionEqual less l3 a b pivot).1
      (partitionEqual less l3 a b pivot).2 b lim1 wb1 wp1 fuel') a b := by
  obtain ⟨e1, e2, e3, e4, e5, e6, e7⟩ :=
    partitionEqual_spec sw l3 a b pivot (by omega) hb hp1 hp2
  have hctxpe : LeftCtx less (partitionEqual less l3 a b pivot).1 a b :=
    hctx.transport (partitionEqual_fst_perm less l3 a b pivot).symm e6 hb
  have hLboth : ∀ k, a ≤ k → k < (partitionEqual less l3 a b pivot).2 →
      less (nth (partitionEqual less l3 a b pivot).1 a)
        (nth (partitionEqual less l3 a b pivot).1 k) = false ∧
      less (nth (partitionEqual less l3 a b pivot).1 k)
        (nth (partitionEqual less l3 a b pivot).1 a) = false := by
    intro k h1 h2
    refine ⟨e4 k h1 h2, ?_⟩
    have hpred : nth (partitionEqual less l3 a b pivot).1 (a - 1) = nth l3 (a - 1) :=
      e6 (a - 1) (Or.inl (by omega))
    have hx := hctxpe ha0 k h1 (by omega)
    refine sw.2.2 _ _ _ hx ?_
    rw [hpred, e3]
    exact hpe
  have hctxrec : LeftCtx less (partitionEqual less l3 a b pivot).1
      (partitionEqual less l3 a b pivot).2 b := by
    intro hm0 k h1 h2
    have hp1k := e5 k h1 h2
    have hpm := hLboth ((partitionEqual less l3 a b pivot).2 - 1) (by omega) (by omega)
    cases hcc : less (nth (partitionEqual less l3 a b pivot).1 k)
        (nth (partitionEqual less l3 a b pivot).1
          ((partitionEqual less l3 a b pivot).2 - 1)) with
    | false => rfl
    | true =>
      have h6 := sw.ltle hcc hpm.1
      exact absurd h6 (by simp [sw.2.1 _ _ hp1k])
  obtain ⟨rs, ro⟩ := ih (partitionEqual less l3 a b pivot).1
    (partitionEqual less l3 a b pivot).2 b lim1 wb1 wp1
    (by omega) (by omega) hctxrec
  have hperm : (partitionEqual less l3 a b pivot).1.Perm
      (pdqsort less (partitionEqual less l3 a b pivot).1
        (partitionEqual less l3 a b pivot).2 b lim1 wb1 wp1 fuel') :=
    (pdqsort_perm less fuel' (partitionEqual less l3 a b pivot).1
      (partitionEqual less l3 a b pivot).2 b lim1 wb1 wp1).symm
  have hzq : ∀ q, (partitionEqual less l3 a b pivot).2 ≤ q → q < b →
      less (nth (partitionEqual less l3 a b pivot).1 a)
        (nth (pdqsort less (partitionEqual less l3 a b pivot).1
          (partitionEqual less l3 a b pivot).2 b lim1 wb1 wp1 fuel') q) = true := by
    intro q h1 h2
    obtain ⟨k0, hk1, hk2, hk3⟩ := slice_mem hperm ro (by omega) q h1 h2
    rw [hk3]
    exact e5 k0 hk1 hk2
  constructor
  · intro p q hap hpq hqb
    by_cases hqm : q < (partitionEqual less l3 a b pivot).2
    · rw [ro q (Or.inl hqm), ro p (Or.inl (by omega))]
      cases hcc : less (nth (partitionEqual less l3 a b pivot).1 q)
          (nth (partitionEqual less l3 a b pivot).1 p) with
      | false => rfl
      | true =>
        have h6 := sw.ltle hcc (hLboth p hap (by omega)).1
        exact absurd h6 (by simp [(hLboth q (by omega) hqm).2])
    · by_cases hpm : p < (partitionEqual less l3 a b pivot).2
      · rw [ro p (Or.inl hpm)]
        cases hcc : less (nth (pdqsort less (partitionEqual less l3 a b pivot).1
            (partitionEqual less l3 a b pivot).2 b lim1 wb1 wp1 fuel') q)
            (nth (partitionEqual less l3 a b pivot).1 p) with
        | false => rfl
        | true =>
          have h6 := sw.ltle hcc (hLboth p hap hpm).1
          exact absurd h6 (by simp [sw.2.1 _ _ (hzq q (by omega) hqb)])
      · exact rs p q (by omega) hpq hqb
  · exact e6.comp (ro.widen (by omega) (le_refl b))

/-- The partition branch of pdqsort, left half recursed first: both
recursive calls plus the parked pivot sort the whole window. -/
theorem pdqsort_partL_spec {α : Type} [Inhabited α] {less : α → α → Bool}
    (sw : StrictWeak less) (fuel' : Nat)
    (ih : ∀ (l : List α) (a b limit : Nat) (wB wP : Bool), b ≤ l.length →
      b - a ≤ fuel' → LeftCtx less l a b →
      SortedRange less (pdqsort less l a b limit wB wP fuel') a b ∧
      OutEq l (pdqsort less l a b limit wB wP fuel') a b)
    (l3 : List α) (a b lim1 lim2 pivot : Nat) (wb2 wp2 : Bool)
    (hb : b ≤ l3.length) (h13 : 13 ≤ b - a) (hf : b - a ≤ fuel' + 1)
    (hctx : LeftCtx less l3 a b) (hp1 : a ≤ pivot) (hp2 : pivot < b) :
    SortedRange less
      (pdqsort less
        (pdqsort less (partition less l3 a b pivot).1 a
          (partition less l3 a b pivot).2.1 lim1 true true fuel')
        ((partition less l3 a b pivot).2.1 + 1) b lim2 wb2 wp2 fuel') a b ∧
    OutEq l3
      (pdqsort less
        (pdqsort less (partition less l3 a b pivot).1 a
          (partition less l3 a b pivot).2.1 lim1 true true fuel')
        ((partition less l3 a b pivot).2.1 + 1) b lim2 wb2 wp2 fuel') a b := by
  obtain ⟨p1, p2, p3, p4, p5, p6⟩ := partition_spec sw l3 a b pivot (by omega) hb hp1 hp2
  have hctx4 : LeftCtx less (partition less l3 a b pivot).1 a b :=
    hctx.transport (partition_fst_perm less l3 a b pivot).symm p5 hb
  have hctx4L : LeftCtx less (partition less l3 a b pivot).1 a
      (partition less l3 a b pivot).2.1 :=
    fun ha k h1 h2 => hctx4 ha k h1 (by omega)
  obtain ⟨r1s, r1o⟩ := ih (partition less l3 a b pivot).1 a
    (partition less l3 a b pivot).2.1 lim1 true true (by omega) (by omega) hctx4L
  have hperm1 : (partition less l3 a b pivot).1.Perm
      (pdqsort less (partition less l3 a b pivot).1 a
        (partition less l3 a b pivot).2.1 lim1 true true fuel') :=
    (pdqsort_perm less fuel' (partition less l3 a b pivot).1 a
      (partition less l3 a b pivot).2.1 lim1 true true).symm
  have h5len : (pdqsort less (partition less l3 a b pivot).1 a
      (partition less l3 a b pivot).2.1 lim1 true true fuel').length = l3.length := by
    rw [← hperm1.length_eq, p6]
  have hctx5R : LeftCtx less
      (pdqsort less (partition less l3 a b pivot).1 a
        (partition less l3 a b pivot).2.1 lim1 true true fuel')
      ((partition less l3 a b pivot).2.1 + 1) b := by
    intro h0 k h1 h2
    rw [show (partition less l3 a b pivot).2.1 + 1 - 1 =
      (partition less l3 a b pivot).2.1 by omega]
    rw [r1o k (Or.inr (by omega)),
      r1o (partition less l3 a b pivot).2.1 (Or.inr (le_refl _))]
    exact p4 k (by omega) h2
  obtain ⟨r2s, r2o⟩ := ih
    (pdqsort less (partition less l3 a b pivot).1 a
      (partition less l3 a b pivot).2.1 lim1 true true fuel')
    ((partition less l3 a b pivot).2.1 + 1) b lim2 wb2 wp2
    (by omega) (by omega) hctx5R
  have hperm2 : (pdqsort less (partition less l3 a b pivot).1 a
      (partition less l3 a b pivot).2.1 lim1 true true fuel').Perm
      (pdqsort less
        (pdqsort less (partition less l3 a b pivot).1 a
          (partition less l3 a b pivot).2.1 lim1 true true fuel')
        ((partition less l3 a b pivot).2.1 + 1) b lim2 wb2 wp2 fuel') :=
    (pdqsort_perm less fuel' _ _ _ _ _ _).symm
  have hmidv : nth (pdqsort less
      (pdqsort less (partition less l3 a b pivot).1 a
        (partition less l3 a b pivot).2.1 lim1 true true fuel')
      ((partition less l3 a b pivot).2.1 + 1) b lim2 wb2 wp2 fuel')
      (partition less l3 a b pivot).2.1 =
      nth (partition less l3 a b pivot).1 (partition less l3 a b pivot).2.1 := by
    rw [r2o (partition less l3 a b pivot).2.1 (Or.inl (by omega)),
      r1o (partition less l3 a b pivot).2.1 (Or.inr (le_refl _))]
  have hl5L : ∀ k, a ≤ k → k < (partition less l3 a b pivot).2.1 →
      less (nth (pdqsort less (partition less l3 a b pivot).1 a
          (partition less l3 a b pivot).2.1 lim1 true true fuel') k)
        (nth (partition less l3 a b pivot).1 (partition less l3 a b pivot).2.1) = true := by
    intro k h1 h2
    obtain ⟨k0, hk1, hk2, hk3⟩ := slice_mem hperm1 r1o (by omega) k h1 h2
    rw [hk3]
    exact p3 k0 hk1 hk2
  have hLz : ∀ k, a ≤ k → k < (partition less l3 a b pivot).2.1 →
      less (nth (pdqsort less
          (pdqsort less (partition less l3 a b pivot).1 a
            (partition less l3 a b pivot).2.1 lim1 true true fuel')
          ((partition less l3 a b pivot).2.1 + 1) b lim2 wb2 wp2 fuel') k)
        (nth (pdqsort less
          (pdqsort less (partition less l3 a b pivot).1 a
            (partition less l3 a b pivot).2.1 lim1 true true fuel')
          ((partition less l3 a b pivot).2.1 + 1) b lim2 wb2 wp2 fuel')
          (partition less l3 a b pivot).2.1) = true := by
    intro k h1 h2
    rw [hmidv, r2o k (Or.inl (by omega))]
    exact hl5L k h1 h2
  have hRz : ∀ k, (partition less l3 a b pivot).2.1 < k → k < b →
      less (nth (pdqsort less
          (pdqsort less (partition less l3 a b pivot).1 a
            (partition less l3 a b pivot).2.1 lim1 true true fuel')
          ((partition less l3 a b pivot).2.1 + 1) b lim2 wb2 wp2 fuel') k)
        (nth (pdqsort less
          (pdqsort less (partition less l3 a b pivot).1 a
            (partition less l3 a b pivot).2.1 lim1 true true fuel')
          ((partition less l3 a b pivot).2.1 + 1) b lim2 wb2 wp2 fuel')
          (partition less l3 a b pivot).2.1) = false := by
    intro k h1 h2
    rw [hmidv]
    obtain ⟨k0, hk1, hk2, hk3⟩ := slice_mem hperm2 r2o (by omega) k (by omega) h2
    rw [hk3, r1o k0 (Or.inr (by omega))]
    exact p4 k0 (by omega) hk2
  have hSL : SortedRange less (pdqsort less
      (pdqsort less (partition less l3 a b pivot).1 a
        (partition less l3 a b pivot).2.1 lim1 true true fuel')
      ((partition less l3 a b pivot).2.1 + 1) b lim2 wb2 wp2 fuel')
      a (partition less l3 a b pivot).2.1 := by
    intro p q h1 h2 h3
    rw [r2o q (Or.inl (by omega)), r2o p (Or.inl (by omega))]
    exact r1s p q h1 h2 h3
  refine ⟨pdq_assemble sw _ a (partition less l3 a b pivot).2.1 b p1 p2 hLz hRz hSL r2s, ?_⟩
  exact p5.comp ((r1o.widen (le_refl a) (by omega)).comp (r2o.widen (by omega) (le_refl b)))

/-- The partition branch of pdqsort, right half recursed first. -/
theorem pdqsort_partR_spec {α : Type} [Inhabited α] {less : α → α → Bool}
    (sw : StrictWeak less) (fuel' : Nat)
    (ih : ∀ (l : List α) (a b limit : Nat) (wB wP : Bool), b ≤ l.length →
      b - a ≤ fuel' → LeftCtx less l a b →
      SortedRange less (pdqsort less l a b limit wB wP fuel') a b ∧
      OutEq l (pdqsort less l a b limit wB wP fuel') a b)
    (l3 : List α) (a b lim1 lim2 pivot : Nat) (wb2 wp2 : Bool)
    (hb : b ≤ l3.length) (h13 : 13 ≤ b - a) (hf : b - a ≤ fuel' + 1)
    (hctx : LeftCtx less l3 a b) (hp1 : a ≤ pivot) (hp2 : pivot < b) :
    SortedRange less
      (pdqsort less
        (pdqsort less (partition less l3 a b pivot).1
          ((partition less l3 a b pivot).2.1 + 1) b lim1 true true fuel')
        a (partition less l3 a b pivot).2.1 lim2 wb2 wp2 fuel') a b ∧
    OutEq l3
      (pdqsort less
        (pdqsort less (partition less l3 a b pivot).1
          ((partition less l3 a b pivot).2.1 + 1) b lim1 true true fuel')
        a (partition less l3 a b pivot).2.1 lim2 wb2 wp2 fuel') a b := by
  obtain ⟨p1, p2, p3, p4, p5, p6⟩ := partition_spec sw l3 a b pivot (by omega) hb hp1 hp2
  have hctx4 : LeftCtx less (partition less l3 a b pivot).1 a b :=
    hctx.transport (partition_fst_perm less l3 a b pivot).symm p5 hb
  have hctx4R : LeftCtx less (partition less l3 a b pivot).1
      ((partition less l3 a b pivot).2.1 + 1) b := by
    intro h0 k h1 h2
    rw [show (partition less l3 a b pivot).2.1 + 1 - 1 =
      (partition less l3 a b pivot).2.1 by omega]
    exact p4 k (by omega) h2
  obtain ⟨r1s, r1o⟩ := ih (partition less l3 a b pivot).1
    ((partition less l3 a b pivot).2.1 + 1) b lim1 true true (by omega) (by omega) hctx4R
  have hperm1 : (partition less l3 a b pivot).1.Perm
      (pdqsort less (partition less l3 a b pivot).1
        ((partition less l3 a b pivot).2.1 + 1) b lim1 true true fuel') :=
    (pdqsort_perm less fuel' (partition less l3 a b pivot).1
      ((partition less l3 a b pivot).2.1 + 1) b lim1 true true).symm
  have h5len : (pdqsort less (partition less l3 a b pivot).1
      ((partition less l3 a b pivot).2.1 + 1) b lim1 true true fuel').length = l3.length := by
    rw [← hperm1.length_eq, p6]
  have hctx5L : LeftCtx less
      (pdqsort less (partition less l3 a b pivot).1
        ((partition less l3 a b pivot).2.1 + 1) b lim1 true true fuel')
      a (partition less l3 a b pivot).2.1 := by
    intro h0 k h1 h2
    rw [r1o k (Or.inl (by omega)), r1o (a - 1) (Or.inl (by omega))]
    exact hctx4 h0 k h1 (by omega)
  obtain ⟨r2s, r2o⟩ := ih
    (pdqsort less (partition less l3 a b pivot).1
      ((partition less l3 a b pivot).2.1 + 1) b lim1 true true fuel')
    a (partition less l3 a b pivot).2.1 lim2 wb2 wp2
    (by omega) (by omega) hctx5L
  have hperm2 : (pdqsort less (partition less l3 a b pivot).1
      ((partition less l3 a b pivot).2.1 + 1) b lim1 true true fuel').Perm
      (pdqsort less
        (pdqsort less (partition less l3 a b pivot).1
          ((partition less l3 a b pivot).2.1 + 1) b lim1 true true fuel')
        a (partition less l3 a b pivot).2.1 lim2 wb2 wp2 fuel') :=
    (pdqsort_perm less fuel' _ _ _ _ _ _).symm
  have hmidv : nth (pdqsort less
      (pdqsort less (partition less l3 a b pivot).1
        ((partition less l3 a b pivot).2.1 + 1) b lim1 true true fuel')
      a (partition less l3 a b pivot).2.1 lim2 wb2 wp2 fuel')
      (partition less l3 a b pivot).2.1 =
      nth (partition less l3 a b pivot).1 (partition less l3 a b pivot).2.1 := by
    rw [r2o (partition less l3 a b pivot).2.1 (Or.inr (le_refl _)),
      r1o (partition less l3 a b pivot).2.1 (Or.inl (by omega))]
  have hLz : ∀ k, a ≤ k → k < (partition less l3 a b pivot).2.1 →
      less (nth (pdqsort less
          (pdqsort less (partition less l3 a b pivot).1
            ((partition less l3 a b pivot).2.1 + 1) b lim1 true true fuel')
          a (partition less l3 a b pivot).2.1 lim2 wb2 wp2 fuel') k)
        (nth (pdqsort less
          (pdqsort less (partition less l3 a b pivot).1
            ((partition less l3 a b pivot).2.1 + 1) b lim1 true true fuel')
          a (partition less l3 a b pivot).2.1 lim2 wb2 wp2 fuel')
          (partition less l3 a b pivot).2.1) = true := by
    intro k h1 h2
    rw [hmidv]
    obtain ⟨k0, hk1, hk2, hk3⟩ := slice_mem hperm2 r2o (by omega) k h1 h2
    rw [hk3, r1o k0 (Or.inl (by omega))]
    exact p3 k0 hk1 hk2
  have hRz : ∀ k, (partition less l3 a b pivot).2.1 < k → k < b →
      less (nth (pdqsort less
          (pdqsort less (partition less l3 a b pivot).1
            ((partition less l3 a b pivot).2.1 + 1) b lim1 true true fuel')
          a (partition less l3 a b pivot).2.1 lim2 wb2 wp2 fuel') k)
        (nth (pdqsort less
          (pdqsort less (partition less l3 a b pivot).1
            ((partition less l3 a b pivot).2.1 + 1) b lim1 true true fuel')
          a (partition less l3 a b pivot).2.1 lim2 wb2 wp2 fuel')
          (partition less l3 a b pivot).2.1) = false := by
    intro k h1 h2
    rw [hmidv, r2o k (Or.inr (by omega))]
    obtain ⟨k0, hk1, hk2, hk3⟩ := slice_mem hperm1 r1o (by omega) k (by omega) h2
    rw [hk3]
    exact p4 k0 (by omega) hk2
  have hSR : SortedRange less (pdqsort less
      (pdqsort less (partition less l3 a b pivot).1
        ((partition less l3 a b pivot).2.1 + 1) b lim1 true true fuel')
      a (partition less l3 a b pivot).2.1 lim2 wb2 wp2 fuel')
      ((partition less l3 a b pivot).2.1 + 1) b := by
    intro p q h1 h2 h3
    rw [r2o q (Or.inr (by omega)), r2o p (Or.inr (by omega))]
    exact r1s p q h1 h2 h3
  refine ⟨pdq_assemble sw _ a (partition less l3 a b pivot).2.1 b p1 p2 hLz hRz r2s hSR, ?_⟩
  exact p5.comp ((r1o.widen (by omega) (le_refl b)).comp (r2o.widen (le_refl a) (by omega)))

set_option maxHeartbeats 1000000 in
/-- Go sort's pdqsort sorts the window [a, b) it is given and fixes every
position outside it, whenever its fuel covers the window, the window is
within bounds, and the left context invariant holds. -/
theorem pdqsort_spec {α : Type} [Inhabited α] {less : α → α → Bool}
    (sw : StrictWeak less) :
    ∀ fuel (l : List α) (a b limit : Nat) (wb wp : Bool),
      b ≤ l.length → b - a ≤ fuel → LeftCtx less l a b →
      SortedRange less (pdqsort less l a b limit wb wp fuel) a b ∧
      OutEq l (pdqsort less l a b limit wb wp fuel) a b := by
  intro fuel
  induction fuel with
  | zero =>
    intro l a b limit wb wp hb hf hctx
    rw [pdqsort]
    exact ⟨fun p q h1 h2 h3 => by omega, fun k hk => rfl⟩
  | succ fuel' ih =>
    intro l a b limit wb wp hb hf hctx
    by_cases h12 : b - a ≤ 12
    · have hstep : pdqsort less l a b limit wb wp (fuel' + 1) = insertionSort less l a b := by
        rw [pdqsort]
        dsimp only
        rw [if_pos h12]
      rw [hstep]
      exact insertionSort_spec sw l a b hb
    · by_cases hlim : limit = 0
      · have hstep : pdqsort less l a b limit wb wp (fuel' + 1) = heapSort less l a b := by
          rw [pdqsort]
          dsimp only
          rw [if_neg h12]
          rw [if_pos hlim]
        rw [hstep]
        exact heapSort_spec sw l a b (by omega) hb
      · rw [pdqsort]
        dsimp only
        rw [if_neg h12]
        rw [if_neg hlim]
        set l1 := if wb = false then breakPatterns l a b else l with hl1def
        have hl1 : OutEq l l1 a b ∧ l1.Perm l := by
          rw [hl1def]
          split
          · exact ⟨breakPatterns_out l a b, breakPatterns_perm l a b⟩
          · exact ⟨fun k hk => rfl, List.Perm.refl l⟩
        have hl1len : l1.length = l.length := hl1.2.length_eq
        have hctx1 : LeftCtx less l1 a b := hctx.transport hl1.2.symm hl1.1 hb
        set pv := choosePivot less l1 a b with hpvdef
        set l2 := if pv.2 = SortedHint.decreasing then reverseRange l1 a b else l1 with hl2def
        have hl2 : OutEq l1 l2 a b ∧ l2.Perm l1 := by
          rw [hl2def]
          split
          · exact ⟨reverseRange_out l1 a b (by omega), reverseRange_perm l1 a b⟩
          · exact ⟨fun k hk => rfl, List.Perm.refl l1⟩
        have hl2len : l2.length = l.length := by rw [hl2.2.length_eq, hl1len]
        have hctx2 : LeftCtx less l2 a b := hctx1.transport hl2.2.symm hl2.1 (by omega)
        set pivot := if pv.2 = SortedHint.decreasing then b - 1 - (pv.1 - a) else pv.1
          with hpivdef
        have hpivr : a ≤ pivot ∧ pivot < b := by
          obtain ⟨c1, c2⟩ := choosePivot_range less l1 a b (by omega)
          rw [← hpvdef] at c1 c2
          rw [hpivdef]
          split
          · constructor <;> omega
          · exact ⟨c1, c2⟩
        set pis := if wb = true ∧ wp = true ∧
            (if pv.2 = SortedHint.decreasing then SortedHint.increasing else pv.2) =
              SortedHint.increasing then
          partInsertionSort less l2 a b else (l2, false) with hpisdef
        have hpis : OutEq l2 pis.1 a b ∧ pis.1.Perm l2 ∧
            (pis.2 = true → SortedRange less pis.1 a b) := by
          by_cases hcc : wb = true ∧ wp = true ∧
              (if pv.2 = SortedHint.decreasing then SortedHint.increasing else pv.2) =
                SortedHint.increasing
          · rw [hpisdef, if_pos hcc]
            obtain ⟨q1, q2⟩ := partInsertionSort_spec sw l2 a b (by omega) (by omega) hctx2
            exact ⟨q2, partInsertionSort_fst_perm less l2 a b, q1⟩
          · rw [hpisdef, if_neg hcc]
            exact ⟨fun k hk => rfl, List.Perm.refl l2, fun h => absurd h (by simp)⟩
        have hpislen : pis.1.length = l.length := by rw [hpis.2.1.length_eq, hl2len]
        have hctx3 : LeftCtx less pis.1 a b := hctx2.transport hpis.2.1.symm hpis.1 (by omega)
        have hout3 : OutEq l pis.1 a b := (hl1.1.comp hl2.1).comp hpis.1
        by_cases hpis2 : pis.2 = true
        · rw [if_pos hpis2]
          exact ⟨hpis.2.2 hpis2, hout3⟩
        · rw [if_neg hpis2]
          by_cases hcpe : 0 < a ∧ ¬ less (nth pis.1 (a - 1)) (nth pis.1 pivot) = true
          · rw [if_pos hcpe]
            have hpe : less (nth pis.1 (a - 1)) (nth pis.1 pivot) = false := by
              cases h : less (nth pis.1 (a - 1)) (nth pis.1 pivot) with
              | false => rfl
              | true => exact absurd h hcpe.2
            obtain ⟨zs, zo⟩ := pdqsort_pe_spec sw fuel' ih pis.1 a b
              (if wb = false then limit - 1 else limit) pivot wb wp
              (by omega) (by omega) (by omega) hctx3 hpivr.1 hpivr.2 hcpe.1 hpe
            exact ⟨zs, hout3.comp zo⟩
          · rw [if_neg hcpe]
            by_cases hlr : (partition less pis.1 a b pivot).2.1 - a <
                b - (partition less pis.1 a b pivot).2.1
            · rw [if_pos hlr]
              obtain ⟨zs, zo⟩ := pdqsort_partL_spec sw fuel' ih pis.1 a b
                (if wb = false then limit - 1 else limit)
                (if wb = false then limit - 1 else limit) pivot
                (decide ((b - a) / 8 ≤ ((partition less pis.1 a b pivot).2.1 - a) ⊓
                  (b - (partition less pis.1 a b pivot).2.1)))
                (partition less pis.1 a b pivot).2.2
                (by omega) (by omega) (by omega) hctx3 hpivr.1 hpivr.2
              exact ⟨zs, hout3.comp zo⟩
            · rw [if_neg hlr]
              obtain ⟨zs, zo⟩ := pdqsort_partR_spec sw fuel' ih pis.1 a b
                (if wb = false then limit - 1 else limit)
                (if wb = false then limit - 1 else limit) pivot
                (decide ((b - a) / 8 ≤ ((partition less pis.1 a b pivot).2.1 - a) ⊓
                  (b - (partition less pis.1 a b pivot).2.1)))
                (partition less pis.1 a b pivot).2.2
                (by omega) (by omega) (by omega) hctx3 hpivr.1 hpivr.2
              exact ⟨zs, hout3.comp zo⟩

/-- Go's sort.Slice sorts the whole list. -/
theorem sortSlice_spec {α : Type} [Inhabited α] {less : α → α → Bool}
    (sw : StrictWeak less) (l : List α) :
    SortedRange less (sortSlice less l) 0 l.length := by
  rw [sortSlice]
  exact (pdqsort_spec sw (l.length + 1) l 0 l.length (bitsLen l.length) true true
    (le_refl _) (by omega) (fun h0 k h1 h2 => by omega)).1

/-- Pairwise sortedness of a whole list from range sortedness. -/
theorem sortedRange_pairwise {α : Type} [Inhabited α] {less : α → α → Bool}
    (l : List α) (h : SortedRange less l 0 l.length) :
    List.Pairwise (fun x y => less y x = false) l := by
  rw [List.pairwise_iff_get]
  intro i j hij
  have h2 := h i j (Nat.zero_le _) hij j.isLt
  rw [nth_in _ _ j.isLt, nth_in _ _ i.isLt] at h2
  simpa [List.get_eq_getElem] using h2

/-- A zip entry holding a one-byte image, for the C3 scenarios. -/
def mkE (n : String) (d : Nat) : ZipEntry :=
  { name := str n, isDir := false, openErr := none, content := .ok [d] }

/-- Thirteen image entries whose base names collide across directories;
the two f.jpg entries carry distinguishable payloads. -/
def c3Entries : List ZipEntry :=
  [ mkE "d0/f.jpg" 100, mkE "d1/f.jpg" 101, mkE "d2/k.jpg" 102, mkE "d3/k.jpg" 103,
    mkE "d4/k.jpg" 104, mkE "d5/k.jpg" 105, mkE "d6/k.jpg" 106, mkE "d7/k.jpg" 107,
    mkE "d8/k.jpg" 108, mkE "d9/a.jpg" 109, mkE "da/a.jpg" 110, mkE "db/a.jpg" 111,
    mkE "dc/b.jpg" 112 ]

/-- A filesystem holding the thirteen-entry archive. -/
def c3Fs : FS := fun p =>
  if p = str "c.cbz" then .ok c3Entries else .error (str "no such file")

/-- C3, counterexample: the entry loop of ReadFile collects the two
images named f.jpg with payloads 100 then 101 in container iteration
order, but the sorted archive ReadFile returns holds them as 101 then
100 — sort.Slice (pdqsort) is not stable, so two images sharing a name
do not keep their relative container order. -/
theorem c3_counterexample :
    ((readEntries c3Entries).map (fun imgs =>
      (imgs.filter (fun im => im.Name = str "f.jpg")).map (fun im => im.Data)) =
      .ok [[100], [101]]) ∧
    ((ReadFile c3Fs (str "c.cbz")).map (fun f =>
      (f.Images.filter (fun im => im.Name = str "f.jpg")).map (fun im => im.Data)) =
      .ok [[101], [100]]) := by
  constructor
  · decide
  · decide

/-- C3 (amended): for every filesystem and path on which ReadFile
succeeds, the returned archive holds exactly the images the entry loop
retained, as a permutation sorted by name ascending under byte-wise
comparison.  The sort is total but not stable: images sharing a name may
lose their container order (see the counterexample). -/
theorem c3_read_sorted (fs : FS) (p : Str) (f : CbzFile)
    (h : ReadFile fs p = .ok f) :
    ∃ entries imgs, fs p = .ok entries ∧ readEntries entries = .ok imgs ∧
      f.Images.Perm imgs ∧
      List.Pairwise (fun x y => strLt y.Name x.Name = false) f.Images := by
  unfold ReadFile at h
  cases hfs : fs p with
  | error e => rw [hfs] at h; cases h
  | ok entries =>
    rw [hfs] at h
    dsimp only at h
    cases hre : readEntries entries with
    | error e => rw [hre] at h; cases h
    | ok imgs =>
      rw [hre] at h
      dsimp only at h
      injection h with h2
      refine ⟨entries, imgs, rfl, hre, ?_, ?_⟩
      · rw [← h2]
        exact sortSlice_perm lessImage imgs
      · rw [← h2]
        exact sortedRange_pairwise _ ((sortSlice_perm lessImage imgs).length_eq ▸
          sortSlice_spec lessImage_swo imgs)

/-- Two image entries listed in reverse name order, for the C3 witness. -/
def c3wEntries : List ZipEntry := [mkE "b.jpg" 1, mkE "a.jpg" 2]

/-- A filesystem holding the two-entry archive. -/
def c3wFs : FS := fun p =>
  if p = str "w.cbz" then .ok c3wEntries else .error (str "no such file")

/-- The archive ReadFile returns for the C3 witness scenario. -/
def c3wResult : CbzFile :=
  { Name := str "w.cbz",
    Images := [{ Name := str "a.jpg", Data := [2], MimeType := str "image/jpeg" },
               { Name := str "b.jpg", Data := [1], MimeType := str "image/jpeg" }] }

/-- Witness for the amended C3 at a concrete archive. -/
theorem c3_read_sorted_witness :
    ∃ entries imgs, c3wFs (str "w.cbz") = .ok entries ∧
      readEntries entries = .ok imgs ∧
      c3wResult.Images.Perm imgs ∧
      List.Pairwise (fun x y => strLt y.Name x.Name = false) c3wResult.Images :=
  c3_read_sorted c3wFs (str "w.cbz") c3wResult (by decide)
